import Mathlib

/-!
Match ledger and cross-table of `EngineMatch` (cutechess-nTCEC).

A shallow embedding of `projects/cli/src/enginematch.cpp`:

* `QVariant`, `QMap`: the Qt value and sorted-map types the code works on;
* `onGameStarted`, `onGameFinished`: the ledger (`matchProgress`) updates;
* `generateCrossTable`: abbreviations, scores, Sonneborn-Berger, row order;
* `evalString`, `scheduleBlackEval`, `scheduleFile`, `crossTableFile`: the evaluation
  strings of the ledger, their display in the schedule, the names of the reports;
* `printRanking`: the lines of the ranking.

The pairing of `RoundRobinTournament` and the rules of `GameAdjudicator` are declared
in `projects/lib/src/roundrobintournament.h` and `gameadjudicator.h`; their
implementations are not among the sources, and `schedule` and
`GameAdjudicator.addEval` are modelled from the specification.

Conventions of the embedding.  `int` is `Int` (no arithmetic of the modelled code
leaves the 32-bit range on the inputs considered).  The `double` scores of the
cross-table only ever hold sums of `1`, `0.5` and halves of such sums, which are
exact in binary floating point, so they are embedded as rationals.  In
`printRanking` the score ratio is the exact quotient and the rating estimate, a
logarithm, is a parameter of the embedding; `eloDiff` instantiates it with the
argument of the logarithm, in the order of the estimates.  `QString` is `String`;
`QChar` is `Char`.
-/

namespace EngineMatch

/-! ## Qt containers -/

/-- The type `QVariant`, restricted to the alternatives a parsed JSON document can hold. -/
inductive QVariant where
  | invalid : QVariant
  | int : Int → QVariant
  | string : String → QVariant
  | list : List QVariant → QVariant
  | map : List (String × QVariant) → QVariant

/-- The type `QMap<QString, T>`: association list kept sorted by key, keys unique. -/
abbrev QMap (α : Type) := List (String × α)

/-- The type `QVariantMap`, which is `QMap<QString, QVariant>`. -/
abbrev QVariantMap := QMap QVariant

/-- The type `QVariantList`, which is `QList<QVariant>`. -/
abbrev QVariantList := List QVariant

namespace QMap

variable {α : Type}

/-- The method `QMap::insert(key, value)`: replaces the value of an existing key, otherwise
inserts the pair at its place in key order. -/
def insert : QMap α → String → α → QMap α
  | [], key, value => [(key, value)]
  | (k, v) :: rest, key, value =>
    if key < k then (key, value) :: (k, v) :: rest
    else if key = k then (key, value) :: rest
    else (k, v) :: insert rest key value

/-- The method `QMap::contains(key)`. -/
def contains : QMap α → String → Bool
  | [], _ => false
  | (k, _) :: rest, key => if key = k then true else contains rest key

/-- The method `QMap::value(key, defaultValue)`; also what `operator[]` reads. -/
def value : QMap α → String → α → α
  | [], _, dflt => dflt
  | (k, v) :: rest, key, dflt => if key = k then v else value rest key dflt

/-- The method `QMap::isEmpty()`. -/
def isEmpty (m : QMap α) : Bool := List.isEmpty m

/-- The method `QMap::keys()`, in ascending key order. -/
def keys (m : QMap α) : List String := List.map Prod.fst m

/-- The method `QMap::values()`, in ascending key order. -/
def values (m : QMap α) : List α := List.map Prod.snd m

/-- The effect of `T& x = m[key]; x = f(x);`: non-const `operator[]` inserts a
default-constructed value when the key is missing, then the value is updated
through the reference. -/
def modify (m : QMap α) (key : String) (dflt : α) (f : α → α) : QMap α :=
  insert m key (f (value m key dflt))

end QMap

namespace QVariant

/-- The method `QVariant::toMap()`: the map, or an empty map for any other alternative. -/
def toMap : QVariant → QVariantMap
  | map m => m
  | _ => []

/-- The method `QVariant::toList()`: the list, or an empty list for any other alternative. -/
def toList : QVariant → QVariantList
  | list l => l
  | _ => []

/-- The method `QVariant::toString()`: strings as they are, integers in decimal, anything
else as the empty string. -/
def toString : QVariant → String
  | string s => s
  | int i => ToString.toString i
  | _ => ""

end QVariant

/-- The expression `pMap["key"]` on a `QVariantMap` that is only read. -/
def QVariantMap.get (m : QVariantMap) (key : String) : QVariant :=
  QMap.value m key QVariant.invalid

/-! ## The ledger: `onGameStarted` -/

/-- Lines 516-518 of `onGameStarted`: `while (length-- >= number) pList.removeLast();`.
`QList::removeLast` on an empty list is undefined, which is `none` here. -/
def removeLastLoop (pList : QVariantList) (length number : Int) : Option QVariantList :=
  if length ≥ number then
    match pList with
    | [] => none
    | _ :: _ => removeLastLoop pList.dropLast (length - 1) number
  else some pList
termination_by (length - number + 1).toNat
decreasing_by omega

/-- Lines 509-521 of `onGameStarted`: the `matchProgress` list of the document,
cut back so that game `number` and everything after it is gone. -/
def truncatedProgress (tfMap : QVariantMap) (number : Int) : Option QVariantList :=
  if !QMap.isEmpty tfMap then
    if QMap.contains tfMap "matchProgress" then
      let pList := (QVariantMap.get tfMap "matchProgress").toList
      let length : Int := pList.length
      if length ≥ number then removeLastLoop pList length number
      else some pList
    else some []
  else some []

/-- Lines 523-530 of `onGameStarted`: the record of a game that has just started. -/
def startRecord (number : Int) (white black startTime : String) : QVariantMap :=
  let pMap : QVariantMap := []
  let pMap := QMap.insert pMap "index" (QVariant.int number)
  let pMap := QMap.insert pMap "white" (QVariant.string white)
  let pMap := QMap.insert pMap "black" (QVariant.string black)
  let pMap := QMap.insert pMap "startTime" (QVariant.string startTime)
  let pMap := QMap.insert pMap "result" (QVariant.string "*")
  let pMap := QMap.insert pMap "terminationDetails" (QVariant.string "in progress")
  pMap

/-- Lines 509-531 of `onGameStarted`: the ledger after game `number` started. -/
def startedProgress (tfMap : QVariantMap) (number : Int)
    (white black startTime : String) : Option QVariantList :=
  (truncatedProgress tfMap number).map
    (fun pList => pList ++ [QVariant.map (startRecord number white black startTime)])

/-- The slot `EngineMatch::onGameStarted` on the parsed tournament document `tfMap` (empty
when the file does not exist yet): the document that is written back. -/
def onGameStarted (tfMap : QVariantMap) (number : Int)
    (white black startTime : String) : Option QVariantMap :=
  (startedProgress tfMap number white black startTime).map
    (fun pList => QMap.insert tfMap "matchProgress" (QVariant.list pList))

/-- The `matchProgress` list of a document. -/
def matchProgress (tfMap : QVariantMap) : QVariantList :=
  (QVariantMap.get tfMap "matchProgress").toList

/-! ## The ledger: `onGameFinished` -/

/-- The call `QString::number(double(score) / 100.0, 'f', 2)`: the score in pawns with
exactly two fraction digits.  The quotient is the double nearest to `score / 100`,
whose two-digit rounding is `score / 100` itself. -/
def fixed2 (score : Int) : String :=
  let a := score.natAbs
  (if score < 0 then "-" else "") ++ ToString.toString (a / 100) ++ "."
    ++ (if a % 100 < 10 then "0" else "") ++ ToString.toString (a % 100)

/-- Lines 611-624 of `onGameFinished`: the evaluation string of a score in
centipawns, `M<n>` / `-M<n>` for mate scores. -/
def evalString (score : Int) : String :=
  let absScore : Int := |score|
  if absScore > 9900 ∧ 1000 - absScore % 1000 < 100 then
    (if score < 0 then "-" else "") ++ ("M" ++ ToString.toString (1000 - absScore % 1000))
  else
    fixed2 score

/-- The call `qRound(size / 2.)` for a non-negative size: `int(size / 2. + 0.5)`. -/
def qRoundHalf (size : Nat) : Int := ((size + 1) / 2 : Nat)

/-- The class `EcoInfo`: the opening classification of a game. -/
structure EcoInfo where
  ecoCode : String
  opening : String
  variation : String

/-- What `onGameFinished` reads from the finished `ChessGame`. -/
structure FinishedGame where
  /-- The value of `game->result().toShortString()` -/
  resultShort : String
  /-- The value of `game->result().shortDescription()` -/
  shortDescription : String
  /-- The value of `game->pgn()->eco()`, `none` for a null `pgn` -/
  eco : Option EcoInfo
  /-- The value of `game->moves().size()` -/
  moves : Nat
  /-- The value of `game->board()->fenString()` -/
  fenString : String
  /-- The value of `game->player(Chess::Side::White)->evaluation().score()` -/
  whiteScore : Int
  /-- The value of `game->player(Chess::Side::Black)->evaluation().score()` -/
  blackScore : Int
  /-- The value of `game->gameDuration()` -/
  gameDuration : QVariant

/-- The statement `if (!val.isEmpty()) pMap.insert(key, val);` -/
def insertNonEmpty (pMap : QVariantMap) (key val : String) : QVariantMap :=
  if !val.isEmpty then QMap.insert pMap key (QVariant.string val) else pMap

/-- Lines 587-632 of `onGameFinished`: the record of game `number` with the
outcome of the game filled in. -/
def finishRecord (pMap : QVariantMap) (game : FinishedGame) : QVariantMap :=
  let pMap := QMap.insert pMap "result" (QVariant.string game.resultShort)
  let pMap := QMap.insert pMap "terminationDetails" (QVariant.string game.shortDescription)
  let pMap :=
    match game.eco with
    | some eco =>
      let pMap := insertNonEmpty pMap "ECO" eco.ecoCode
      let pMap := insertNonEmpty pMap "opening" eco.opening
      let pMap := insertNonEmpty pMap "variation" eco.variation
      QMap.insert pMap "plyCount" (QVariant.int (qRoundHalf game.moves))
    | none => pMap
  let pMap := QMap.insert pMap "finalFen" (QVariant.string game.fenString)
  let pMap := QMap.insert pMap "whiteEval" (QVariant.string (evalString game.whiteScore))
  let pMap := QMap.insert pMap "blackEval" (QVariant.string (evalString game.blackScore))
  let pMap := QMap.insert pMap "gameDuration" game.gameDuration
  pMap

/-- The method `QList::at(i)`; an index out of range is undefined (`none`). -/
def QList.at {α : Type} (l : List α) (i : Int) : Option α :=
  if 0 ≤ i then l.get? i.toNat else none

/-- The method `QList::replace(i, value)` for an index in range. -/
def QList.replace {α : Type} (l : List α) (i : Int) (value : α) : List α :=
  l.set i.toNat value

/-- Lines 572-584 of `onGameFinished`: the ledger `pList` and the record `pMap`
of game `number`; `pMap` stays empty when the ledger is too short or absent. -/
def finishLookup (tfMap : QVariantMap) (number : Int) :
    Option (QVariantList × QVariantMap) :=
  if !QMap.isEmpty tfMap then
    if QMap.contains tfMap "matchProgress" then
      let pList := (QVariantMap.get tfMap "matchProgress").toList
      let length : Int := pList.length
      if length < number then some (pList, [])
      else (QList.at pList (number - 1)).map (fun v => (pList, v.toMap))
    else some ([], [])
  else some ([], [])

/-- What a call left behind: either nothing was written, or the document was
rewritten and both reports were regenerated from `pList`. -/
inductive Written where
  | nothing : Written
  | document (tfMap : QVariantMap) (pList : QVariantList) : Written

/-- The slot `EngineMatch::onGameFinished` on the parsed tournament document (lines
572-646). -/
def onGameFinished (tfMap : QVariantMap) (number : Int) (game : FinishedGame) :
    Option Written :=
  (finishLookup tfMap number).map (fun (pList, pMap) =>
    if !QMap.isEmpty pMap then
      let pMap := finishRecord pMap game
      let pList := QList.replace pList (number - 1) (QVariant.map pMap)
      Written.document (QMap.insert tfMap "matchProgress" (QVariant.list pList)) pList
    else Written.nothing)

/-! ## The cross-table: `generateCrossTable` -/

/-- The `CrossTableData` struct; the defaults are those of its default constructor. -/
structure CrossTableData where
  m_engineName : String := ""
  m_engineAbbrev : String := ""
  m_score : ℚ := 0
  m_neustadtlScore : ℚ := 0
  m_elo : Int := 0
  m_gamesPlayedAsWhite : Int := 0
  m_gamesPlayedAsBlack : Int := 0
  m_winsAsWhite : Int := 0
  m_winsAsBlack : Int := 0
  m_tableData : QMap String := []

/-- What `generateCrossTable` reads of `m_tournament->playerAt(i)`: the builder's
`name()` and `rating()`. -/
structure PlayerData where
  name : String
  rating : Int

/-- The cross-table map `QMap<QString, CrossTableData> ctMap`. -/
abbrev CrossTable := QMap CrossTableData

/-- The expression `name.length() > n ? name.at(n++).toLower() : ' '` of lines 323
and 325: the character it yields and the value of `n` afterwards.  `QChar::toLower`
is taken on the ASCII range. -/
def nextLetter (engineName : String) (n : Nat) : Char × Nat :=
  if engineName.length > n then ((engineName.data.getD n ' ').toLower, n + 1) else (' ', n)

/-- Lines 321-323: the first candidate abbreviation of a name and the value of `n`
after it; `at(0)` of an empty name is undefined (`none`). -/
def firstAbbrev (engineName : String) : Option (String × Nat) :=
  match engineName.data with
  | [] => none
  | c :: _ =>
    some (String.mk [c.toUpper, (nextLetter engineName 1).1], (nextLetter engineName 1).2)

/-- The assignment `abbrev[1] = c`. -/
def setSecond (abbr : String) (c : Char) : String :=
  String.mk (abbr.data.set 1 c)

/-- Lines 324-326: `while (abbrevList.contains(abbrev)) abbrev[1] = ...;`, run for
at most `fuel` tests of the loop condition; `none` when the loop has not left by
then. -/
def abbrevLoop : Nat → List String → String → String → Nat → Option String
  | 0, _, _, _, _ => none
  | fuel + 1, abbrevList, engineName, abbr, n =>
    if abbr ∈ abbrevList then
      abbrevLoop fuel abbrevList engineName
        (setSecond abbr (nextLetter engineName n).1) (nextLetter engineName n).2
    else some abbr

/-- Lines 317-330: names and abbreviations of all players, starting from the table
and the abbreviation list built so far. -/
def ensureNames (fuel : Nat) :
    List PlayerData → CrossTable → List String → Option (CrossTable × List String)
  | [], ctMap, abbrevList => some (ctMap, abbrevList)
  | player :: rest, ctMap, abbrevList =>
    match firstAbbrev player.name with
    | none => none
    | some (abbr, n) =>
      match abbrevLoop fuel abbrevList player.name abbr n with
      | none => none
      | some abbr =>
        ensureNames fuel rest
          (QMap.insert ctMap player.name
            { m_engineName := player.name, m_elo := player.rating, m_engineAbbrev := abbr })
          (abbrevList ++ [abbr])

/-- An update through `CrossTableData& d = ctMap[name]`. -/
def update (ctMap : CrossTable) (name : String) (f : CrossTableData → CrossTableData) :
    CrossTable :=
  QMap.modify ctMap name {} f

/-- An update through `QString& s = ctMap[name].m_tableData[opponent]`. -/
def updateString (ctMap : CrossTable) (name opponent : String) (f : String → String) :
    CrossTable :=
  update ctMap name (fun d => { d with m_tableData := QMap.modify d.m_tableData opponent "" f })

/-- Lines 339-366: the body of the loop over the ledger for a record that names
White, Black and a result. -/
def countResult (ctMap : CrossTable) (whiteName blackName result : String) : CrossTable :=
  let ctMap := update ctMap whiteName id
  let ctMap := update ctMap blackName id
  let ctMap := updateString ctMap whiteName blackName id
  let ctMap := updateString ctMap blackName whiteName id
  if result = "*" then ctMap
  else
    let ctMap :=
      if result = "1-0" then
        let ctMap := update ctMap whiteName (fun d => { d with m_score := d.m_score + 1 })
        let ctMap :=
          update ctMap whiteName (fun d => { d with m_winsAsWhite := d.m_winsAsWhite + 1 })
        let ctMap := updateString ctMap whiteName blackName (· ++ "1")
        updateString ctMap blackName whiteName (· ++ "0")
      else if result = "0-1" then
        let ctMap := update ctMap blackName (fun d => { d with m_score := d.m_score + 1 })
        let ctMap :=
          update ctMap blackName (fun d => { d with m_winsAsBlack := d.m_winsAsBlack + 1 })
        let ctMap := updateString ctMap whiteName blackName (· ++ "0")
        updateString ctMap blackName whiteName (· ++ "1")
      else if result = "1/2-1/2" then
        let ctMap := update ctMap whiteName (fun d => { d with m_score := d.m_score + 1 / 2 })
        let ctMap := update ctMap blackName (fun d => { d with m_score := d.m_score + 1 / 2 })
        let ctMap := updateString ctMap whiteName blackName (· ++ "=")
        updateString ctMap blackName whiteName (· ++ "=")
      else ctMap
    let ctMap :=
      update ctMap whiteName
        (fun d => { d with m_gamesPlayedAsWhite := d.m_gamesPlayedAsWhite + 1 })
    update ctMap blackName
      (fun d => { d with m_gamesPlayedAsBlack := d.m_gamesPlayedAsBlack + 1 })

/-- Lines 334-367: the body of the loop over the ledger, for one record. -/
def countGame (ctMap : CrossTable) (pMap : QVariantMap) : CrossTable :=
  if QMap.contains pMap "white" && QMap.contains pMap "black"
      && QMap.contains pMap "result" then
    countResult ctMap (QVariantMap.get pMap "white").toString
      (QVariantMap.get pMap "black").toString (QVariantMap.get pMap "result").toString
  else ctMap

/-- Lines 333-368: scores and result strings, from all records of the ledger. -/
def scorePass (ctMap : CrossTable) (pList : QVariantList) : CrossTable :=
  pList.foldl (fun ctMap v => countGame ctMap v.toMap) ctMap

/-- Lines 380-388: the Sonneborn-Berger points one result string adds, the
opponent's score being `score`. -/
def sbOfString (score : ℚ) (s : String) (sb : ℚ) : ℚ :=
  s.data.foldl
    (fun sb c => if c = '1' then sb + score else if c = '=' then sb + score / 2 else sb) sb

/-- Lines 376-389: the Sonneborn-Berger score of one entry.  Every opponent named
in an entry's `m_tableData` has an entry of its own, so that `ctMap[td.key()]` only
reads. -/
def neustadtl (ctMap : CrossTable) (ctd : CrossTableData) : ℚ :=
  ctd.m_tableData.foldl
    (fun sb td => sbOfString (QMap.value ctMap td.1 {}).m_score td.2 sb) 0

/-- Lines 370-393: the Sonneborn-Berger pass over all entries, in key order. -/
def sbPass (ctMap : CrossTable) : CrossTable :=
  (QMap.keys ctMap).foldl
    (fun m key => update m key (fun ctd => { ctd with m_neustadtlScore := neustadtl m ctd }))
    ctMap

/-- Lines 405-416: wins, losses and draws counted from a result string. -/
def countResults (s : String) : Nat × Nat × Nat :=
  s.data.foldl
    (fun (acc : Nat × Nat × Nat) c =>
      if c = '1' then (acc.1 + 1, acc.2.1, acc.2.2)
      else if c = '0' then (acc.1, acc.2.1 + 1, acc.2.2)
      else (acc.1, acc.2.1, acc.2.2 + 1))
    (0, 0, 0)

/-- The call `QString("+ %1 = %2 - %3").arg(a).arg(b).arg(c)`. -/
def summary (a b c : Nat) : String :=
  "+ " ++ ToString.toString a ++ " = " ++ ToString.toString b ++ " - " ++ ToString.toString c

/-- Lines 396-428: with two players, the two result strings are replaced by
win/draw/loss summaries; `pList.at(0)` of an empty ledger is undefined (`none`). -/
def twoPlayerSummary (ctMap : CrossTable) (pList : QVariantList) : Option CrossTable :=
  match QList.at pList 0 with
  | none => none
  | some first =>
    let pMap := first.toMap
    if QMap.contains pMap "white" && QMap.contains pMap "black" then
      let whiteName := (QVariantMap.get pMap "white").toString
      let blackName := (QVariantMap.get pMap "black").toString
      let ctMap := update ctMap whiteName id
      let ctMap := update ctMap blackName id
      let ctMap := updateString ctMap whiteName blackName id
      let ctMap := updateString ctMap blackName whiteName id
      let whiteDataString := QMap.value (QMap.value ctMap whiteName {}).m_tableData blackName ""
      let (whiteWin, whiteLose, whiteDraw) := countResults whiteDataString
      let ctMap :=
        updateString ctMap whiteName blackName (fun _ => summary whiteWin whiteDraw whiteLose)
      some (updateString ctMap blackName whiteName
        (fun _ => summary whiteLose whiteDraw whiteWin))
    else some ctMap

/-- The comparison `sortCrossTableDataByScore` (lines 288-306). -/
def sortCrossTableDataByScore (s1 s2 : CrossTableData) : Bool :=
  if s1.m_score = s2.m_score then
    if s1.m_neustadtlScore = s2.m_neustadtlScore then
      if s1.m_gamesPlayedAsBlack = s2.m_gamesPlayedAsBlack then
        if s1.m_winsAsWhite + s1.m_winsAsBlack = s2.m_winsAsWhite + s2.m_winsAsBlack then
          decide (s1.m_winsAsBlack > s2.m_winsAsBlack)
        else
          decide (s1.m_winsAsWhite + s1.m_winsAsBlack > s2.m_winsAsWhite + s2.m_winsAsBlack)
      else
        decide (s1.m_gamesPlayedAsBlack > s2.m_gamesPlayedAsBlack)
    else
      decide (s1.m_neustadtlScore > s2.m_neustadtlScore)
  else
    decide (s1.m_score > s2.m_score)

/-- Modelled from the spec: Qt's `qSort(begin, end, lessThan)`, library code that
is not among the sources, as the spec has it ("body rows sorted per the ordering"):
a comparison sort by `lessThan`, here by insertion.  Which of two entries that tie
under `lessThan` comes first is not fixed by Qt. -/
def qSort {α : Type} (lessThan : α → α → Bool) (l : List α) : List α :=
  List.insertionSort (fun a b => lessThan b a = false) l

/-- Lines 310-445 of `generateCrossTable`: the entries in the order of the body rows
of the report. -/
def generateCrossTable (fuel : Nat) (players : List PlayerData) (pList : QVariantList) :
    Option (List CrossTableData) :=
  match ensureNames fuel players [] [] with
  | none => none
  | some (ctMap, _) =>
    let ctMap := sbPass (scorePass ctMap pList)
    let ctMap := if players.length = 2 then twoPlayerSummary ctMap pList else some ctMap
    ctMap.map (fun ctMap => qSort sortCrossTableDataByScore (QMap.values ctMap))

/-- The result string of `p` against `o` in a table: `ctMap[p].m_tableData[o]`. -/
def cell (m : CrossTable) (p o : String) : String :=
  QMap.value (QMap.value m p {}).m_tableData o ""

/-- An entry as the constructors leave it: no score, no games, no result strings. -/
def Fresh (e : CrossTableData) : Prop :=
  e.m_score = 0 ∧ e.m_gamesPlayedAsWhite = 0 ∧ e.m_gamesPlayedAsBlack = 0 ∧
    e.m_winsAsWhite = 0 ∧ e.m_winsAsBlack = 0 ∧ e.m_tableData = []

/-- The keys of a map are in strictly ascending order, as `QMap` keeps them. -/
def SortedKeys {α : Type} (m : QMap α) : Prop := (QMap.keys m).Sorted (· < ·)

/-- Every entry of the table keeps its result strings in key order. -/
def TablesSorted (m : CrossTable) : Prop :=
  ∀ q, SortedKeys (QMap.value m q {}).m_tableData

/-- The table is in key order and all of its keys are names of `ns`. -/
def KeysWithin (ns : List String) (m : CrossTable) : Prop :=
  SortedKeys m ∧ ∀ k ∈ QMap.keys m, k ∈ ns

/-! ## The games of a ledger, as the specification counts them -/

/-- A game stated by a ledger record: who played White, who played Black, and the
result (`*` while in progress, else `1-0`, `0-1` or `1/2-1/2`). -/
structure Game where
  white : String
  black : String
  result : String

/-- The game a ledger record states, if it names White, Black and a result. -/
def gameOf (v : QVariant) : Option Game :=
  if QMap.contains v.toMap "white" && QMap.contains v.toMap "black"
      && QMap.contains v.toMap "result" then
    some ⟨(QVariantMap.get v.toMap "white").toString,
      (QVariantMap.get v.toMap "black").toString,
      (QVariantMap.get v.toMap "result").toString⟩
  else none

/-- The games of a ledger, in ledger order. -/
def games (pList : QVariantList) : List Game := pList.filterMap gameOf

/-- The number of finished games `p` won with White. -/
def winsWithWhite (p : String) (gs : List Game) : Nat :=
  gs.countP (fun g => decide (g.white = p ∧ g.result = "1-0"))

/-- The number of finished games `p` won with Black. -/
def winsWithBlack (p : String) (gs : List Game) : Nat :=
  gs.countP (fun g => decide (g.black = p ∧ g.result = "0-1"))

/-- The number of finished games `p` drew with White. -/
def drawsWithWhite (p : String) (gs : List Game) : Nat :=
  gs.countP (fun g => decide (g.white = p ∧ g.result = "1/2-1/2"))

/-- The number of finished games `p` drew with Black. -/
def drawsWithBlack (p : String) (gs : List Game) : Nat :=
  gs.countP (fun g => decide (g.black = p ∧ g.result = "1/2-1/2"))

/-- The number of finished games `p` played with White. -/
def playedWithWhite (p : String) (gs : List Game) : Nat :=
  gs.countP (fun g => decide (g.white = p ∧ g.result ≠ "*"))

/-- The number of finished games `p` played with Black. -/
def playedWithBlack (p : String) (gs : List Game) : Nat :=
  gs.countP (fun g => decide (g.black = p ∧ g.result ≠ "*"))

/-- The number of finished games between `p` and `o`, with either colour. -/
def playedBetween (p o : String) (gs : List Game) : Nat :=
  gs.countP (fun g => decide (((g.white = p ∧ g.black = o) ∨ (g.black = p ∧ g.white = o))
    ∧ g.result ≠ "*"))

/-- The result character of a game for its White player: `1` win, `0` loss, `=`
draw, nothing for a game without one of these results. -/
def whiteChar (result : String) : List Char :=
  if result = "1-0" then ['1'] else if result = "0-1" then ['0']
  else if result = "1/2-1/2" then ['='] else []

/-- The result character of a game for its Black player. -/
def blackChar (result : String) : List Char :=
  if result = "1-0" then ['0'] else if result = "0-1" then ['1']
  else if result = "1/2-1/2" then ['='] else []

/-- The result characters of `p` against `o`, one per game between the two, in
ledger order. -/
def resultChars (p o : String) (gs : List Game) : List Char :=
  gs.flatMap (fun g =>
    (if g.white = p ∧ g.black = o then whiteChar g.result else [])
      ++ (if g.black = p ∧ g.white = o then blackChar g.result else []))

/-- The number of wins of `p` over `o`. -/
def winsOver (p o : String) (gs : List Game) : Nat :=
  gs.countP (fun g => decide (g.white = p ∧ g.black = o ∧ g.result = "1-0"))
    + gs.countP (fun g => decide (g.black = p ∧ g.white = o ∧ g.result = "0-1"))

/-- The number of draws between `p` and `o`. -/
def drawsWith (p o : String) (gs : List Game) : Nat :=
  gs.countP (fun g => decide (g.white = p ∧ g.black = o ∧ g.result = "1/2-1/2"))
    + gs.countP (fun g => decide (g.black = p ∧ g.white = o ∧ g.result = "1/2-1/2"))

/-- The opponents of `p`: every name that a game of the ledger pairs with `p`. -/
def opponents (p : String) (gs : List Game) : Finset String :=
  ((gs.filter (fun g => decide (g.white = p))).map (fun g => g.black)
    ++ (gs.filter (fun g => decide (g.black = p))).map (fun g => g.white)).toFinset

/-- The ranking key of an entry, in lexicographic order: raw score, tie-break score,
games played as Black, total wins, wins as Black. -/
def rankKey (e : CrossTableData) : Lex (ℚ × Lex (ℚ × Lex (Int × Lex (Int × Int)))) :=
  toLex (e.m_score, toLex (e.m_neustadtlScore, toLex (e.m_gamesPlayedAsBlack,
    toLex (e.m_winsAsWhite + e.m_winsAsBlack, e.m_winsAsBlack))))

/-- Every record of the ledger is a drawn game between two different players of the
roster `names`. -/
def AllDrawn (names : List String) (pList : QVariantList) : Prop :=
  ∀ v ∈ pList, ∃ g, gameOf v = some g ∧ g.white ∈ names ∧ g.black ∈ names ∧
    g.white ≠ g.black ∧ g.result = "1/2-1/2"

/-- Each unordered pair of players of the roster has exactly one finished game. -/
def EachPairOnce (names : List String) (pList : QVariantList) : Prop :=
  ∀ p ∈ names, ∀ q ∈ names, p ≠ q → playedBetween p q (games pList) = 1

/-- The ledger invariant: the record at each 1-based position `i` carries index
field `i` (0-based position `i` carries `i + 1`). -/
def Aligned (pList : QVariantList) : Prop :=
  ∀ i, i < pList.length →
    QVariantMap.get ((pList[i]?.getD QVariant.invalid).toMap) "index" = QVariant.int (i + 1)

/-! ## Sample data -/

/-- A document whose ledger holds the record of game 1 only. -/
def oneGame : QVariantMap :=
  QMap.insert [] "matchProgress" (QVariant.list
    [QVariant.map (startRecord 1 "Alpha" "Beta" "10:00:00 on 2017.01.01")])

/-- A document whose ledger holds the records of games 1 to 5, all in progress. -/
def fiveGames : QVariantMap :=
  QMap.insert [] "matchProgress" (QVariant.list
    [QVariant.map (startRecord 1 "Alpha" "Beta" "10:00:00 on 2017.01.01"),
     QVariant.map (startRecord 2 "Gamma" "Delta" "10:00:01 on 2017.01.01"),
     QVariant.map (startRecord 3 "Alpha" "Gamma" "11:00:00 on 2017.01.01"),
     QVariant.map (startRecord 4 "Beta" "Delta" "11:00:01 on 2017.01.01"),
     QVariant.map (startRecord 5 "Alpha" "Delta" "12:00:00 on 2017.01.01")])

/-- Four players of a tournament. -/
def fourPlayers : List PlayerData :=
  [⟨"Alpha", 3100⟩, ⟨"Beta", 3000⟩, ⟨"Gamma", 2900⟩, ⟨"Delta", 2800⟩]

/-- The table of the four players after lines 317-330. -/
def fourTable : CrossTable :=
  [("Alpha", { m_engineName := "Alpha", m_elo := 3100, m_engineAbbrev := "Al" }),
   ("Beta", { m_engineName := "Beta", m_elo := 3000, m_engineAbbrev := "Be" }),
   ("Delta", { m_engineName := "Delta", m_elo := 2800, m_engineAbbrev := "De" }),
   ("Gamma", { m_engineName := "Gamma", m_elo := 2900, m_engineAbbrev := "Ga" })]

/-- A ledger record as the JSON parser returns it, keys in order. -/
def gameRecord (index : Int) (white black result : String) : QVariant :=
  QVariant.map [("black", QVariant.string black), ("index", QVariant.int index),
    ("result", QVariant.string result), ("white", QVariant.string white)]

/-- A ledger with a draw, a win of White, a win of Black and a game in progress. -/
def mixedLedger : QVariantList :=
  [gameRecord 1 "Alpha" "Beta" "1/2-1/2", gameRecord 2 "Gamma" "Delta" "1-0",
   gameRecord 3 "Alpha" "Gamma" "0-1", gameRecord 4 "Delta" "Beta" "*"]

/-- The ledger right after the first game has started. -/
def firstGameStarted : QVariantList := [gameRecord 1 "Alpha" "Beta" "*"]

/-- The body rows of the cross-table of the four players on the mixed ledger. -/
def mixedRows : List CrossTableData :=
  [{ m_engineName := "Gamma", m_engineAbbrev := "Ga", m_score := 2, m_neustadtlScore := 1 / 2,
     m_elo := 2900, m_gamesPlayedAsWhite := 1, m_gamesPlayedAsBlack := 1, m_winsAsWhite := 1,
     m_winsAsBlack := 1, m_tableData := [("Alpha", "1"), ("Delta", "1")] },
   { m_engineName := "Beta", m_engineAbbrev := "Be", m_score := 1 / 2, m_neustadtlScore := 1 / 4,
     m_elo := 3000, m_gamesPlayedAsWhite := 0, m_gamesPlayedAsBlack := 1, m_winsAsWhite := 0,
     m_winsAsBlack := 0, m_tableData := [("Alpha", "="), ("Delta", "")] },
   { m_engineName := "Alpha", m_engineAbbrev := "Al", m_score := 1 / 2, m_neustadtlScore := 1 / 4,
     m_elo := 3100, m_gamesPlayedAsWhite := 2, m_gamesPlayedAsBlack := 0, m_winsAsWhite := 0,
     m_winsAsBlack := 0, m_tableData := [("Beta", "="), ("Gamma", "0")] },
   { m_engineName := "Delta", m_engineAbbrev := "De", m_score := 0, m_neustadtlScore := 0,
     m_elo := 2800, m_gamesPlayedAsWhite := 0, m_gamesPlayedAsBlack := 1, m_winsAsWhite := 0,
     m_winsAsBlack := 0, m_tableData := [("Beta", ""), ("Gamma", "0")] }]

/-- Two players whose names are distinct and differ in case only. -/
def clashingPlayers : List PlayerData := [⟨"A", 0⟩, ⟨"a", 0⟩]

/-- A round robin of the four players, six games, all drawn. -/
def sixDraws : QVariantList :=
  [gameRecord 1 "Alpha" "Delta" "1/2-1/2", gameRecord 2 "Beta" "Gamma" "1/2-1/2",
   gameRecord 3 "Delta" "Gamma" "1/2-1/2", gameRecord 4 "Alpha" "Beta" "1/2-1/2",
   gameRecord 5 "Beta" "Delta" "1/2-1/2", gameRecord 6 "Gamma" "Alpha" "1/2-1/2"]

/-- The body rows of the cross-table of the four players after the six draws. -/
def sixDrawRows : List CrossTableData :=
  [{ m_engineName := "Delta", m_engineAbbrev := "De", m_score := 3 / 2,
     m_neustadtlScore := 9 / 4, m_elo := 2800, m_gamesPlayedAsWhite := 1,
     m_gamesPlayedAsBlack := 2,
     m_tableData := [("Alpha", "="), ("Beta", "="), ("Gamma", "=")] },
   { m_engineName := "Gamma", m_engineAbbrev := "Ga", m_score := 3 / 2,
     m_neustadtlScore := 9 / 4, m_elo := 2900, m_gamesPlayedAsWhite := 1,
     m_gamesPlayedAsBlack := 2,
     m_tableData := [("Alpha", "="), ("Beta", "="), ("Delta", "=")] },
   { m_engineName := "Alpha", m_engineAbbrev := "Al", m_score := 3 / 2,
     m_neustadtlScore := 9 / 4, m_elo := 3100, m_gamesPlayedAsWhite := 2,
     m_gamesPlayedAsBlack := 1,
     m_tableData := [("Beta", "="), ("Delta", "="), ("Gamma", "=")] },
   { m_engineName := "Beta", m_engineAbbrev := "Be", m_score := 3 / 2,
     m_neustadtlScore := 9 / 4, m_elo := 3000, m_gamesPlayedAsWhite := 2,
     m_gamesPlayedAsBlack := 1,
     m_tableData := [("Alpha", "="), ("Delta", "="), ("Gamma", "=")] }]

/-- A drawn game of 81 half-moves, as `onGameFinished` sees it. -/
def drawnGame : FinishedGame where
  resultShort := "1/2-1/2"
  shortDescription := "3-fold repetition"
  eco := some ⟨"C42", "Petrov", ""⟩
  moves := 81
  fenString := "8/8/8/8/8/5k2/8/5K2 w - - 0 41"
  whiteScore := 0
  blackScore := -12
  gameDuration := QVariant.string "01:02:03"

/-! ## The schedule report: the evaluation of Black -/

/-- Lines 208-216 of `generateSchedule`: the stored `blackEval` as the schedule shows
it.  A leading `-` is removed, otherwise one is prepended unless the string is
`0.00`; `blackEval.at(0)` of an empty string is undefined (`none`). -/
def scheduleBlackEval (blackEval : String) : Option String :=
  match blackEval.data with
  | [] => none
  | c :: rest =>
    if c = '-' then some (String.mk rest)
    else if blackEval ≠ "0.00" then some ("-" ++ blackEval)
    else some blackEval

/-- The part of an evaluation string after the sign, for the absolute value
`absScore` of the score. -/
def evalMagnitude (absScore : Nat) : String :=
  if absScore > 9900 ∧ 1000 - absScore % 1000 < 100 then
    "M" ++ ToString.toString (1000 - absScore % 1000)
  else
    ToString.toString (absScore / 100) ++ "."
      ++ (if absScore % 100 < 10 then "0" else "") ++ ToString.toString (absScore % 100)

/-! ## A match of two players -/

/-- The number of finished games of a ledger. -/
def finishedGames (gs : List Game) : Nat :=
  gs.countP (fun g => decide (g.result ≠ "*"))

/-- Two players of a match. -/
def twoPlayers : List PlayerData := [⟨"Alpha", 3100⟩, ⟨"Beta", 3000⟩]

/-- The table of the two players after lines 317-330. -/
def twoTable : CrossTable :=
  [("Alpha", { m_engineName := "Alpha", m_elo := 3100, m_engineAbbrev := "Al" }),
   ("Beta", { m_engineName := "Beta", m_elo := 3000, m_engineAbbrev := "Be" })]

/-- The later records of a match of the two players: after the win of Alpha in game 1,
a draw, another win of Alpha and a game in progress. -/
def matchRest : QVariantList :=
  [gameRecord 2 "Beta" "Alpha" "1/2-1/2", gameRecord 3 "Alpha" "Beta" "1-0",
   gameRecord 4 "Beta" "Alpha" "*"]

/-! ## The names of the report files -/

/-- The loop of `QString::remove(const QString &str)`: every occurrence of `str` is
removed, found from left to right, the search going on behind the occurrence just
removed.  `skip` counts the characters of that occurrence still to be dropped. -/
def removeLoop (str : List Char) : Nat → List Char → List Char
  | _, [] => []
  | skip + 1, _ :: cs => removeLoop str skip cs
  | 0, c :: cs =>
    if str.isPrefixOf (c :: cs) then removeLoop str (str.length - 1) cs
    else c :: removeLoop str 0 cs

/-- The method `QString::remove(const QString &str)`: removes every occurrence of
`str`; an empty `str` removes nothing. -/
def QString.remove (s str : String) : String :=
  if str.isEmpty then s else String.mk (removeLoop str.data 0 s.data)

/-- Line 137 of `generateSchedule`: the name of the schedule report. -/
def scheduleFile (m_tournamentFile : String) : String :=
  QString.remove m_tournamentFile ".json" ++ "_schedule.txt"

/-- Line 473 of `generateCrossTable`: the name of the cross-table report. -/
def crossTableFile (m_tournamentFile : String) : String :=
  QString.remove m_tournamentFile ".json" ++ "_crosstable.txt"

/-! ## The ranking: `printRanking` -/

/-- What `printRanking` reads of `m_tournament->playerAt(i)`: the builder's `name()`
and the counters of the player. -/
structure PlayerScore where
  name : String
  wins : Int
  losses : Int
  draws : Int

/-- The struct `RankingData`.  The `qreal` fields are quotients of two integers and
are embedded as the exact quotients. -/
structure RankingData where
  name : String
  games : Int
  score : ℚ
  draws : ℚ

/-- The method `QMultiMap::insert(key, value)`: the map stays in ascending key order
and keeps every item; a new item goes in front of the items with an equal key. -/
def QMultiMap.insert {κ α : Type} [LinearOrder κ] :
    List (κ × α) → κ → α → List (κ × α)
  | [], key, value => [(key, value)]
  | (k, v) :: rest, key, value =>
    if k < key then (k, v) :: QMultiMap.insert rest key value
    else (key, value) :: (k, v) :: rest

/-- A line that `printRanking` prints with `qDebug`. -/
inductive RankingLine (κ : Type) where
  /-- The line `ELO difference: ...` -/
  | eloDifference (eloDiff : κ) : RankingLine κ
  /-- The line of column titles -/
  | header : RankingLine κ
  /-- A row of the table: rank, name, rating estimate, games, score, draws -/
  | row (rank : Nat) (name : String) (eloDiff : κ) (games : Int) (score draws : ℚ) :
      RankingLine κ

/-- The value `ratio` of a player in `printRanking`: `qreal(score) / qreal(total)`. -/
def ratio (player : PlayerScore) : ℚ :=
  ((player.wins * 2 + player.draws : Int) : ℚ)
    / (((player.wins + player.losses + player.draws) * 2 : Int) : ℚ)

/-- The value `data` of a player in `printRanking`. -/
def rankingData (player : PlayerScore) : RankingData where
  name := player.name
  games := (player.wins + player.losses + player.draws) * 2 / 2
  score := ratio player
  draws := ((player.draws * 2 : Int) : ℚ)
    / (((player.wins + player.losses + player.draws) * 2 : Int) : ℚ)

/-- The first loop of `printRanking` (lines 715-738) from player `i` on: the lines
printed and the map `ranking`.  The rating estimate
`-400.0 * std::log(1.0 / ratio - 1.0) / std::log(10.0)` is the parameter `elo`, a
function of `ratio`; the key `-eloDiff` of the map is the estimate in the reverse
order. -/
def rankingLoop {κ : Type} [LinearOrder κ] (elo : ℚ → κ) (playerCount : Nat) :
    List PlayerScore → List (κᵒᵈ × RankingData) →
      List (RankingLine κ) × List (κᵒᵈ × RankingData)
  | [], ranking => ([], ranking)
  | player :: rest, ranking =>
    let total := (player.wins + player.losses + player.draws) * 2
    if total ≤ 0 then rankingLoop elo playerCount rest ranking
    else
      let eloDiff := elo (ratio player)
      if playerCount = 2 then ([RankingLine.eloDifference eloDiff], ranking)
      else rankingLoop elo playerCount rest
        (QMultiMap.insert ranking (OrderDual.toDual eloDiff) (rankingData player))

/-- The rows of the table (lines 744-756), the first of them with rank `rank + 1`. -/
def rankingRows {κ : Type} : Nat → List (κᵒᵈ × RankingData) → List (RankingLine κ)
  | _, [] => []
  | rank, (key, data) :: rest =>
    RankingLine.row (rank + 1) data.name (OrderDual.ofDual key) data.games data.score
      data.draws :: rankingRows (rank + 1) rest

/-- The method `EngineMatch::printRanking` (lines 711-757): the lines it prints for
the players of the tournament. -/
def printRanking {κ : Type} [LinearOrder κ] (elo : ℚ → κ) (players : List PlayerScore) :
    List (RankingLine κ) :=
  let (printed, ranking) := rankingLoop elo players.length players []
  printed ++ (if !ranking.isEmpty then [RankingLine.header] else [])
    ++ rankingRows 0 ranking

/-- The players of the ranking table: those with a finished game, in roster order. -/
def rankedPlayers (players : List PlayerScore) : List PlayerScore :=
  players.filter (fun player => decide (0 < player.wins + player.losses + player.draws))

/-- Three players with finished games and one without. -/
def scoredPlayers : List PlayerScore :=
  [⟨"Alpha", 1, 2, 1⟩, ⟨"Beta", 0, 0, 0⟩, ⟨"Gamma", 3, 0, 1⟩, ⟨"Delta", 1, 3, 0⟩]

/-- Two players of a match, the first of them still without a finished game. -/
def scoredPair : List PlayerScore := [⟨"Alpha", 0, 0, 0⟩, ⟨"Beta", 2, 1, 1⟩]

/-- The argument of the logarithm in line 725, `1.0 / ratio - 1.0`, as an exact
quotient; the division of `1.0` by a ratio of zero gives `+inf`, the top element. -/
def logArgument (ratio : ℚ) : WithTop ℚ :=
  if ratio = 0 then ⊤ else ((1 / ratio - 1 : ℚ) : WithTop ℚ)

/-- The rating estimate of line 725,
`-400.0 * std::log(1.0 / ratio - 1.0) / std::log(10.0)`, for a ratio that is not
negative.  The estimate is kept as the argument of its logarithm: the logarithm is
increasing and the factor `-400.0 / std::log(10.0)` is negative, so two estimates
compare as their arguments do in the reverse order, `-inf` for the argument `+inf`
of the ratio zero being the least estimate and `+inf` for the argument zero of the
ratio one the greatest. -/
def eloDiff (ratio : ℚ) : (WithTop ℚ)ᵒᵈ := OrderDual.toDual (logArgument ratio)

/-! ## The round-robin schedule -/

/-- A scheduled game: the indices of the players of White and of Black, and the round
and the cycle of the game, both counted from 1. -/
structure Fixture where
  white : Nat
  black : Nat
  round : Nat
  cycle : Nat

/-- Modelled from the spec: the seating of the circle construction behind
`RoundRobinTournament::getPairings` and `nextPair`, whose implementation
(`roundrobintournament.cpp`) is not among the sources.  Seat 0 is the fixed seat of
player 0; the other `count - 1` seats form the circle, seat `j` holding player `j`
at first, and after each round all of them move on by one position.  The value is the
player on `seat` after `turns` rounds. -/
def seatPlayer (count turns seat : Nat) : Nat :=
  if seat = 0 then 0 else 1 + (seat - 1 + turns) % (count - 1)

/-- Modelled from the spec: the games of one round of the circle construction
(`roundrobintournament.cpp` is not among the sources).  Opposite seats are paired,
seat `i` with seat `count - 1 - i`; the lower seat plays White in odd rounds and
Black in even rounds, and in even cycles the colours are swapped. -/
def roundFixtures (count cycle round : Nat) : List Fixture :=
  (List.range (count / 2)).map (fun seat =>
    let lower := seatPlayer count (round - 1) seat
    let upper := seatPlayer count (round - 1) (count - 1 - seat)
    let lowerWhite := if cycle % 2 = 0 then decide (round % 2 = 0) else decide (round % 2 = 1)
    if lowerWhite then ⟨lower, upper, round, cycle⟩ else ⟨upper, lower, round, cycle⟩)

/-- Modelled from the spec: the fixture list `schedule(players, cycles)` of the
round-robin tournament, the pairing that `RoundRobinTournament::getPairings` and
`nextPair` hand out (`roundrobintournament.cpp` is not among the sources).  With an
odd number of players a bye takes the last seat and its games are left out; each
cycle has `count - 1` rounds; fewer than two players give the empty schedule. -/
def schedule (players cycles : Nat) : List Fixture :=
  if players < 2 then []
  else
    let count := players + players % 2
    (List.range cycles).flatMap (fun c =>
      (List.range (count - 1)).flatMap (fun r =>
        (roundFixtures count (c + 1) (r + 1)).filter
          (fun f => decide (f.white < players ∧ f.black < players))))

/-- The number of games of a schedule in which `p` plays White against `q`. -/
def gamesAs (p q : Nat) (fixtures : List Fixture) : Nat :=
  fixtures.countP (fun f => decide (f.white = p ∧ f.black = q))

/-- The number of games of a schedule between `p` and `q`, with either colour. -/
def meetings (p q : Nat) (fixtures : List Fixture) : Nat :=
  fixtures.countP (fun f =>
    decide ((f.white = p ∧ f.black = q) ∨ (f.white = q ∧ f.black = p)))

/-- A number that tells the round of a game from its two players: twice the place on
the circle of the opponent of player 0, or the sum of the places of the two players.
In the round after `turns` rounds it is `2 * turns - 2` modulo `count - 1`. -/
def roundMark (x y : Nat) : Nat :=
  if x = 0 then 2 * (y - 1) else if y = 0 then 2 * (x - 1) else (x - 1) + (y - 1)

/-- The games of cycle `cycle` of the schedule of an even number `count` of players. -/
def cycleFixtures (count cycle : Nat) : List Fixture :=
  (List.range (count - 1)).flatMap (fun r => roundFixtures count cycle (r + 1))

/-! ## The adjudicator -/

/-- The type `Chess::Side` of the two players. -/
inductive Side where
  | white : Side
  | black : Side
  deriving DecidableEq

/-- The method `Chess::Side::opposite()`. -/
def Side.opposite : Side → Side
  | Side.white => Side.black
  | Side.black => Side.white

/-- A non-null `Chess::Result`: a draw or a win of one side. -/
inductive ChessResult where
  | draw : ChessResult
  | win (winner : Side) : ChessResult
  deriving DecidableEq

/-- What `addEval` reads of the board after the move: the number of full moves
played, the side to move, and the tablebase result of the position if the
tablebases hold one. -/
structure Board where
  fullMoves : Nat
  sideToMove : Side
  tablebaseResult : Option ChessResult

/-- The private members of `GameAdjudicator` (gameadjudicator.h, lines 89-98), the
null result being `none`, and with them the most recent evaluation of each player,
which the draw rule of section 4.2 of the specification reads (`none` for a player
who has not reported yet). -/
structure GameAdjudicator where
  m_drawMoveNum : Nat
  m_drawMoveCount : Nat
  m_drawScore : Int
  m_drawScoreCount : Nat
  m_resignMoveCount : Nat
  m_resignScore : Int
  m_resignLoserScoreCount : Side → Nat
  m_resignWinnerScoreCount : Side → Nat
  m_tbEnabled : Bool
  m_result : Option ChessResult
  lastScore : Side → Option Int

/-- The constructor `GameAdjudicator()`: all adjudication is disabled. -/
def GameAdjudicator.new : GameAdjudicator where
  m_drawMoveNum := 0
  m_drawMoveCount := 0
  m_drawScore := 0
  m_drawScoreCount := 0
  m_resignMoveCount := 0
  m_resignScore := 0
  m_resignLoserScoreCount := fun _ => 0
  m_resignWinnerScoreCount := fun _ => 0
  m_tbEnabled := false
  m_result := none
  lastScore := fun _ => none

/-- The method `setDrawThreshold(moveNumber, moveCount, score)`. -/
def GameAdjudicator.setDrawThreshold (a : GameAdjudicator) (moveNumber moveCount : Nat)
    (score : Int) : GameAdjudicator :=
  { a with m_drawMoveNum := moveNumber, m_drawMoveCount := moveCount, m_drawScore := score }

/-- The method `setResignThreshold(moveCount, score)`. -/
def GameAdjudicator.setResignThreshold (a : GameAdjudicator) (moveCount : Nat)
    (score : Int) : GameAdjudicator :=
  { a with m_resignMoveCount := moveCount, m_resignScore := score }

/-- The method `result()`. -/
def GameAdjudicator.result (a : GameAdjudicator) : Option ChessResult := a.m_result

/-- An evaluation that has been reported and lies within `score` of zero; a missing
evaluation does not. -/
def withinDraw (score : Int) : Option Int → Bool
  | some y => decide (|y| ≤ score)
  | none => false

/-- Modelled from the spec: the method `GameAdjudicator::addEval(board, eval,
resetDraw)`, whose implementation (`gameadjudicator.cpp`) is not among the sources;
`score` is `eval.score()`, reported by the player who made the move.  A decided
adjudicator stays as it is.  With tablebase adjudication enabled a position found in
the tablebases decides at once.  The draw counter goes up by one when the full move
`m_drawMoveNum` is reached and the most recent evaluations of both players, the one
just reported and the last one of the opponent, are within `m_drawScore` of zero;
it goes back to zero otherwise and whenever `resetDraw` is set; the game is drawn
when the counter reaches `m_drawMoveCount`.  For each player the loser counter counts
the evaluations in a row at or below `-m_resignScore` and the winner counter those
at or above `m_resignScore`; a player loses as soon as the loser counter of that
player and the winner counter of the opponent have both reached
`m_resignMoveCount`.  A rule whose move count is zero is disabled. -/
def GameAdjudicator.addEval (a : GameAdjudicator) (board : Board) (score : Int)
    (resetDraw : Bool) : GameAdjudicator :=
  if a.m_result.isSome then a
  else if a.m_tbEnabled ∧ board.tablebaseResult.isSome then
    { a with m_result := board.tablebaseResult }
  else
    let side := board.sideToMove.opposite
    let drawScoreCount :=
      if 0 < a.m_drawMoveCount then
        if resetDraw = false ∧ a.m_drawMoveNum ≤ board.fullMoves ∧ |score| ≤ a.m_drawScore
            ∧ withinDraw a.m_drawScore (a.lastScore side.opposite) = true
        then a.m_drawScoreCount + 1 else 0
      else a.m_drawScoreCount
    let a := { a with
      m_drawScoreCount := drawScoreCount,
      lastScore := Function.update a.lastScore side (some score) }
    if 0 < a.m_drawMoveCount ∧ a.m_drawMoveCount ≤ a.m_drawScoreCount then
      { a with m_result := some ChessResult.draw }
    else if 0 < a.m_resignMoveCount then
      let loserCount := if score ≤ -a.m_resignScore then a.m_resignLoserScoreCount side + 1 else 0
      let winnerCount := if a.m_resignScore ≤ score then a.m_resignWinnerScoreCount side + 1 else 0
      let a := { a with
        m_resignLoserScoreCount := Function.update a.m_resignLoserScoreCount side loserCount,
        m_resignWinnerScoreCount := Function.update a.m_resignWinnerScoreCount side winnerCount }
      if a.m_resignMoveCount ≤ a.m_resignLoserScoreCount side
          ∧ a.m_resignMoveCount ≤ a.m_resignWinnerScoreCount side.opposite then
        { a with m_result := some (ChessResult.win side.opposite) }
      else if a.m_resignMoveCount ≤ a.m_resignLoserScoreCount side.opposite
          ∧ a.m_resignMoveCount ≤ a.m_resignWinnerScoreCount side then
        { a with m_result := some (ChessResult.win side) }
      else a
    else a

/-- One call of `addEval`: the board after the move, the score of the evaluation and
the flag `resetDraw`. -/
structure Sample where
  board : Board
  score : Int
  resetDraw : Bool

/-- The adjudicator after the calls of `addEval` for the samples, in order. -/
def GameAdjudicator.addAll (a : GameAdjudicator) (samples : List Sample) : GameAdjudicator :=
  samples.foldl (fun a s => a.addEval s.board s.score s.resetDraw) a

/-- The player who reported a sample: the one who made the move. -/
def Sample.side (s : Sample) : Side := s.board.sideToMove.opposite

/-- The last `k` items of a list exist and all satisfy `q`. -/
def LastAll {α : Type} (q : α → Bool) (k : Nat) (l : List α) : Prop :=
  k ≤ l.length ∧ ∀ x ∈ l.reverse.take k, q x = true

/-- The samples of one player, in order. -/
def samplesOf (side : Side) (samples : List Sample) : List Sample :=
  samples.filter (fun s => decide (s.side = side))

/-- A sample counts for the loser of the resign rule: evaluation at or below
`-score`. -/
def isLosing (score : Int) (s : Sample) : Bool := decide (s.score ≤ -score)

/-- A sample counts for the winner of the resign rule: evaluation at or above
`score`. -/
def isWinning (score : Int) (s : Sample) : Bool := decide (score ≤ s.score)

/-- The adjudicator has the resign rule `(moveCount, score)` and no other rule. -/
def ResignOnly (moveCount : Nat) (score : Int) (a : GameAdjudicator) : Prop :=
  a.m_resignMoveCount = moveCount ∧ a.m_resignScore = score ∧ a.m_drawMoveCount = 0 ∧
    a.m_tbEnabled = false

/-- The player `loser` reports evaluations at or below `-score` and the opponent
evaluations at or above `score`, in every sample of the list. -/
def OneSided (score : Int) (loser : Side) (samples : List Sample) : Prop :=
  ∀ s ∈ samples, (s.side = loser → s.score ≤ -score) ∧
    (s.side = loser.opposite → score ≤ s.score)

/-- A sample without reset signal and without tablebase result: the evaluation
`score` of the player `side` after `fullMoves` full moves. -/
def quietSample (fullMoves : Nat) (side : Side) (score : Int) : Sample :=
  ⟨⟨fullMoves, side.opposite, none⟩, score, false⟩

/-- Samples in which White and Black report in turn, `first` beginning, each with
the number of full moves played and the evaluation. -/
def inTurn (first : Side) : List (Nat × Int) → List Sample
  | [] => []
  | (fullMoves, score) :: rest =>
    quietSample fullMoves first score :: inTurn first.opposite rest

/-! ## The rest of the document, mirrored strings, the move count -/

/-- A document with the settings of a tournament next to the ledger of games 1
and 2. -/
def settingsDoc : QVariantMap :=
  [("matchProgress", QVariant.list
      [QVariant.map (startRecord 1 "Alpha" "Beta" "10:00:00 on 2017.01.01"),
       QVariant.map (startRecord 2 "Beta" "Alpha" "11:00:00 on 2017.01.01")]),
   ("tournamentSettings", QVariant.map
      [("gamesPerEncounter", QVariant.int 2), ("type", QVariant.string "round-robin")])]

/-- The result character of the opponent: `1` for `0`, `0` for `1`, and `=` for
`=`. -/
def mirror (c : Char) : Char :=
  if c = '1' then '0' else if c = '0' then '1' else c

/-- The conversion `int(d)` of a `double`: the fraction is cut off. -/
def truncate (d : ℚ) : Int := if 0 ≤ d then ⌊d⌋ else ⌈d⌉

/-- The function `qRound(double d)` of Qt:
`d >= 0.0 ? int(d + 0.5) : int(d - double(int(d-1)) + 0.5) + int(d-1)`. -/
def qRound (d : ℚ) : Int :=
  if d ≥ 0 then truncate (d + 1 / 2)
  else truncate (d - ((truncate (d - 1) : Int) : ℚ) + 1 / 2) + truncate (d - 1)

/-! ## Lemmas on the containers -/

namespace QMap

variable {α : Type}

theorem value_insert (m : QMap α) (key : String) (v : α) (k : String) (d : α) :
    value (insert m key v) k d = if k = key then v else value m k d := by
  induction m with
  | nil => simp [insert, value]
  | cons p rest ih =>
    obtain ⟨k0, v0⟩ := p
    by_cases hk : k = key
    · subst hk
      simp only [insert, if_true]
      split_ifs with h1 h2
      · simp [value]
      · simp [value]
      · simp [value, h2, ih]
    · simp only [insert, if_neg hk]
      split_ifs with h1 h2
      · simp [value, hk]
      · subst h2; simp [value, hk]
      · simp [value, ih, hk]

theorem contains_insert (m : QMap α) (key : String) (v : α) (k : String) :
    contains (insert m key v) k = (decide (k = key) || contains m k) := by
  induction m with
  | nil => simp [insert, contains]
  | cons p rest ih =>
    obtain ⟨k0, v0⟩ := p
    simp only [insert]
    split_ifs with h1 h2
    · simp [contains]
    · subst h2; by_cases h3 : k = key <;> simp [contains, h3]
    · by_cases h3 : k = key
      · subst h3; simp [contains, ih]
      · simp [contains, ih, h3]

theorem value_of_not_contains (m : QMap α) (k : String) (d : α)
    (h : contains m k = false) : value m k d = d := by
  induction m with
  | nil => rfl
  | cons p rest ih =>
    obtain ⟨k0, v0⟩ := p
    by_cases hk : k = k0
    · simp [contains, hk] at h
    · simp only [contains, if_neg hk] at h
      simp only [value, if_neg hk]
      exact ih h

theorem insert_ne_nil (m : QMap α) (key : String) (v : α) : insert m key v ≠ [] := by
  cases m with
  | nil => simp [insert]
  | cons p rest =>
    obtain ⟨k0, v0⟩ := p
    simp only [insert]
    split_ifs <;> simp

end QMap

theorem get_insert (m : QVariantMap) (key : String) (v : QVariant) (k : String) :
    QVariantMap.get (QMap.insert m key v) k = if k = key then v else QVariantMap.get m k := by
  simp [QVariantMap.get, QMap.value_insert]

theorem matchProgress_insert (tfMap : QVariantMap) (pList : QVariantList) :
    matchProgress (QMap.insert tfMap "matchProgress" (QVariant.list pList)) = pList := by
  simp [matchProgress, get_insert, QVariant.toList]

theorem removeLastLoop_length (pList : QVariantList) (number : Int) (h : 1 ≤ number) :
    removeLastLoop pList pList.length number
      = some (pList.take (min pList.length (number - 1).toNat)) := by
  induction pList using List.reverseRecOn with
  | nil =>
    rw [removeLastLoop.eq_def]
    simp
    omega
  | append_singleton l a ih =>
    rw [removeLastLoop.eq_def]
    split_ifs with hge
    · have hne : l ++ [a] ≠ [] := by simp
      cases hl : l ++ [a] with
      | nil => exact absurd hl hne
      | cons x xs =>
        simp only
        rw [← hl, List.dropLast_concat]
        have e1 : ((l ++ [a]).length : Int) - 1 = (l.length : Int) := by simp
        rw [e1, ih]
        simp only [List.length_append, List.length_singleton, Nat.cast_add, Nat.cast_one] at hge
        have hk : (number - 1).toNat ≤ l.length := by omega
        rw [Nat.min_eq_right hk, Nat.min_eq_right (by simp; omega)]
        rw [List.take_append_of_le_length hk]
    · simp only [List.length_append, List.length_singleton, Nat.cast_add, Nat.cast_one,
        ge_iff_le, not_le] at hge
      have hk : l.length + 1 ≤ (number - 1).toNat := by omega
      rw [List.length_append, List.length_singleton, Nat.min_eq_left hk]
      have : (l ++ [a]).length = l.length + 1 := by simp
      rw [← this, List.take_length]

theorem truncatedProgress_eq (tfMap : QVariantMap) (number : Int) (h : 1 ≤ number) :
    truncatedProgress tfMap number
      = some ((matchProgress tfMap).take
          (min (matchProgress tfMap).length (number - 1).toNat)) := by
  unfold truncatedProgress
  by_cases hc : QMap.contains tfMap "matchProgress" = true
  · have hne : QMap.isEmpty tfMap = false := by
      cases tfMap with
      | nil => simp [QMap.contains] at hc
      | cons p rest => rfl
    simp only [hne, hc, Bool.not_false, if_true]
    show (if ((matchProgress tfMap).length : Int) ≥ number
        then removeLastLoop (matchProgress tfMap) (matchProgress tfMap).length number
        else some (matchProgress tfMap)) = _
    split_ifs with hge
    · exact removeLastLoop_length _ _ h
    · have hk : (matchProgress tfMap).length ≤ (number - 1).toNat := by omega
      rw [Nat.min_eq_left hk, List.take_length]
  · simp only [Bool.not_eq_true] at hc
    have hm : matchProgress tfMap = [] := by
      unfold matchProgress QVariantMap.get
      rw [QMap.value_of_not_contains tfMap _ _ hc]; rfl
    rw [hm]
    simp [hc]

theorem startedProgress_eq (tfMap : QVariantMap) (number : Int)
    (white black startTime : String) (h : 1 ≤ number) :
    startedProgress tfMap number white black startTime
      = some ((matchProgress tfMap).take
          (min (matchProgress tfMap).length (number - 1).toNat)
          ++ [QVariant.map (startRecord number white black startTime)]) := by
  simp [startedProgress, truncatedProgress_eq tfMap number h]

/-! ## The ledger: starting a game -/

/-- C1: starting game `number ≥ 1` on a document whose ledger holds `L` records
writes a ledger of exactly `min L (number - 1) + 1` records; its first
`min L (number - 1)` records are those of the old ledger and its last record is the
fresh one, with index `number`, result `*` and termination text `in progress`. -/
theorem onGameStarted_ledger (tfMap : QVariantMap) (number : Int)
    (white black startTime : String) (h : 1 ≤ number) :
    ∃ doc, onGameStarted tfMap number white black startTime = some doc ∧
      (matchProgress doc).length
        = min (matchProgress tfMap).length (number - 1).toNat + 1 ∧
      (∀ i, i < min (matchProgress tfMap).length (number - 1).toNat →
        (matchProgress doc)[i]? = (matchProgress tfMap)[i]?) ∧
      (matchProgress doc)[min (matchProgress tfMap).length (number - 1).toNat]?
        = some (QVariant.map (startRecord number white black startTime)) ∧
      QVariantMap.get (startRecord number white black startTime) "index"
        = QVariant.int number ∧
      QVariantMap.get (startRecord number white black startTime) "result"
        = QVariant.string "*" ∧
      QVariantMap.get (startRecord number white black startTime) "terminationDetails"
        = QVariant.string "in progress" := by
  refine ⟨QMap.insert tfMap "matchProgress" (QVariant.list ((matchProgress tfMap).take
      (min (matchProgress tfMap).length (number - 1).toNat)
      ++ [QVariant.map (startRecord number white black startTime)])), ?_, ?_, ?_, ?_, ?_, ?_, ?_⟩
  · simp only [onGameStarted, startedProgress_eq tfMap number white black startTime h,
      Option.map_some']
  · simp [matchProgress_insert]
  · intro i hi
    rw [matchProgress_insert]
    have hlen : i < ((matchProgress tfMap).take
        (min (matchProgress tfMap).length (number - 1).toNat)).length := by
      simp only [List.length_take]; omega
    rw [List.getElem?_append_left hlen, List.getElem?_take_of_lt hi]
  · rw [matchProgress_insert]
    have hlen : ((matchProgress tfMap).take
        (min (matchProgress tfMap).length (number - 1).toNat)).length
        = min (matchProgress tfMap).length (number - 1).toNat := by
      simp only [List.length_take]; omega
    rw [List.getElem?_append_right (by omega), hlen]
    simp
  · simp [startRecord, get_insert]
  · simp [startRecord, get_insert]
  · simp [startRecord, get_insert]

/-- Witness of C1 on the ledger of games 1 to 5 with `number = 3`: three records
remain, the first two unchanged and the third one fresh. -/
theorem onGameStarted_ledger_witness :
    (1 : Int) ≤ 3 ∧
    ∃ doc, onGameStarted fiveGames 3 "Beta" "Gamma" "13:00:00 on 2017.01.01" = some doc ∧
      (matchProgress doc).length
        = min (matchProgress fiveGames).length ((3 : Int) - 1).toNat + 1 ∧
      (∀ i, i < min (matchProgress fiveGames).length ((3 : Int) - 1).toNat →
        (matchProgress doc)[i]? = (matchProgress fiveGames)[i]?) ∧
      (matchProgress doc)[min (matchProgress fiveGames).length ((3 : Int) - 1).toNat]?
        = some (QVariant.map (startRecord 3 "Beta" "Gamma" "13:00:00 on 2017.01.01")) ∧
      QVariantMap.get (startRecord 3 "Beta" "Gamma" "13:00:00 on 2017.01.01") "index"
        = QVariant.int 3 ∧
      QVariantMap.get (startRecord 3 "Beta" "Gamma" "13:00:00 on 2017.01.01") "result"
        = QVariant.string "*" ∧
      QVariantMap.get (startRecord 3 "Beta" "Gamma" "13:00:00 on 2017.01.01")
        "terminationDetails" = QVariant.string "in progress" :=
  ⟨by decide, onGameStarted_ledger fiveGames 3 "Beta" "Gamma" "13:00:00 on 2017.01.01"
    (by decide)⟩

/-- The ledger of games 1 to 5 after game 3 is started again: records 4 and 5 are
gone and exactly the records 1, 2 and the fresh record 3 remain. -/
theorem onGameStarted_fiveGames :
    (onGameStarted fiveGames 3 "Beta" "Gamma" "13:00:00 on 2017.01.01").map matchProgress
      = some [QVariant.map (startRecord 1 "Alpha" "Beta" "10:00:00 on 2017.01.01"),
              QVariant.map (startRecord 2 "Gamma" "Delta" "10:00:01 on 2017.01.01"),
              QVariant.map (startRecord 3 "Beta" "Gamma" "13:00:00 on 2017.01.01")] := by
  have h := startedProgress_eq fiveGames 3 "Beta" "Gamma" "13:00:00 on 2017.01.01" (by decide)
  simp only [onGameStarted, h, Option.map_some', matchProgress_insert]
  simp [fiveGames, matchProgress_insert]

/-! ## The ledger: finishing a game -/

theorem get_insertNonEmpty (m : QVariantMap) (key val k : String) (h : k ≠ key) :
    QVariantMap.get (insertNonEmpty m key val) k = QVariantMap.get m k := by
  unfold insertNonEmpty
  split_ifs
  · rw [get_insert, if_neg h]
  · rfl

theorem contains_of_matchProgress_ne_nil (tfMap : QVariantMap)
    (h : matchProgress tfMap ≠ []) : QMap.contains tfMap "matchProgress" = true := by
  by_contra hc
  simp only [Bool.not_eq_true] at hc
  apply h
  unfold matchProgress QVariantMap.get
  rw [QMap.value_of_not_contains tfMap _ _ hc]; rfl

theorem finishLookup_eq (tfMap : QVariantMap) (number : Int) (v : QVariant)
    (hn : 1 ≤ number) (hv : (matchProgress tfMap)[(number - 1).toNat]? = some v) :
    finishLookup tfMap number = some (matchProgress tfMap, v.toMap) := by
  have hne : matchProgress tfMap ≠ [] := by
    intro e; rw [e] at hv; simp at hv
  have hc := contains_of_matchProgress_ne_nil tfMap hne
  have hemp : QMap.isEmpty tfMap = false := by
    cases tfMap with
    | nil => simp [QMap.contains] at hc
    | cons p rest => rfl
  have hlt : (number - 1).toNat < (matchProgress tfMap).length := by
    by_contra hge
    rw [List.getElem?_eq_none (by omega)] at hv
    exact Option.noConfusion hv
  unfold finishLookup
  simp only [hemp, hc, Bool.not_false, if_true]
  show (if ((matchProgress tfMap).length : Int) < number then some (matchProgress tfMap, [])
      else (QList.at (matchProgress tfMap) (number - 1)).map
        (fun v => (matchProgress tfMap, v.toMap))) = _
  rw [if_neg (by omega)]
  unfold QList.at
  rw [if_pos (by omega), List.get?_eq_getElem?, hv]
  rfl

/-- C2: finishing game `number` on a ledger that holds at least `number` records,
the record of the game being a non-empty object, rewrites the document with a ledger
of the same length in which every record at another position is unchanged; record
`number` keeps its `index`, `white`, `black` and `startTime` and receives the
result, termination text, final position, both evaluations and the duration. -/
theorem onGameFinished_frame (tfMap : QVariantMap) (number : Int) (game : FinishedGame)
    (old : QVariantMap) (hn : 1 ≤ number)
    (hL : number ≤ (matchProgress tfMap).length)
    (hrec : (matchProgress tfMap)[(number - 1).toNat]? = some (QVariant.map old))
    (hne : old ≠ []) :
    ∃ doc pList new, onGameFinished tfMap number game = some (Written.document doc pList) ∧
      matchProgress doc = pList ∧
      pList.length = (matchProgress tfMap).length ∧
      (∀ i, i ≠ (number - 1).toNat → pList[i]? = (matchProgress tfMap)[i]?) ∧
      pList[(number - 1).toNat]? = some (QVariant.map new) ∧
      QVariantMap.get new "index" = QVariantMap.get old "index" ∧
      QVariantMap.get new "white" = QVariantMap.get old "white" ∧
      QVariantMap.get new "black" = QVariantMap.get old "black" ∧
      QVariantMap.get new "startTime" = QVariantMap.get old "startTime" ∧
      QVariantMap.get new "result" = QVariant.string game.resultShort ∧
      QVariantMap.get new "terminationDetails" = QVariant.string game.shortDescription ∧
      QVariantMap.get new "finalFen" = QVariant.string game.fenString ∧
      QVariantMap.get new "whiteEval" = QVariant.string (evalString game.whiteScore) ∧
      QVariantMap.get new "blackEval" = QVariant.string (evalString game.blackScore) ∧
      QVariantMap.get new "gameDuration" = game.gameDuration := by
  have hlt : (number - 1).toNat < (matchProgress tfMap).length := by omega
  have hemp : QMap.isEmpty old = false := by
    cases old with
    | nil => exact absurd rfl hne
    | cons p rest => rfl
  refine ⟨QMap.insert tfMap "matchProgress" (QVariant.list
      (QList.replace (matchProgress tfMap) (number - 1) (QVariant.map (finishRecord old game)))),
    QList.replace (matchProgress tfMap) (number - 1) (QVariant.map (finishRecord old game)),
    finishRecord old game, ?_, ?_, ?_, ?_, ?_, ?_⟩
  · simp only [onGameFinished, finishLookup_eq tfMap number _ hn hrec, Option.map_some',
      QVariant.toMap, hemp, Bool.not_false, if_true]
  · exact matchProgress_insert _ _
  · simp [QList.replace]
  · intro i hi
    simp only [QList.replace]
    rw [List.getElem?_set_ne (Ne.symm hi)]
  · simp only [QList.replace]
    rw [List.getElem?_set_self hlt]
  · cases he : game.eco <;>
      simp [finishRecord, he, get_insert, get_insertNonEmpty]

/-- Witness of C2: game 3 of the ledger of games 1 to 5 finishes as a draw. -/
theorem onGameFinished_frame_witness :
    ((1 : Int) ≤ 3 ∧ (3 : Int) ≤ (matchProgress fiveGames).length ∧
      (matchProgress fiveGames)[((3 : Int) - 1).toNat]?
        = some (QVariant.map (startRecord 3 "Alpha" "Gamma" "11:00:00 on 2017.01.01")) ∧
      startRecord 3 "Alpha" "Gamma" "11:00:00 on 2017.01.01" ≠ []) ∧
    ∃ doc pList new, onGameFinished fiveGames 3 drawnGame = some (Written.document doc pList) ∧
      matchProgress doc = pList ∧
      pList.length = (matchProgress fiveGames).length ∧
      (∀ i, i ≠ ((3 : Int) - 1).toNat → pList[i]? = (matchProgress fiveGames)[i]?) ∧
      pList[((3 : Int) - 1).toNat]? = some (QVariant.map new) ∧
      QVariantMap.get new "index"
        = QVariantMap.get (startRecord 3 "Alpha" "Gamma" "11:00:00 on 2017.01.01") "index" ∧
      QVariantMap.get new "white"
        = QVariantMap.get (startRecord 3 "Alpha" "Gamma" "11:00:00 on 2017.01.01") "white" ∧
      QVariantMap.get new "black"
        = QVariantMap.get (startRecord 3 "Alpha" "Gamma" "11:00:00 on 2017.01.01") "black" ∧
      QVariantMap.get new "startTime"
        = QVariantMap.get (startRecord 3 "Alpha" "Gamma" "11:00:00 on 2017.01.01")
            "startTime" ∧
      QVariantMap.get new "result" = QVariant.string drawnGame.resultShort ∧
      QVariantMap.get new "terminationDetails" = QVariant.string drawnGame.shortDescription ∧
      QVariantMap.get new "finalFen" = QVariant.string drawnGame.fenString ∧
      QVariantMap.get new "whiteEval" = QVariant.string (evalString drawnGame.whiteScore) ∧
      QVariantMap.get new "blackEval" = QVariant.string (evalString drawnGame.blackScore) ∧
      QVariantMap.get new "gameDuration" = drawnGame.gameDuration :=
  have h1 : (1 : Int) ≤ 3 := by decide
  have h2 : (3 : Int) ≤ (matchProgress fiveGames).length := by
    simp [fiveGames, matchProgress_insert]
  have h3 : (matchProgress fiveGames)[((3 : Int) - 1).toNat]?
      = some (QVariant.map (startRecord 3 "Alpha" "Gamma" "11:00:00 on 2017.01.01")) := by
    simp [fiveGames, matchProgress_insert]
  have h4 : startRecord 3 "Alpha" "Gamma" "11:00:00 on 2017.01.01" ≠ [] :=
    QMap.insert_ne_nil _ _ _
  ⟨⟨h1, h2, h3, h4⟩, onGameFinished_frame fiveGames 3 drawnGame _ h1 h2 h3 h4⟩

/-! ## The ledger: position and game index -/

theorem get_finishRecord_index (old : QVariantMap) (game : FinishedGame) :
    QVariantMap.get (finishRecord old game) "index" = QVariantMap.get old "index" := by
  cases he : game.eco <;> simp [finishRecord, he, get_insert, get_insertNonEmpty]

/-- Starting game `number` keeps the ledger aligned when the ledger is not too
short, that is when it holds at least `number - 1` records. -/
theorem onGameStarted_aligned (tfMap : QVariantMap) (number : Int)
    (white black startTime : String) (h : 1 ≤ number)
    (hL : number - 1 ≤ (matchProgress tfMap).length)
    (hA : Aligned (matchProgress tfMap)) :
    ∃ doc, onGameStarted tfMap number white black startTime = some doc ∧
      Aligned (matchProgress doc) := by
  have hk : min (matchProgress tfMap).length (number - 1).toNat = (number - 1).toNat := by
    omega
  refine ⟨QMap.insert tfMap "matchProgress" (QVariant.list ((matchProgress tfMap).take
      (min (matchProgress tfMap).length (number - 1).toNat)
      ++ [QVariant.map (startRecord number white black startTime)])), ?_, ?_⟩
  · simp only [onGameStarted, startedProgress_eq tfMap number white black startTime h,
      Option.map_some']
  · rw [matchProgress_insert, hk]
    intro i hi
    have hlen : ((matchProgress tfMap).take (number - 1).toNat).length = (number - 1).toNat := by
      simp only [List.length_take]; omega
    simp only [List.length_append, List.length_singleton, hlen] at hi
    by_cases hlt : i < (number - 1).toNat
    · rw [List.getElem?_append_left (by omega), List.getElem?_take_of_lt hlt]
      exact hA i (by omega)
    · have hi2 : i = (number - 1).toNat := by omega
      rw [List.getElem?_append_right (by omega), hlen, hi2]
      simp only [Nat.sub_self, List.getElem?_cons_zero, Option.getD_some, QVariant.toMap]
      have : ((number - 1).toNat : Int) + 1 = number := by omega
      rw [this]
      simp [startRecord, get_insert]

/-- Finishing a game keeps the ledger aligned, whatever the game number. -/
theorem onGameFinished_aligned (tfMap : QVariantMap) (number : Int) (game : FinishedGame)
    (hA : Aligned (matchProgress tfMap)) (doc : QVariantMap) (pList : QVariantList)
    (hw : onGameFinished tfMap number game = some (Written.document doc pList)) :
    Aligned pList := by
  unfold onGameFinished at hw
  cases hl : finishLookup tfMap number with
  | none => rw [hl] at hw; exact Option.noConfusion hw
  | some lp =>
    obtain ⟨l, pMap⟩ := lp
    rw [hl] at hw
    simp only [Option.map_some', Option.some.injEq] at hw
    by_cases hemp : QMap.isEmpty pMap = true
    · simp [hemp] at hw
    · simp only [hemp, Bool.not_eq_true, Bool.not_false] at hw
      simp only [if_true] at hw
      injection hw with _ hp
      -- the ledger and the record come from the document
      unfold finishLookup at hl
      by_cases h1 : QMap.isEmpty tfMap = true
      · simp only [h1, Bool.not_true] at hl
        simp only [Bool.false_eq_true, if_false, Option.some.injEq, Prod.mk.injEq] at hl
        rw [← hl.2] at hemp; exact absurd rfl hemp
      · simp only [h1, Bool.not_false, if_true] at hl
        by_cases h2 : QMap.contains tfMap "matchProgress" = true
        · simp only [h2, if_true] at hl
          change (if ((matchProgress tfMap).length : Int) < number
              then some (matchProgress tfMap, ([] : QVariantMap))
              else (QList.at (matchProgress tfMap) (number - 1)).map
                (fun v => (matchProgress tfMap, v.toMap))) = some (l, pMap) at hl
          split_ifs at hl with h3
          · simp only [Option.some.injEq, Prod.mk.injEq] at hl
            rw [← hl.2] at hemp; exact absurd rfl hemp
          · unfold QList.at at hl
            split_ifs at hl with h4
            · rw [List.get?_eq_getElem?] at hl
              cases hv : (matchProgress tfMap)[(number - 1).toNat]? with
              | none => rw [hv] at hl; exact Option.noConfusion hl
              | some v =>
                rw [hv] at hl
                simp only [Option.map_some', Option.some.injEq, Prod.mk.injEq] at hl
                obtain ⟨hl1, hl2⟩ := hl
                subst hl1 hl2
                rw [← hp]
                intro i hi
                simp only [QList.replace, List.length_set] at hi
                simp only [QList.replace]
                by_cases hin : (number - 1).toNat = i
                · subst hin
                  rw [List.getElem?_set_self hi]
                  simp only [Option.getD_some, QVariant.toMap, get_finishRecord_index]
                  have := hA _ hi
                  rw [hv] at this
                  exact this
                · rw [List.getElem?_set_ne hin]
                  exact hA i hi
            · exact Option.noConfusion hl
        · simp only [h2] at hl
          simp only [Bool.false_eq_true, if_false, Option.some.injEq, Prod.mk.injEq] at hl
          rw [← hl.2] at hemp; exact absurd rfl hemp

/-- C3 at its failing input: on the aligned ledger that holds game 1 only, starting
game 3 appends the record with index 3 at position 2, so the ledger written is not
aligned. -/
theorem onGameStarted_misaligned :
    Aligned (matchProgress oneGame) ∧
    onGameStarted oneGame 3 "Alpha" "Gamma" "11:00:00 on 2017.01.01"
      = some (QMap.insert oneGame "matchProgress" (QVariant.list
          [QVariant.map (startRecord 1 "Alpha" "Beta" "10:00:00 on 2017.01.01"),
           QVariant.map (startRecord 3 "Alpha" "Gamma" "11:00:00 on 2017.01.01")])) ∧
    ¬ Aligned
      [QVariant.map (startRecord 1 "Alpha" "Beta" "10:00:00 on 2017.01.01"),
       QVariant.map (startRecord 3 "Alpha" "Gamma" "11:00:00 on 2017.01.01")] := by
  refine ⟨?_, ?_, ?_⟩
  · intro i hi
    simp only [oneGame, matchProgress_insert, List.length_singleton] at hi
    have : i = 0 := by omega
    subst this
    simp [oneGame, matchProgress_insert, QVariant.toMap, startRecord, get_insert]
  · have h := startedProgress_eq oneGame 3 "Alpha" "Gamma" "11:00:00 on 2017.01.01"
      (by decide)
    simp only [onGameStarted, h, Option.map_some']
    simp [oneGame, matchProgress_insert]
  · intro hA
    have h := hA 1 (by simp)
    simp [QVariant.toMap, startRecord, get_insert] at h

/-! ## The cross-table: one record of the ledger -/

theorem value_modify {α : Type} (m : QMap α) (k : String) (d : α) (f : α → α) (q : String) :
    QMap.value (QMap.modify m k d f) q d = if q = k then f (QMap.value m k d) else QMap.value m q d := by
  simp [QMap.modify, QMap.value_insert]

theorem value_update (m : CrossTable) (k : String) (f : CrossTableData → CrossTableData)
    (q : String) :
    QMap.value (update m k f) q {} = if q = k then f (QMap.value m k {}) else QMap.value m q {} :=
  value_modify m k {} f q

theorem cell_update (m : CrossTable) (k : String) (f : CrossTableData → CrossTableData)
    (hf : ∀ d, (f d).m_tableData = d.m_tableData) (p o : String) :
    cell (update m k f) p o = cell m p o := by
  unfold cell
  rw [value_update]
  split_ifs with h
  · rw [hf, h]
  · rfl

theorem cell_updateString (m : CrossTable) (k k2 : String) (f : String → String)
    (p o : String) :
    cell (updateString m k k2 f) p o = if p = k ∧ o = k2 then f (cell m k k2) else cell m p o := by
  unfold cell updateString
  rw [value_update]
  by_cases h : p = k
  · subst h
    simp only [if_true, value_modify, true_and]
  · simp [h]

theorem cell_update_id (m : CrossTable) (k p o : String) :
    cell (update m k id) p o = cell m p o :=
  cell_update m k id (fun _ => rfl) p o

theorem cell_touch (m : CrossTable) (k k2 p o : String) :
    cell (updateString m k k2 id) p o = cell m p o := by
  rw [cell_updateString]
  split_ifs with h
  · rw [h.1, h.2]; rfl
  · rfl

theorem cell_append (m : CrossTable) (k k2 s p o : String) :
    cell (updateString m k k2 (fun x => x ++ s)) p o
      = cell m p o ++ (if k = p ∧ k2 = o then s else "") := by
  rw [cell_updateString]
  by_cases h : p = k ∧ o = k2
  · have h2 : k = p ∧ k2 = o := ⟨h.1.symm, h.2.symm⟩
    rw [if_pos h, if_pos h2, h.1, h.2]
  · have h2 : ¬ (k = p ∧ k2 = o) := fun e => h ⟨e.1.symm, e.2.symm⟩
    rw [if_neg h, if_neg h2]
    simp

theorem string_countResult (m : CrossTable) (w b r p o : String) :
    (cell (countResult m w b r) p o).data
      = (cell m p o).data
        ++ ((if w = p ∧ b = o then whiteChar r else [])
          ++ (if b = p ∧ w = o then blackChar r else [])) := by
  unfold countResult whiteChar blackChar
  by_cases h0 : r = "*"
  · have h1 : ¬ r = "1-0" := by rw [h0]; decide
    have h2 : ¬ r = "0-1" := by rw [h0]; decide
    have h3 : ¬ r = "1/2-1/2" := by rw [h0]; decide
    simp (disch := intro _; rfl) only [if_pos h0, if_neg h1, if_neg h2, if_neg h3,
      cell_touch, cell_update, cell_update_id]
    simp
  · by_cases h1 : r = "1-0"
    · simp (disch := intro _; rfl) only [if_neg h0, if_pos h1,
        cell_touch, cell_update, cell_update_id, cell_append]
      split_ifs <;> simp
    · by_cases h2 : r = "0-1"
      · simp (disch := intro _; rfl) only [if_neg h0, if_neg h1, if_pos h2,
          cell_touch, cell_update, cell_update_id, cell_append]
        split_ifs <;> simp
      · by_cases h3 : r = "1/2-1/2"
        · simp (disch := intro _; rfl) only [if_neg h0, if_neg h1, if_neg h2, if_pos h3,
            cell_touch, cell_update, cell_update_id, cell_append]
          split_ifs <;> simp
        · simp (disch := intro _; rfl) only [if_neg h0, if_neg h1, if_neg h2, if_neg h3,
            cell_touch, cell_update, cell_update_id, cell_append]
          simp

theorem score_update (m : CrossTable) (k : String) (f : CrossTableData → CrossTableData)
    (hf : ∀ d, (f d).m_score = d.m_score) (p : String) :
    (QMap.value (update m k f) p {}).m_score = (QMap.value m p {}).m_score := by
  rw [value_update]
  split_ifs with h
  · rw [hf, h]
  · rfl

theorem score_update_add (m : CrossTable) (k : String) (c : ℚ) (p : String) :
    (QMap.value (update m k (fun d => { d with m_score := d.m_score + c })) p {}).m_score
      = (QMap.value m p {}).m_score + (if k = p then c else 0) := by
  rw [value_update]
  by_cases h : p = k
  · rw [if_pos h, if_pos h.symm, h]
  · rw [if_neg h, if_neg (fun e => h e.symm), add_zero]

theorem playedWhite_update (m : CrossTable) (k : String) (f : CrossTableData → CrossTableData)
    (hf : ∀ d, (f d).m_gamesPlayedAsWhite = d.m_gamesPlayedAsWhite) (p : String) :
    (QMap.value (update m k f) p {}).m_gamesPlayedAsWhite = (QMap.value m p {}).m_gamesPlayedAsWhite := by
  rw [value_update]
  split_ifs with h
  · rw [hf, h]
  · rfl

theorem playedWhite_update_add (m : CrossTable) (k : String) (c : Int) (p : String) :
    (QMap.value (update m k (fun d => { d with m_gamesPlayedAsWhite := d.m_gamesPlayedAsWhite + c })) p {}).m_gamesPlayedAsWhite
      = (QMap.value m p {}).m_gamesPlayedAsWhite + (if k = p then c else 0) := by
  rw [value_update]
  by_cases h : p = k
  · rw [if_pos h, if_pos h.symm, h]
  · rw [if_neg h, if_neg (fun e => h e.symm), add_zero]

theorem playedBlack_update (m : CrossTable) (k : String) (f : CrossTableData → CrossTableData)
    (hf : ∀ d, (f d).m_gamesPlayedAsBlack = d.m_gamesPlayedAsBlack) (p : String) :
    (QMap.value (update m k f) p {}).m_gamesPlayedAsBlack = (QMap.value m p {}).m_gamesPlayedAsBlack := by
  rw [value_update]
  split_ifs with h
  · rw [hf, h]
  · rfl

theorem playedBlack_update_add (m : CrossTable) (k : String) (c : Int) (p : String) :
    (QMap.value (update m k (fun d => { d with m_gamesPlayedAsBlack := d.m_gamesPlayedAsBlack + c })) p {}).m_gamesPlayedAsBlack
      = (QMap.value m p {}).m_gamesPlayedAsBlack + (if k = p then c else 0) := by
  rw [value_update]
  by_cases h : p = k
  · rw [if_pos h, if_pos h.symm, h]
  · rw [if_neg h, if_neg (fun e => h e.symm), add_zero]

theorem winsWhite_update (m : CrossTable) (k : String) (f : CrossTableData → CrossTableData)
    (hf : ∀ d, (f d).m_winsAsWhite = d.m_winsAsWhite) (p : String) :
    (QMap.value (update m k f) p {}).m_winsAsWhite = (QMap.value m p {}).m_winsAsWhite := by
  rw [value_update]
  split_ifs with h
  · rw [hf, h]
  · rfl

theorem winsWhite_update_add (m : CrossTable) (k : String) (c : Int) (p : String) :
    (QMap.value (update m k (fun d => { d with m_winsAsWhite := d.m_winsAsWhite + c })) p {}).m_winsAsWhite
      = (QMap.value m p {}).m_winsAsWhite + (if k = p then c else 0) := by
  rw [value_update]
  by_cases h : p = k
  · rw [if_pos h, if_pos h.symm, h]
  · rw [if_neg h, if_neg (fun e => h e.symm), add_zero]

theorem winsBlack_update (m : CrossTable) (k : String) (f : CrossTableData → CrossTableData)
    (hf : ∀ d, (f d).m_winsAsBlack = d.m_winsAsBlack) (p : String) :
    (QMap.value (update m k f) p {}).m_winsAsBlack = (QMap.value m p {}).m_winsAsBlack := by
  rw [value_update]
  split_ifs with h
  · rw [hf, h]
  · rfl

theorem winsBlack_update_add (m : CrossTable) (k : String) (c : Int) (p : String) :
    (QMap.value (update m k (fun d => { d with m_winsAsBlack := d.m_winsAsBlack + c })) p {}).m_winsAsBlack
      = (QMap.value m p {}).m_winsAsBlack + (if k = p then c else 0) := by
  rw [value_update]
  by_cases h : p = k
  · rw [if_pos h, if_pos h.symm, h]
  · rw [if_neg h, if_neg (fun e => h e.symm), add_zero]

theorem value_update_id (m : CrossTable) (k p : String) :
    QMap.value (update m k id) p {} = QMap.value m p {} := by
  rw [value_update]
  split_ifs with h
  · rw [h]; rfl
  · rfl

theorem score_countResult (m : CrossTable) (w b r p : String) :
    (QMap.value (countResult m w b r) p {}).m_score
      = (QMap.value m p {}).m_score
        + ((if w = p ∧ r = "1-0" then 1 else 0) + (if b = p ∧ r = "0-1" then 1 else 0)
          + ((if w = p ∧ r = "1/2-1/2" then 1 / 2 else 0)
            + (if b = p ∧ r = "1/2-1/2" then 1 / 2 else 0))) := by
  unfold countResult
  by_cases h0 : r = "*"
  · have h1 : ¬ r = "1-0" := by rw [h0]; decide
    have h2 : ¬ r = "0-1" := by rw [h0]; decide
    have h3 : ¬ r = "1/2-1/2" := by rw [h0]; decide
    simp (disch := intro _; rfl) only [if_pos h0, updateString, score_update, value_update_id]
    simp [h1, h2, h3]
  · by_cases h1 : r = "1-0"
    · have h2 : ¬ r = "0-1" := by rw [h1]; decide
      have h3 : ¬ r = "1/2-1/2" := by rw [h1]; decide
      simp (disch := intro _; rfl) only [if_neg h0, if_pos h1, updateString, score_update,
        score_update_add, value_update_id]
      simp [h1]
    · by_cases h2 : r = "0-1"
      · have h3 : ¬ r = "1/2-1/2" := by rw [h2]; decide
        simp (disch := intro _; rfl) only [if_neg h0, if_neg h1, if_pos h2, updateString,
          score_update, score_update_add, value_update_id]
        simp [h2]
      · by_cases h3 : r = "1/2-1/2"
        · simp (disch := intro _; rfl) only [if_neg h0, if_neg h1, if_neg h2, if_pos h3,
            updateString, score_update, score_update_add, value_update_id]
          simp [h3, add_assoc]
        · simp (disch := intro _; rfl) only [if_neg h0, if_neg h1, if_neg h2, if_neg h3,
            updateString, score_update, score_update_add, value_update_id]
          simp [h1, h2, h3]

theorem playedWhite_countResult (m : CrossTable) (w b r p : String) :
    (QMap.value (countResult m w b r) p {}).m_gamesPlayedAsWhite
      = (QMap.value m p {}).m_gamesPlayedAsWhite + (if w = p ∧ r ≠ "*" then 1 else 0) := by
  unfold countResult
  by_cases h0 : r = "*"
  · have h1 : ¬ r = "1-0" := by rw [h0]; decide
    have h2 : ¬ r = "0-1" := by rw [h0]; decide
    simp (disch := intro _; rfl) only [if_pos h0, updateString, playedWhite_update,
      value_update_id]
    simp [h0, h1, h2]
  · by_cases h1 : r = "1-0"
    · simp (disch := intro _; rfl) only [if_neg h0, if_pos h1, updateString, playedWhite_update,
        playedWhite_update_add, value_update_id]
      simp [h0, h1]
    · by_cases h2 : r = "0-1"
      · simp (disch := intro _; rfl) only [if_neg h0, if_neg h1, if_pos h2, updateString,
          playedWhite_update, playedWhite_update_add, value_update_id]
        simp [h0, h1, h2]
      · by_cases h3 : r = "1/2-1/2"
        · simp (disch := intro _; rfl) only [if_neg h0, if_neg h1, if_neg h2, if_pos h3,
            updateString, playedWhite_update, playedWhite_update_add, value_update_id]
          simp [h0, h1, h2]
        · simp (disch := intro _; rfl) only [if_neg h0, if_neg h1, if_neg h2, if_neg h3,
            updateString, playedWhite_update, playedWhite_update_add, value_update_id]
          simp [h0, h1, h2]

theorem playedBlack_countResult (m : CrossTable) (w b r p : String) :
    (QMap.value (countResult m w b r) p {}).m_gamesPlayedAsBlack
      = (QMap.value m p {}).m_gamesPlayedAsBlack + (if b = p ∧ r ≠ "*" then 1 else 0) := by
  unfold countResult
  by_cases h0 : r = "*"
  · have h1 : ¬ r = "1-0" := by rw [h0]; decide
    have h2 : ¬ r = "0-1" := by rw [h0]; decide
    simp (disch := intro _; rfl) only [if_pos h0, updateString, playedBlack_update,
      value_update_id]
    simp [h0, h1, h2]
  · by_cases h1 : r = "1-0"
    · simp (disch := intro _; rfl) only [if_neg h0, if_pos h1, updateString, playedBlack_update,
        playedBlack_update_add, value_update_id]
      simp [h0, h1]
    · by_cases h2 : r = "0-1"
      · simp (disch := intro _; rfl) only [if_neg h0, if_neg h1, if_pos h2, updateString,
          playedBlack_update, playedBlack_update_add, value_update_id]
        simp [h0, h1, h2]
      · by_cases h3 : r = "1/2-1/2"
        · simp (disch := intro _; rfl) only [if_neg h0, if_neg h1, if_neg h2, if_pos h3,
            updateString, playedBlack_update, playedBlack_update_add, value_update_id]
          simp [h0, h1, h2]
        · simp (disch := intro _; rfl) only [if_neg h0, if_neg h1, if_neg h2, if_neg h3,
            updateString, playedBlack_update, playedBlack_update_add, value_update_id]
          simp [h0, h1, h2]

theorem winsWhite_countResult (m : CrossTable) (w b r p : String) :
    (QMap.value (countResult m w b r) p {}).m_winsAsWhite
      = (QMap.value m p {}).m_winsAsWhite + (if w = p ∧ r = "1-0" then 1 else 0) := by
  unfold countResult
  by_cases h0 : r = "*"
  · have h1 : ¬ r = "1-0" := by rw [h0]; decide
    have h2 : ¬ r = "0-1" := by rw [h0]; decide
    simp (disch := intro _; rfl) only [if_pos h0, updateString, winsWhite_update,
      value_update_id]
    simp [h0, h1, h2]
  · by_cases h1 : r = "1-0"
    · simp (disch := intro _; rfl) only [if_neg h0, if_pos h1, updateString, winsWhite_update,
        winsWhite_update_add, value_update_id]
      simp [h0, h1]
    · by_cases h2 : r = "0-1"
      · simp (disch := intro _; rfl) only [if_neg h0, if_neg h1, if_pos h2, updateString,
          winsWhite_update, winsWhite_update_add, value_update_id]
        simp [h0, h1, h2]
      · by_cases h3 : r = "1/2-1/2"
        · simp (disch := intro _; rfl) only [if_neg h0, if_neg h1, if_neg h2, if_pos h3,
            updateString, winsWhite_update, winsWhite_update_add, value_update_id]
          simp [h0, h1, h2]
        · simp (disch := intro _; rfl) only [if_neg h0, if_neg h1, if_neg h2, if_neg h3,
            updateString, winsWhite_update, winsWhite_update_add, value_update_id]
          simp [h0, h1, h2]

theorem winsBlack_countResult (m : CrossTable) (w b r p : String) :
    (QMap.value (countResult m w b r) p {}).m_winsAsBlack
      = (QMap.value m p {}).m_winsAsBlack + (if b = p ∧ r = "0-1" then 1 else 0) := by
  unfold countResult
  by_cases h0 : r = "*"
  · have h1 : ¬ r = "1-0" := by rw [h0]; decide
    have h2 : ¬ r = "0-1" := by rw [h0]; decide
    simp (disch := intro _; rfl) only [if_pos h0, updateString, winsBlack_update,
      value_update_id]
    simp [h0, h1, h2]
  · by_cases h1 : r = "1-0"
    · simp (disch := intro _; rfl) only [if_neg h0, if_pos h1, updateString, winsBlack_update,
        winsBlack_update_add, value_update_id]
      simp [h0, h1]
    · by_cases h2 : r = "0-1"
      · simp (disch := intro _; rfl) only [if_neg h0, if_neg h1, if_pos h2, updateString,
          winsBlack_update, winsBlack_update_add, value_update_id]
        simp [h0, h1, h2]
      · by_cases h3 : r = "1/2-1/2"
        · simp (disch := intro _; rfl) only [if_neg h0, if_neg h1, if_neg h2, if_pos h3,
            updateString, winsBlack_update, winsBlack_update_add, value_update_id]
          simp [h0, h1, h2]
        · simp (disch := intro _; rfl) only [if_neg h0, if_neg h1, if_neg h2, if_neg h3,
            updateString, winsBlack_update, winsBlack_update_add, value_update_id]
          simp [h0, h1, h2]

theorem scorePass_eq (pList : QVariantList) (m : CrossTable) :
    scorePass m pList
      = (games pList).foldl (fun m g => countResult m g.white g.black g.result) m := by
  unfold scorePass games
  induction pList generalizing m with
  | nil => rfl
  | cons v rest ih =>
    simp only [List.foldl_cons, List.filterMap_cons]
    rw [ih]
    unfold countGame gameOf
    split_ifs with h
    · rfl
    · rfl

theorem sum_ite_eq_countP {β : Type} [AddCommMonoidWithOne β]
    (P : Game → Prop) [DecidablePred P] (gs : List Game) :
    (gs.map (fun g => if P g then (1 : β) else 0)).sum
      = ((gs.countP (fun g => decide (P g)) : Nat) : β) := by
  induction gs with
  | nil => simp
  | cons g rest ih =>
    simp only [List.map_cons, List.sum_cons, List.countP_cons, ih]
    by_cases h : P g
    · simp [h, add_comm]
    · simp [h]

theorem foldl_add {β : Type} [AddCommMonoid β] (φ : CrossTable → β) (c : Game → β)
    (hstep : ∀ m g, φ (countResult m g.white g.black g.result) = φ m + c g)
    (gs : List Game) (m : CrossTable) :
    φ (gs.foldl (fun m g => countResult m g.white g.black g.result) m)
      = φ m + (gs.map c).sum := by
  induction gs generalizing m with
  | nil => simp
  | cons g rest ih =>
    simp only [List.foldl_cons, List.map_cons, List.sum_cons]
    rw [ih, hstep, add_assoc]

theorem foldl_cell (p o : String) (gs : List Game) (m : CrossTable) :
    (cell (gs.foldl (fun m g => countResult m g.white g.black g.result) m) p o).data
      = (cell m p o).data ++ resultChars p o gs := by
  induction gs generalizing m with
  | nil => simp [resultChars]
  | cons g rest ih =>
    simp only [List.foldl_cons]
    rw [ih, string_countResult]
    simp [resultChars, List.flatMap_cons]

theorem score_foldl (p : String) (gs : List Game) (m : CrossTable) :
    (QMap.value (gs.foldl (fun m g => countResult m g.white g.black g.result) m) p {}).m_score
      = (QMap.value m p {}).m_score
        + (((winsWithWhite p gs + winsWithBlack p gs : Nat) : ℚ)
          + 1 / 2 * ((drawsWithWhite p gs + drawsWithBlack p gs : Nat) : ℚ)) := by
  induction gs generalizing m with
  | nil => simp [winsWithWhite, winsWithBlack, drawsWithWhite, drawsWithBlack]
  | cons g rest ih =>
    simp only [List.foldl_cons]
    rw [ih, score_countResult]
    simp only [winsWithWhite, winsWithBlack, drawsWithWhite, drawsWithBlack, List.countP_cons,
      decide_eq_true_eq]
    split_ifs <;> push_cast <;> ring

theorem counters_foldl (p : String) (gs : List Game) (m : CrossTable) :
    (QMap.value (gs.foldl (fun m g => countResult m g.white g.black g.result) m) p
        {}).m_gamesPlayedAsWhite
      = (QMap.value m p {}).m_gamesPlayedAsWhite + (playedWithWhite p gs : Nat) ∧
    (QMap.value (gs.foldl (fun m g => countResult m g.white g.black g.result) m) p
        {}).m_gamesPlayedAsBlack
      = (QMap.value m p {}).m_gamesPlayedAsBlack + (playedWithBlack p gs : Nat) ∧
    (QMap.value (gs.foldl (fun m g => countResult m g.white g.black g.result) m) p
        {}).m_winsAsWhite
      = (QMap.value m p {}).m_winsAsWhite + (winsWithWhite p gs : Nat) ∧
    (QMap.value (gs.foldl (fun m g => countResult m g.white g.black g.result) m) p
        {}).m_winsAsBlack
      = (QMap.value m p {}).m_winsAsBlack + (winsWithBlack p gs : Nat) := by
  induction gs generalizing m with
  | nil => simp [playedWithWhite, playedWithBlack, winsWithWhite, winsWithBlack]
  | cons g rest ih =>
    simp only [List.foldl_cons]
    obtain ⟨i1, i2, i3, i4⟩ := ih (countResult m g.white g.black g.result)
    rw [i1, i2, i3, i4, playedWhite_countResult, playedBlack_countResult,
      winsWhite_countResult, winsBlack_countResult]
    simp only [playedWithWhite, playedWithBlack, winsWithWhite, winsWithBlack,
      List.countP_cons, decide_eq_true_eq]
    refine ⟨?_, ?_, ?_, ?_⟩
    · split_ifs <;> push_cast <;> ring
    · split_ifs <;> push_cast <;> ring
    · split_ifs <;> push_cast <;> ring
    · split_ifs <;> push_cast <;> ring

theorem ensureNames_fresh (fuel : Nat) (players : List PlayerData) :
    ∀ (ctMap : CrossTable) (abbrevList : List String) (out : CrossTable × List String),
      (∀ q, Fresh (QMap.value ctMap q {})) →
      ensureNames fuel players ctMap abbrevList = some out →
      ∀ q, Fresh (QMap.value out.1 q {}) := by
  induction players with
  | nil =>
    intro ctMap abbrevList out hf h
    simp only [ensureNames, Option.some.injEq] at h
    rw [← h]; exact hf
  | cons player rest ih =>
    intro ctMap abbrevList out hf h
    unfold ensureNames at h
    cases h1 : firstAbbrev player.name with
    | none => rw [h1] at h; exact Option.noConfusion h
    | some an =>
      obtain ⟨abbr, n⟩ := an
      rw [h1] at h
      simp only at h
      cases h2 : abbrevLoop fuel abbrevList player.name abbr n with
      | none => rw [h2] at h; exact Option.noConfusion h
      | some abbr2 =>
        rw [h2] at h
        simp only at h
        refine ih _ _ out ?_ h
        intro q
        rw [QMap.value_insert]
        split_ifs with hq
        · exact ⟨rfl, rfl, rfl, rfl, rfl, rfl⟩
        · exact hf q

theorem fresh_default (q : String) : Fresh (QMap.value ([] : CrossTable) q {}) :=
  ⟨rfl, rfl, rfl, rfl, rfl, rfl⟩

theorem length_whiteChar (r : String)
    (h : r = "*" ∨ r = "1-0" ∨ r = "0-1" ∨ r = "1/2-1/2") :
    (whiteChar r).length = (if r ≠ "*" then 1 else 0) ∧
    (blackChar r).length = (if r ≠ "*" then 1 else 0) := by
  rcases h with h | h | h | h <;> subst h <;> exact ⟨rfl, rfl⟩

theorem length_resultChars (p o : String) (hpo : o ≠ p) (gs : List Game)
    (hres : ∀ g ∈ gs, g.result = "*" ∨ g.result = "1-0" ∨ g.result = "0-1"
      ∨ g.result = "1/2-1/2") :
    (resultChars p o gs).length = playedBetween p o gs := by
  induction gs with
  | nil => rfl
  | cons g rest ih =>
    have ih2 := ih (fun g hg => hres g (List.mem_cons_of_mem _ hg))
    unfold resultChars playedBetween at ih2 ⊢
    simp only [List.flatMap_cons, List.length_append, List.countP_cons, ih2,
      decide_eq_true_eq]
    obtain ⟨hw, hb⟩ := length_whiteChar g.result (hres g (List.mem_cons_self _ _))
    by_cases hA : g.white = p ∧ g.black = o
    · have hB : ¬ (g.black = p ∧ g.white = o) := fun hB => hpo (hB.2.symm.trans hA.1)
      rw [if_pos hA, if_neg hB, hw]
      by_cases hr : g.result ≠ "*"
      · rw [if_pos hr, if_pos ⟨Or.inl hA, hr⟩]; simp; omega
      · rw [if_neg hr, if_neg (fun h => hr h.2)]; simp
    · by_cases hB : g.black = p ∧ g.white = o
      · rw [if_neg hA, if_pos hB, hb]
        by_cases hr : g.result ≠ "*"
        · rw [if_pos hr, if_pos ⟨Or.inr hB, hr⟩]; simp; omega
        · rw [if_neg hr, if_neg (fun h => hr h.2)]; simp
      · rw [if_neg hA, if_neg hB, if_neg (fun h => h.1.elim hA hB)]; simp

theorem ensureNames_fourPlayers :
    ensureNames 10 fourPlayers [] [] = some (fourTable, ["Al", "Be", "Ga", "De"]) := by
  simp +decide [ensureNames, fourPlayers, firstAbbrev, nextLetter, abbrevLoop, QMap.insert,
    fourTable, String.lt_iff_toList_lt]

/-! ## The cross-table: scores, counters and result strings -/

/-- C4: after the first pass over a ledger whose results are among `*`, `1-0`, `0-1`
and `1/2-1/2`, the entry of every player `p` has raw score (games won) + 1/2 (games
drawn), games-as-White and games-as-Black counters equal to the finished games
played with that colour, wins-as-White and wins-as-Black equal to the wins with that
colour, and against every opponent `o` the result characters of the games between
the two in ledger order, one per finished game.  Games are counted per colour, and
only finished ones (result other than `*`) are counted at all. -/
theorem scorePass_counts (fuel : Nat) (players : List PlayerData) (pList : QVariantList)
    (ctMap : CrossTable) (abbrevList : List String)
    (hnames : ensureNames fuel players [] [] = some (ctMap, abbrevList))
    (hres : ∀ g ∈ games pList, g.result = "*" ∨ g.result = "1-0" ∨ g.result = "0-1"
      ∨ g.result = "1/2-1/2")
    (p : String) :
    (QMap.value (scorePass ctMap pList) p {}).m_score
      = ((winsWithWhite p (games pList) + winsWithBlack p (games pList) : Nat) : ℚ)
        + 1 / 2 * ((drawsWithWhite p (games pList) + drawsWithBlack p (games pList) : Nat) : ℚ) ∧
    (QMap.value (scorePass ctMap pList) p {}).m_gamesPlayedAsWhite
      = (playedWithWhite p (games pList) : Nat) ∧
    (QMap.value (scorePass ctMap pList) p {}).m_gamesPlayedAsBlack
      = (playedWithBlack p (games pList) : Nat) ∧
    (QMap.value (scorePass ctMap pList) p {}).m_winsAsWhite
      = (winsWithWhite p (games pList) : Nat) ∧
    (QMap.value (scorePass ctMap pList) p {}).m_winsAsBlack
      = (winsWithBlack p (games pList) : Nat) ∧
    ∀ o, (cell (scorePass ctMap pList) p o).data = resultChars p o (games pList) ∧
      (o ≠ p → (cell (scorePass ctMap pList) p o).length = playedBetween p o (games pList)) := by
  obtain ⟨f1, f2, f3, f4, f5, f6⟩ :=
    ensureNames_fresh fuel players [] [] (ctMap, abbrevList) fresh_default hnames p
  simp only at f1 f2 f3 f4 f5 f6
  rw [scorePass_eq]
  obtain ⟨c1, c2, c3, c4⟩ := counters_foldl p (games pList) ctMap
  have hcell : ∀ o, (cell (List.foldl (fun m g => countResult m g.white g.black g.result)
      ctMap (games pList)) p o).data = resultChars p o (games pList) := by
    intro o
    rw [foldl_cell]
    have : cell ctMap p o = "" := by
      unfold cell; rw [f6]; rfl
    rw [this]; rfl
  refine ⟨?_, ?_, ?_, ?_, ?_, ?_⟩
  · rw [score_foldl, f1, zero_add]
  · rw [c1, f2, zero_add]
  · rw [c2, f3, zero_add]
  · rw [c3, f4, zero_add]
  · rw [c4, f5, zero_add]
  · intro o
    refine ⟨hcell o, fun hpo => ?_⟩
    rw [String.length, hcell o]
    exact length_resultChars p o hpo (games pList) hres

/-- Witness of C4: the four players and the mixed ledger, for the player Gamma. -/
theorem scorePass_counts_witness :
    (ensureNames 10 fourPlayers [] [] = some (fourTable, ["Al", "Be", "Ga", "De"]) ∧
      ∀ g ∈ games mixedLedger, g.result = "*" ∨ g.result = "1-0" ∨ g.result = "0-1"
        ∨ g.result = "1/2-1/2") ∧
    ((QMap.value (scorePass fourTable mixedLedger) "Gamma" {}).m_score
      = ((winsWithWhite "Gamma" (games mixedLedger)
          + winsWithBlack "Gamma" (games mixedLedger) : Nat) : ℚ)
        + 1 / 2 * ((drawsWithWhite "Gamma" (games mixedLedger)
          + drawsWithBlack "Gamma" (games mixedLedger) : Nat) : ℚ) ∧
    (QMap.value (scorePass fourTable mixedLedger) "Gamma" {}).m_gamesPlayedAsWhite
      = (playedWithWhite "Gamma" (games mixedLedger) : Nat) ∧
    (QMap.value (scorePass fourTable mixedLedger) "Gamma" {}).m_gamesPlayedAsBlack
      = (playedWithBlack "Gamma" (games mixedLedger) : Nat) ∧
    (QMap.value (scorePass fourTable mixedLedger) "Gamma" {}).m_winsAsWhite
      = (winsWithWhite "Gamma" (games mixedLedger) : Nat) ∧
    (QMap.value (scorePass fourTable mixedLedger) "Gamma" {}).m_winsAsBlack
      = (winsWithBlack "Gamma" (games mixedLedger) : Nat) ∧
    ∀ o, (cell (scorePass fourTable mixedLedger) "Gamma" o).data
        = resultChars "Gamma" o (games mixedLedger) ∧
      (o ≠ "Gamma" → (cell (scorePass fourTable mixedLedger) "Gamma" o).length
        = playedBetween "Gamma" o (games mixedLedger))) :=
  have h1 : ensureNames 10 fourPlayers [] [] = some (fourTable, ["Al", "Be", "Ga", "De"]) :=
    ensureNames_fourPlayers
  have h2 : ∀ g ∈ games mixedLedger, g.result = "*" ∨ g.result = "1-0" ∨ g.result = "0-1"
      ∨ g.result = "1/2-1/2" := by
    simp [games, mixedLedger, gameOf, gameRecord, QVariant.toMap, QMap.contains,
      QVariantMap.get, QMap.value, QVariant.toString]
  ⟨⟨h1, h2⟩, scorePass_counts 10 fourPlayers mixedLedger fourTable _ h1 h2 "Gamma"⟩

/-- When no record names one player on both sides, the draws counted per colour are
the drawn games the player took part in. -/
theorem draws_eq_countP (p : String) (gs : List Game) (h : ∀ g ∈ gs, g.white ≠ g.black) :
    drawsWithWhite p gs + drawsWithBlack p gs
      = gs.countP (fun g => decide ((g.white = p ∨ g.black = p) ∧ g.result = "1/2-1/2")) := by
  induction gs with
  | nil => rfl
  | cons g rest ih =>
    have ih2 := ih (fun g hg => h g (List.mem_cons_of_mem _ hg))
    have hwb := h g (List.mem_cons_self _ _)
    unfold drawsWithWhite drawsWithBlack at ih2 ⊢
    simp only [List.countP_cons, decide_eq_true_eq]
    rw [add_add_add_comm, ih2]
    congr 1
    by_cases hr : g.result = "1/2-1/2"
    · by_cases hw : g.white = p
      · have hb : ¬ g.black = p := fun e => hwb (hw.trans e.symm)
        rw [if_pos ⟨hw, hr⟩, if_neg (fun x => hb x.1), if_pos ⟨Or.inl hw, hr⟩]
      · by_cases hb : g.black = p
        · rw [if_neg (fun x => hw x.1), if_pos ⟨hb, hr⟩, if_pos ⟨Or.inr hb, hr⟩]
        · rw [if_neg (fun x => hw x.1), if_neg (fun x => hb x.1),
            if_neg (fun x => x.1.elim hw hb)]
    · rw [if_neg (fun x => hr x.2), if_neg (fun x => hr x.2), if_neg (fun x => hr x.2)]

/-- The wins counted per colour are the games the player won. -/
theorem wins_eq_countP (p : String) (gs : List Game) :
    winsWithWhite p gs + winsWithBlack p gs
      = gs.countP (fun g => decide ((g.white = p ∧ g.result = "1-0")
          ∨ (g.black = p ∧ g.result = "0-1"))) := by
  induction gs with
  | nil => rfl
  | cons g rest ih =>
    unfold winsWithWhite winsWithBlack at ih ⊢
    simp only [List.countP_cons, decide_eq_true_eq]
    rw [add_add_add_comm, ih]
    congr 1
    by_cases h1 : g.white = p ∧ g.result = "1-0"
    · have h2 : ¬ (g.black = p ∧ g.result = "0-1") := by
        intro h2
        have := h1.2.symm.trans h2.2
        exact absurd this (by decide)
      rw [if_pos h1, if_neg h2, if_pos (Or.inl h1)]
    · by_cases h2 : g.black = p ∧ g.result = "0-1"
      · rw [if_neg h1, if_pos h2, if_pos (Or.inr h2)]
      · rw [if_neg h1, if_neg h2, if_neg (fun x => x.elim h1 h2)]

/-! ## The cross-table: the Sonneborn-Berger pass -/

theorem mem_keys_insert {α : Type} (m : QMap α) (k : String) (v : α) (x : String)
    (h : x ∈ QMap.keys (QMap.insert m k v)) : x = k ∨ x ∈ QMap.keys m := by
  induction m with
  | nil => simp [QMap.insert, QMap.keys] at h; exact Or.inl h
  | cons p rest ih =>
    obtain ⟨k0, v0⟩ := p
    simp only [QMap.insert] at h
    split_ifs at h with h1 h2
    · simp only [QMap.keys, List.map_cons, List.mem_cons] at h ⊢
      exact h
    · simp only [QMap.keys, List.map_cons, List.mem_cons] at h ⊢
      rcases h with h | h
      · exact Or.inl h
      · exact Or.inr (Or.inr h)
    · simp only [QMap.keys, List.map_cons, List.mem_cons] at h ⊢
      rcases h with h | h
      · exact Or.inr (Or.inl h)
      · rcases ih h with h | h
        · exact Or.inl h
        · exact Or.inr (Or.inr h)

theorem sortedKeys_insert {α : Type} (m : QMap α) (k : String) (v : α)
    (hm : SortedKeys m) : SortedKeys (QMap.insert m k v) := by
  induction m with
  | nil => simp [QMap.insert, SortedKeys, QMap.keys]
  | cons p rest ih =>
    obtain ⟨k0, v0⟩ := p
    unfold SortedKeys QMap.keys at hm
    simp only [List.map_cons, List.sorted_cons] at hm
    obtain ⟨hlt, hrest⟩ := hm
    simp only [QMap.insert]
    split_ifs with h1 h2
    · unfold SortedKeys QMap.keys
      simp only [List.map_cons, List.sorted_cons, List.mem_cons]
      refine ⟨?_, hlt, hrest⟩
      intro b hb
      rcases hb with hb | hb
      · rw [hb]; exact h1
      · exact lt_trans h1 (hlt b hb)
    · unfold SortedKeys QMap.keys
      simp only [List.map_cons, List.sorted_cons]
      rw [h2]
      exact ⟨hlt, hrest⟩
    · have h3 : k0 < k := lt_of_le_of_ne (not_lt.mp h1) (Ne.symm h2)
      unfold SortedKeys QMap.keys
      simp only [List.map_cons, List.sorted_cons]
      refine ⟨?_, ih hrest⟩
      intro b hb
      rcases mem_keys_insert rest k v b hb with hb | hb
      · rw [hb]; exact h3
      · exact hlt b hb

theorem sortedKeys_modify {α : Type} (m : QMap α) (k : String) (d : α) (f : α → α)
    (hm : SortedKeys m) : SortedKeys (QMap.modify m k d f) :=
  sortedKeys_insert m k _ hm

theorem tablesSorted_update (m : CrossTable) (k : String) (f : CrossTableData → CrossTableData)
    (hf : ∀ d, SortedKeys d.m_tableData → SortedKeys (f d).m_tableData)
    (hm : TablesSorted m) : TablesSorted (update m k f) := by
  intro q
  rw [value_update]
  split_ifs with h
  · exact hf _ (hm k)
  · exact hm q

theorem tablesSorted_countResult (m : CrossTable) (w b r : String) (hm : TablesSorted m) :
    TablesSorted (countResult m w b r) := by
  have step : ∀ (m : CrossTable) k f, TablesSorted m →
      (∀ d, SortedKeys d.m_tableData → SortedKeys (f d).m_tableData) →
      TablesSorted (update m k f) := fun m k f hm hf => tablesSorted_update m k f hf hm
  have frame : ∀ (m : CrossTable) k f, (∀ d, (f d).m_tableData = d.m_tableData) →
      TablesSorted m → TablesSorted (update m k f) :=
    fun m k f hf hm => tablesSorted_update m k f (fun d hd => by rw [hf]; exact hd) hm
  have str : ∀ (m : CrossTable) k k2 f, TablesSorted m →
      TablesSorted (updateString m k k2 f) :=
    fun m k k2 f hm => tablesSorted_update m k _
      (fun d hd => sortedKeys_modify _ _ _ _ hd) hm
  have h4 : TablesSorted (updateString (updateString (update (update m w id) b id) w b id)
      b w id) :=
    str _ _ _ _ (str _ _ _ _ (frame _ _ _ (fun _ => rfl) (frame _ _ _ (fun _ => rfl) hm)))
  unfold countResult
  simp only
  split_ifs
  · exact h4
  · exact frame _ _ _ (fun _ => rfl) (frame _ _ _ (fun _ => rfl)
      (str _ _ _ _ (str _ _ _ _ (frame _ _ _ (fun _ => rfl) (frame _ _ _ (fun _ => rfl) h4)))))
  · exact frame _ _ _ (fun _ => rfl) (frame _ _ _ (fun _ => rfl)
      (str _ _ _ _ (str _ _ _ _ (frame _ _ _ (fun _ => rfl) (frame _ _ _ (fun _ => rfl) h4)))))
  · exact frame _ _ _ (fun _ => rfl) (frame _ _ _ (fun _ => rfl)
      (str _ _ _ _ (str _ _ _ _ (frame _ _ _ (fun _ => rfl) (frame _ _ _ (fun _ => rfl) h4)))))
  · exact frame _ _ _ (fun _ => rfl) (frame _ _ _ (fun _ => rfl) h4)

theorem tablesSorted_foldl (gs : List Game) (m : CrossTable) (hm : TablesSorted m) :
    TablesSorted (gs.foldl (fun m g => countResult m g.white g.black g.result) m) := by
  induction gs generalizing m with
  | nil => exact hm
  | cons g rest ih => exact ih _ (tablesSorted_countResult m _ _ _ hm)

theorem sbOfString_eq (score : ℚ) (s : String) (sb : ℚ) :
    sbOfString score s sb
      = sb + score * ((s.data.count '1' : ℚ) + 1 / 2 * (s.data.count '=' : ℚ)) := by
  unfold sbOfString
  generalize s.data = cs
  induction cs generalizing sb with
  | nil => simp
  | cons c rest ih =>
    simp only [List.foldl_cons, List.count_cons]
    rw [ih]
    by_cases h1 : c = '1'
    · subst h1
      simp only [if_true, beq_self_eq_true]
      have : ('1' == '=') = false := by decide
      simp only [this]
      push_cast; ring
    · by_cases h2 : c = '='
      · subst h2
        have : ('=' == '1') = false := by decide
        simp only [if_neg h1, if_true, beq_self_eq_true, this]
        push_cast; ring
      · have e1 : (c == '1') = false := by simpa using h1
        have e2 : (c == '=') = false := by simpa using h2
        simp only [if_neg h1, if_neg h2, e1, e2]
        push_cast; ring

theorem neustadtl_eq (m : CrossTable) (ctd : CrossTableData) :
    neustadtl m ctd
      = (ctd.m_tableData.map (fun td => (QMap.value m td.1 {}).m_score
          * ((td.2.data.count '1' : ℚ) + 1 / 2 * (td.2.data.count '=' : ℚ)))).sum := by
  unfold neustadtl
  have : ∀ (l : QMap String) (sb : ℚ),
      l.foldl (fun sb td => sbOfString (QMap.value m td.1 {}).m_score td.2 sb) sb
        = sb + (l.map (fun td => (QMap.value m td.1 {}).m_score
          * ((td.2.data.count '1' : ℚ) + 1 / 2 * (td.2.data.count '=' : ℚ)))).sum := by
    intro l
    induction l with
    | nil => intro sb; simp
    | cons td rest ih =>
      intro sb
      simp only [List.foldl_cons, List.map_cons, List.sum_cons]
      rw [ih, sbOfString_eq, add_assoc]
  rw [this, zero_add]

theorem count_chars (r : String) :
    (whiteChar r).count '1' = (if r = "1-0" then 1 else 0) ∧
    (blackChar r).count '1' = (if r = "0-1" then 1 else 0) ∧
    (whiteChar r).count '=' = (if r = "1/2-1/2" then 1 else 0) ∧
    (blackChar r).count '=' = (if r = "1/2-1/2" then 1 else 0) := by
  unfold whiteChar blackChar
  by_cases h1 : r = "1-0"
  · subst h1; decide
  · by_cases h2 : r = "0-1"
    · subst h2; decide
    · by_cases h3 : r = "1/2-1/2"
      · subst h3; decide
      · simp [h1, h2, h3]

theorem count_resultChars (p o : String) (gs : List Game) :
    (resultChars p o gs).count '1' = winsOver p o gs ∧
    (resultChars p o gs).count '=' = drawsWith p o gs := by
  induction gs with
  | nil => exact ⟨rfl, rfl⟩
  | cons g rest ih =>
    obtain ⟨ih1, ih2⟩ := ih
    obtain ⟨c1, c2, c3, c4⟩ := count_chars g.result
    unfold resultChars winsOver at ih1
    unfold resultChars drawsWith at ih2
    unfold resultChars winsOver drawsWith
    simp only [List.flatMap_cons, List.count_append, List.countP_cons, ih1, ih2,
      decide_eq_true_eq]
    simp only [apply_ite (List.count '1'), apply_ite (List.count '='), c1, c2, c3, c4,
      List.count_nil]
    constructor
    · split_ifs <;> first | omega | (exfalso; tauto)
    · split_ifs <;> first | omega | (exfalso; tauto)

theorem neustadtl_congr (m m2 : CrossTable) (e e2 : CrossTableData)
    (hs : ∀ q, (QMap.value m2 q {}).m_score = (QMap.value m q {}).m_score)
    (ht : e2.m_tableData = e.m_tableData) : neustadtl m2 e2 = neustadtl m e := by
  unfold neustadtl
  rw [ht]
  have : (fun (sb : ℚ) (td : String × String) =>
        sbOfString (QMap.value m2 td.1 {}).m_score td.2 sb)
      = (fun sb td => sbOfString (QMap.value m td.1 {}).m_score td.2 sb) := by
    funext sb td; rw [hs]
  rw [this]

theorem sbPass_foldl (m : CrossTable) (ks : List String) (m2 : CrossTable)
    (hs : ∀ q, (QMap.value m2 q {}).m_score = (QMap.value m q {}).m_score)
    (ht : ∀ q, (QMap.value m2 q {}).m_tableData = (QMap.value m q {}).m_tableData) (p : String) :
    (QMap.value (ks.foldl (fun m key => update m key
        (fun ctd => { ctd with m_neustadtlScore := neustadtl m ctd })) m2) p {}).m_score
      = (QMap.value m p {}).m_score ∧
    (QMap.value (ks.foldl (fun m key => update m key
        (fun ctd => { ctd with m_neustadtlScore := neustadtl m ctd })) m2) p {}).m_tableData
      = (QMap.value m p {}).m_tableData ∧
    (QMap.value (ks.foldl (fun m key => update m key
        (fun ctd => { ctd with m_neustadtlScore := neustadtl m ctd })) m2) p {}).m_neustadtlScore
      = if p ∈ ks then neustadtl m (QMap.value m p {})
        else (QMap.value m2 p {}).m_neustadtlScore := by
  induction ks generalizing m2 with
  | nil => exact ⟨hs p, ht p, by simp⟩
  | cons k rest ih =>
    simp only [List.foldl_cons]
    have hs2 : ∀ q, (QMap.value (update m2 k
        (fun ctd => { ctd with m_neustadtlScore := neustadtl m2 ctd })) q {}).m_score
        = (QMap.value m q {}).m_score := by
      intro q; rw [value_update]
      split_ifs with h
      · rw [h]; exact hs k
      · exact hs q
    have ht2 : ∀ q, (QMap.value (update m2 k
        (fun ctd => { ctd with m_neustadtlScore := neustadtl m2 ctd })) q {}).m_tableData
        = (QMap.value m q {}).m_tableData := by
      intro q; rw [value_update]
      split_ifs with h
      · rw [h]; exact ht k
      · exact ht q
    obtain ⟨i1, i2, i3⟩ := ih _ hs2 ht2
    refine ⟨i1, i2, ?_⟩
    rw [i3]
    by_cases hp : p ∈ rest
    · rw [if_pos hp, if_pos (List.mem_cons_of_mem _ hp)]
    · rw [if_neg hp, value_update]
      by_cases hk : p = k
      · subst hk
        rw [if_pos rfl, if_pos (List.mem_cons_self _ _)]
        exact neustadtl_congr m m2 _ _ hs (ht p)
      · rw [if_neg hk, if_neg]
        simp only [List.mem_cons, not_or]
        exact ⟨hk, hp⟩

theorem value_of_not_mem_keys {α : Type} (m : QMap α) (k : String) (d : α)
    (h : k ∉ QMap.keys m) : QMap.value m k d = d := by
  induction m with
  | nil => rfl
  | cons p rest ih =>
    obtain ⟨k0, v0⟩ := p
    simp only [QMap.keys, List.map_cons, List.mem_cons, not_or] at h
    simp only [QMap.value, if_neg h.1]
    exact ih h.2

theorem sbPass_value (m : CrossTable) (p : String) :
    (QMap.value (sbPass m) p {}).m_score = (QMap.value m p {}).m_score ∧
    (QMap.value (sbPass m) p {}).m_tableData = (QMap.value m p {}).m_tableData ∧
    (QMap.value (sbPass m) p {}).m_neustadtlScore = neustadtl m (QMap.value m p {}) := by
  obtain ⟨i1, i2, i3⟩ := sbPass_foldl m (QMap.keys m) m (fun _ => rfl) (fun _ => rfl) p
  refine ⟨i1, i2, ?_⟩
  unfold sbPass
  rw [i3]
  split_ifs with h
  · rfl
  · rw [value_of_not_mem_keys m p {} h]
    rfl

theorem sum_eq_sum_keys (T : QMap String) (hT : SortedKeys T) (F : String → String → ℚ) :
    (T.map (fun td => F td.1 td.2)).sum
      = Finset.sum (QMap.keys T).toFinset (fun o => F o (QMap.value T o "")) := by
  induction T with
  | nil => simp [QMap.keys]
  | cons kv rest ih =>
    obtain ⟨k, v⟩ := kv
    unfold SortedKeys QMap.keys at hT
    simp only [List.map_cons, List.sorted_cons] at hT
    obtain ⟨hlt, hrest⟩ := hT
    have hk : k ∉ (QMap.keys rest).toFinset := by
      intro hmem
      rw [List.mem_toFinset] at hmem
      exact lt_irrefl k (hlt k hmem)
    have hkeys : (QMap.keys ((k, v) :: rest)).toFinset
        = insert k (QMap.keys rest).toFinset := by
      simp [QMap.keys]
    rw [hkeys, Finset.sum_insert hk]
    simp only [List.map_cons, List.sum_cons]
    rw [ih hrest]
    congr 1
    · simp [QMap.value]
    · apply Finset.sum_congr rfl
      intro o ho
      have : o ≠ k := fun e => hk (e ▸ ho)
      simp [QMap.value, this]

theorem resultChars_eq_nil (p o : String) (gs : List Game) (h : o ∉ opponents p gs) :
    resultChars p o gs = [] := by
  unfold resultChars
  rw [List.flatMap_eq_nil_iff]
  intro g hg
  have hA : ¬ (g.white = p ∧ g.black = o) := by
    intro hA
    apply h
    unfold opponents
    rw [List.mem_toFinset, List.mem_append]
    left
    rw [List.mem_map]
    exact ⟨g, List.mem_filter.mpr ⟨hg, by simpa using hA.1⟩, hA.2⟩
  have hB : ¬ (g.black = p ∧ g.white = o) := by
    intro hB
    apply h
    unfold opponents
    rw [List.mem_toFinset, List.mem_append]
    right
    rw [List.mem_map]
    exact ⟨g, List.mem_filter.mpr ⟨hg, by simpa using hB.1⟩, hB.2⟩
  rw [if_neg hA, if_neg hB]
  rfl

theorem cell_scorePass (ctMap : CrossTable) (pList : QVariantList)
    (hf : ∀ q, Fresh (QMap.value ctMap q {})) (p o : String) :
    (cell (scorePass ctMap pList) p o).data = resultChars p o (games pList) := by
  rw [scorePass_eq, foldl_cell]
  have : cell ctMap p o = "" := by
    unfold cell; rw [(hf p).2.2.2.2.2]; rfl
  rw [this]; rfl

theorem tablesSorted_scorePass (ctMap : CrossTable) (pList : QVariantList)
    (hf : ∀ q, Fresh (QMap.value ctMap q {})) : TablesSorted (scorePass ctMap pList) := by
  rw [scorePass_eq]
  apply tablesSorted_foldl
  intro q
  rw [(hf q).2.2.2.2.2]
  exact List.sorted_nil

theorem neustadtl_of_fresh (ctMap : CrossTable) (pList : QVariantList)
    (hf : ∀ q, Fresh (QMap.value ctMap q {})) (p : String) :
    (QMap.value (sbPass (scorePass ctMap pList)) p {}).m_neustadtlScore
      = Finset.sum (opponents p (games pList)) (fun o =>
          (QMap.value (sbPass (scorePass ctMap pList)) o {}).m_score
            * ((winsOver p o (games pList) : ℚ) + 1 / 2 * (drawsWith p o (games pList) : ℚ))) ∧
    ∀ o, (QMap.value (sbPass (scorePass ctMap pList)) o {}).m_score
      = (QMap.value (scorePass ctMap pList) o {}).m_score := by
  have hscore : ∀ o, (QMap.value (sbPass (scorePass ctMap pList)) o {}).m_score
      = (QMap.value (scorePass ctMap pList) o {}).m_score :=
    fun o => (sbPass_value (scorePass ctMap pList) o).1
  refine ⟨?_, hscore⟩
  rw [(sbPass_value (scorePass ctMap pList) p).2.2, neustadtl_eq,
    sum_eq_sum_keys _ (tablesSorted_scorePass ctMap pList hf p)
      (fun o s => (QMap.value (scorePass ctMap pList) o {}).m_score
        * ((s.data.count '1' : ℚ) + 1 / 2 * (s.data.count '=' : ℚ)))]
  have hterm : ∀ o, (QMap.value (scorePass ctMap pList) o {}).m_score
      * (((QMap.value (QMap.value (scorePass ctMap pList) p {}).m_tableData o "").data.count '1' : ℚ)
        + 1 / 2 * ((QMap.value (QMap.value (scorePass ctMap pList) p {}).m_tableData o
            "").data.count '=' : ℚ))
      = (QMap.value (sbPass (scorePass ctMap pList)) o {}).m_score
        * ((winsOver p o (games pList) : ℚ) + 1 / 2 * (drawsWith p o (games pList) : ℚ)) := by
    intro o
    have hc := cell_scorePass ctMap pList hf p o
    unfold cell at hc
    rw [hc, (count_resultChars p o (games pList)).1, (count_resultChars p o (games pList)).2,
      hscore]
  simp only [hterm]
  have hzero1 : ∀ o, o ∉ opponents p (games pList) →
      (QMap.value (sbPass (scorePass ctMap pList)) o {}).m_score
        * ((winsOver p o (games pList) : ℚ) + 1 / 2 * (drawsWith p o (games pList) : ℚ)) = 0 := by
    intro o ho
    have hnil := resultChars_eq_nil p o (games pList) ho
    have h1 := (count_resultChars p o (games pList)).1
    have h2 := (count_resultChars p o (games pList)).2
    rw [hnil] at h1 h2
    simp only [List.count_nil] at h1 h2
    rw [← h1, ← h2]
    simp
  have hzero2 : ∀ o, o ∉ (QMap.keys (QMap.value (scorePass ctMap pList) p {}).m_tableData).toFinset →
      (QMap.value (sbPass (scorePass ctMap pList)) o {}).m_score
        * ((winsOver p o (games pList) : ℚ) + 1 / 2 * (drawsWith p o (games pList) : ℚ)) = 0 := by
    intro o ho
    rw [List.mem_toFinset] at ho
    have hc := cell_scorePass ctMap pList hf p o
    unfold cell at hc
    rw [value_of_not_mem_keys _ o "" ho] at hc
    have h1 := (count_resultChars p o (games pList)).1
    have h2 := (count_resultChars p o (games pList)).2
    rw [← hc] at h1 h2
    have e1 : winsOver p o (games pList) = 0 := by rw [← h1]; rfl
    have e2 : drawsWith p o (games pList) = 0 := by rw [← h2]; rfl
    rw [e1, e2]
    simp
  have hsub1 : (QMap.keys (QMap.value (scorePass ctMap pList) p {}).m_tableData).toFinset
      ⊆ (QMap.keys (QMap.value (scorePass ctMap pList) p {}).m_tableData).toFinset
        ∪ opponents p (games pList) := Finset.subset_union_left
  have hsub2 : opponents p (games pList)
      ⊆ (QMap.keys (QMap.value (scorePass ctMap pList) p {}).m_tableData).toFinset
        ∪ opponents p (games pList) := Finset.subset_union_right
  rw [Finset.sum_subset hsub1 (fun o _ ho => hzero2 o ho),
    ← Finset.sum_subset hsub2 (fun o _ ho => hzero1 o ho)]

/-- C5: the Sonneborn-Berger score that the second pass assigns to player `p` is the
sum, over every opponent `o` of `p`, of the final raw score of `o` times (wins of `p`
over `o` + 1/2 draws between `p` and `o`); losses add nothing, and the raw scores are
those the first pass left after all records of the ledger. -/
theorem neustadtl_sum (fuel : Nat) (players : List PlayerData) (pList : QVariantList)
    (ctMap : CrossTable) (abbrevList : List String)
    (hnames : ensureNames fuel players [] [] = some (ctMap, abbrevList)) (p : String) :
    (QMap.value (sbPass (scorePass ctMap pList)) p {}).m_neustadtlScore
      = Finset.sum (opponents p (games pList)) (fun o =>
          (QMap.value (sbPass (scorePass ctMap pList)) o {}).m_score
            * ((winsOver p o (games pList) : ℚ) + 1 / 2 * (drawsWith p o (games pList) : ℚ))) ∧
    ∀ o, (QMap.value (sbPass (scorePass ctMap pList)) o {}).m_score
      = (QMap.value (scorePass ctMap pList) o {}).m_score := by
  have hf := ensureNames_fresh fuel players [] [] (ctMap, abbrevList) fresh_default hnames
  simp only at hf
  exact neustadtl_of_fresh ctMap pList hf p

/-- Witness of C5: the four players and the mixed ledger, for the player Gamma. -/
theorem neustadtl_sum_witness :
    ensureNames 10 fourPlayers [] [] = some (fourTable, ["Al", "Be", "Ga", "De"]) ∧
    ((QMap.value (sbPass (scorePass fourTable mixedLedger)) "Gamma" {}).m_neustadtlScore
      = Finset.sum (opponents "Gamma" (games mixedLedger)) (fun o =>
          (QMap.value (sbPass (scorePass fourTable mixedLedger)) o {}).m_score
            * ((winsOver "Gamma" o (games mixedLedger) : ℚ)
              + 1 / 2 * (drawsWith "Gamma" o (games mixedLedger) : ℚ))) ∧
    ∀ o, (QMap.value (sbPass (scorePass fourTable mixedLedger)) o {}).m_score
      = (QMap.value (scorePass fourTable mixedLedger) o {}).m_score) :=
  ⟨ensureNames_fourPlayers,
    neustadtl_sum 10 fourPlayers mixedLedger fourTable _ ensureNames_fourPlayers "Gamma"⟩

/-! ## The cross-table: ranking order -/

theorem generateCrossTable_mixed :
    generateCrossTable 10 fourPlayers mixedLedger = some mixedRows := by
  unfold generateCrossTable
  rw [ensureNames_fourPlayers]
  simp +decide [scorePass, mixedLedger, gameRecord, countGame, countResult, QVariant.toMap,
    QMap.contains, QVariantMap.get, QMap.value, QVariant.toString, update, updateString,
    QMap.modify, QMap.insert, fourTable, String.lt_iff_toList_lt, sbPass, QMap.keys, neustadtl,
    sbOfString, fourPlayers, qSort, QMap.values, sortCrossTableDataByScore, mixedRows]
  norm_num [List.orderedInsert]

theorem sort_iff_rankKey (a b : CrossTableData) :
    sortCrossTableDataByScore a b = true ↔ rankKey b < rankKey a := by
  unfold sortCrossTableDataByScore rankKey
  simp only [Prod.Lex.lt_iff]
  split_ifs with h1 h2 h3 h4
  · simp [h1, h2, h3, h4]
  · simp [h1, h2, h3, h4, eq_comm]
  · simp [h1, h2, h3, eq_comm]
  · simp [h1, h2, eq_comm]
  · simp [h1, eq_comm]

theorem sort_false_iff (a b : CrossTableData) :
    sortCrossTableDataByScore a b = false ↔ rankKey a ≤ rankKey b := by
  rw [← not_lt, ← sort_iff_rankKey, Bool.not_eq_true]

theorem rankKey_eq_iff (a b : CrossTableData) :
    rankKey a = rankKey b ↔
      a.m_score = b.m_score ∧ a.m_neustadtlScore = b.m_neustadtlScore ∧
      a.m_gamesPlayedAsBlack = b.m_gamesPlayedAsBlack ∧
      a.m_winsAsWhite + a.m_winsAsBlack = b.m_winsAsWhite + b.m_winsAsBlack ∧
      a.m_winsAsBlack = b.m_winsAsBlack := by
  unfold rankKey
  simp only [EmbeddingLike.apply_eq_iff_eq, Prod.mk.injEq]

theorem sorted_qSort (l : List CrossTableData) :
    (qSort sortCrossTableDataByScore l).Pairwise
      (fun earlier later => sortCrossTableDataByScore later earlier = false) := by
  haveI : IsTotal CrossTableData (fun a b => sortCrossTableDataByScore b a = false) :=
    ⟨fun a b => by
      simp only [sort_false_iff]
      exact le_total _ _⟩
  haveI : IsTrans CrossTableData (fun a b => sortCrossTableDataByScore b a = false) :=
    ⟨fun a b c hab hbc => by
      simp only [sort_false_iff] at hab hbc ⊢
      exact le_trans hbc hab⟩
  exact List.sorted_insertionSort (fun a b => sortCrossTableDataByScore b a = false) l

/-- C6: the body rows of the cross-table are in ranking order: no row ranks strictly
above a row printed before it under `sortCrossTableDataByScore`, which is the
lexicographic descending comparison of (raw score, tie-break score, games as Black,
total wins, wins as Black); in particular, of two rows with equal raw score the one
with the strictly higher Sonneborn-Berger score is printed first. -/
theorem rows_in_ranking_order (fuel : Nat) (players : List PlayerData) (pList : QVariantList)
    (rows : List CrossTableData) (h : generateCrossTable fuel players pList = some rows) :
    rows.Pairwise (fun earlier later => sortCrossTableDataByScore later earlier = false) ∧
    (∀ a b, sortCrossTableDataByScore a b = true ↔
      (a.m_score > b.m_score ∨ a.m_score = b.m_score ∧
        (a.m_neustadtlScore > b.m_neustadtlScore ∨ a.m_neustadtlScore = b.m_neustadtlScore ∧
          (a.m_gamesPlayedAsBlack > b.m_gamesPlayedAsBlack ∨
            a.m_gamesPlayedAsBlack = b.m_gamesPlayedAsBlack ∧
              (a.m_winsAsWhite + a.m_winsAsBlack > b.m_winsAsWhite + b.m_winsAsBlack ∨
                a.m_winsAsWhite + a.m_winsAsBlack = b.m_winsAsWhite + b.m_winsAsBlack ∧
                  a.m_winsAsBlack > b.m_winsAsBlack))))) ∧
    (∀ (i j : Nat) (hi : i < rows.length) (hj : j < rows.length),
      rows[i].m_score = rows[j].m_score →
      rows[i].m_neustadtlScore > rows[j].m_neustadtlScore → i < j) := by
  have hrows : ∃ l, rows = qSort sortCrossTableDataByScore l := by
    unfold generateCrossTable at h
    cases hn : ensureNames fuel players [] [] with
    | none => rw [hn] at h; exact Option.noConfusion h
    | some out =>
      obtain ⟨ctMap, abbrevList⟩ := out
      rw [hn] at h
      simp only at h
      split_ifs at h with h2
      · cases ht : twoPlayerSummary (sbPass (scorePass ctMap pList)) pList with
        | none => rw [ht] at h; exact Option.noConfusion h
        | some t =>
          rw [ht] at h
          simp only [Option.map_some', Option.some.injEq] at h
          exact ⟨_, h.symm⟩
      · simp only [Option.map_some', Option.some.injEq] at h
        exact ⟨_, h.symm⟩
  obtain ⟨l, hl⟩ := hrows
  have hsorted := sorted_qSort l
  rw [← hl] at hsorted
  have hlex : ∀ a b, sortCrossTableDataByScore a b = true ↔
      (a.m_score > b.m_score ∨ a.m_score = b.m_score ∧
        (a.m_neustadtlScore > b.m_neustadtlScore ∨ a.m_neustadtlScore = b.m_neustadtlScore ∧
          (a.m_gamesPlayedAsBlack > b.m_gamesPlayedAsBlack ∨
            a.m_gamesPlayedAsBlack = b.m_gamesPlayedAsBlack ∧
              (a.m_winsAsWhite + a.m_winsAsBlack > b.m_winsAsWhite + b.m_winsAsBlack ∨
                a.m_winsAsWhite + a.m_winsAsBlack = b.m_winsAsWhite + b.m_winsAsBlack ∧
                  a.m_winsAsBlack > b.m_winsAsBlack)))) := by
    intro a b
    rw [sort_iff_rankKey]
    unfold rankKey
    simp only [Prod.Lex.lt_iff, gt_iff_lt]
    constructor <;> intro h <;>
      simpa [eq_comm] using h
  refine ⟨hsorted, hlex, ?_⟩
  intro i j hi hj hs hsb
  by_contra hij
  have hji : j ≤ i := Nat.le_of_not_lt hij
  have habove : sortCrossTableDataByScore rows[i] rows[j] = true :=
    (hlex _ _).mpr (Or.inr ⟨hs, Or.inl hsb⟩)
  rcases Nat.lt_or_eq_of_le hji with hlt | heq
  · have := List.pairwise_iff_getElem.mp hsorted j i hj hi hlt
    rw [habove] at this
    exact Bool.noConfusion this
  · subst heq
    exact lt_irrefl _ hsb

/-- Witness of C6: the rows of the four players on the mixed ledger; Beta and Alpha
tie on raw score and tie-break score, and Beta, with more games as Black, is first. -/
theorem rows_in_ranking_order_witness :
    generateCrossTable 10 fourPlayers mixedLedger = some mixedRows ∧
    (mixedRows.Pairwise
        (fun earlier later => sortCrossTableDataByScore later earlier = false) ∧
      (∀ a b, sortCrossTableDataByScore a b = true ↔
        (a.m_score > b.m_score ∨ a.m_score = b.m_score ∧
          (a.m_neustadtlScore > b.m_neustadtlScore ∨ a.m_neustadtlScore = b.m_neustadtlScore ∧
            (a.m_gamesPlayedAsBlack > b.m_gamesPlayedAsBlack ∨
              a.m_gamesPlayedAsBlack = b.m_gamesPlayedAsBlack ∧
                (a.m_winsAsWhite + a.m_winsAsBlack > b.m_winsAsWhite + b.m_winsAsBlack ∨
                  a.m_winsAsWhite + a.m_winsAsBlack = b.m_winsAsWhite + b.m_winsAsBlack ∧
                    a.m_winsAsBlack > b.m_winsAsBlack))))) ∧
      (∀ (i j : Nat) (hi : i < mixedRows.length) (hj : j < mixedRows.length),
        mixedRows[i].m_score = mixedRows[j].m_score →
        mixedRows[i].m_neustadtlScore > mixedRows[j].m_neustadtlScore → i < j)) :=
  ⟨generateCrossTable_mixed,
    rows_in_ranking_order 10 fourPlayers mixedLedger mixedRows generateCrossTable_mixed⟩

/-- C7, amended: the sorting order is strict, never ranking two entries above each
other, and neither of two entries ranks above the other exactly when they agree on
raw score, tie-break score, games as Black, total wins and wins as Black; in every
other case exactly one of the two ranks above the other. -/
theorem sort_strict (a b : CrossTableData) :
    ¬ (sortCrossTableDataByScore a b = true ∧ sortCrossTableDataByScore b a = true) ∧
    ((sortCrossTableDataByScore a b = false ∧ sortCrossTableDataByScore b a = false) ↔
      (a.m_score = b.m_score ∧ a.m_neustadtlScore = b.m_neustadtlScore ∧
        a.m_gamesPlayedAsBlack = b.m_gamesPlayedAsBlack ∧
        a.m_winsAsWhite + a.m_winsAsBlack = b.m_winsAsWhite + b.m_winsAsBlack ∧
        a.m_winsAsBlack = b.m_winsAsBlack)) := by
  constructor
  · rw [sort_iff_rankKey, sort_iff_rankKey]
    exact fun h => lt_asymm h.1 h.2
  · rw [sort_false_iff, sort_false_iff, ← le_antisymm_iff, rankKey_eq_iff]

/-- C7 fails as stated: right after the first game has started, the entries of Alpha
and Beta tie on all keys and neither ranks above the other. -/
theorem sort_tie_at_start :
    ensureNames 10 fourPlayers [] [] = some (fourTable, ["Al", "Be", "Ga", "De"]) ∧
    sortCrossTableDataByScore
      (QMap.value (sbPass (scorePass fourTable firstGameStarted)) "Alpha" {})
      (QMap.value (sbPass (scorePass fourTable firstGameStarted)) "Beta" {}) = false ∧
    sortCrossTableDataByScore
      (QMap.value (sbPass (scorePass fourTable firstGameStarted)) "Beta" {})
      (QMap.value (sbPass (scorePass fourTable firstGameStarted)) "Alpha" {}) = false := by
  refine ⟨ensureNames_fourPlayers, ?_, ?_⟩ <;>
  simp +decide [scorePass, firstGameStarted, gameRecord, countGame, countResult, QVariant.toMap,
    QMap.contains, QVariantMap.get, QMap.value, QVariant.toString, update, updateString,
    QMap.modify, QMap.insert, fourTable, String.lt_iff_toList_lt, sbPass, QMap.keys, neustadtl,
    sbOfString, sortCrossTableDataByScore]

/-! ## The cross-table: abbreviations -/

/-- The abbreviation loop does end when the upper-cased first characters of the names
are pairwise distinct: every first candidate is free, and one test of the loop
condition per player is enough. -/
theorem ensureNames_returns (fuel : Nat) (players : List PlayerData) :
    ∀ (ctMap : CrossTable) (abbrevList : List String),
      (∀ pl ∈ players, pl.name.data ≠ []) →
      (players.map (fun pl => (pl.name.data.headD ' ').toUpper)).Nodup →
      (∀ a ∈ abbrevList, ∀ pl ∈ players,
        a.data.headD ' ' ≠ (pl.name.data.headD ' ').toUpper) →
      ∃ out, ensureNames (fuel + 1) players ctMap abbrevList = some out := by
  induction players with
  | nil => intro ctMap abbrevList _ _ _; exact ⟨_, rfl⟩
  | cons player rest ih =>
    intro ctMap abbrevList hne hnd hinv
    cases hd : player.name.data with
    | nil => exact absurd hd (hne player (List.mem_cons_self _ _))
    | cons c0 cs =>
      have hfirst : firstAbbrev player.name
          = some (String.mk [c0.toUpper, (nextLetter player.name 1).1],
              (nextLetter player.name 1).2) := by
        unfold firstAbbrev; rw [hd]
      have hnot : String.mk [c0.toUpper, (nextLetter player.name 1).1] ∉ abbrevList := by
        intro hmem
        have := hinv _ hmem player (List.mem_cons_self _ _)
        rw [hd] at this
        exact this rfl
      have hloop : abbrevLoop (fuel + 1) abbrevList player.name
          (String.mk [c0.toUpper, (nextLetter player.name 1).1]) (nextLetter player.name 1).2
          = some (String.mk [c0.toUpper, (nextLetter player.name 1).1]) := by
        unfold abbrevLoop; rw [if_neg hnot]
      simp only [List.map_cons, List.nodup_cons] at hnd
      unfold ensureNames
      rw [hfirst]
      simp only
      rw [hloop]
      simp only
      apply ih
      · exact fun pl hpl => hne pl (List.mem_cons_of_mem _ hpl)
      · exact hnd.2
      · intro a ha pl hpl
        rcases List.mem_append.mp ha with h | h
        · exact hinv a h pl (List.mem_cons_of_mem _ hpl)
        · rw [List.mem_singleton] at h
          rw [h]
          intro e
          apply hnd.1
          rw [List.mem_map]
          refine ⟨pl, hpl, ?_⟩
          rw [hd]
          exact e.symm

theorem abbrevLoop_stuck (fuel : Nat) : abbrevLoop fuel ["A "] "a" "A " 1 = none := by
  induction fuel with
  | zero => rfl
  | succ fuel ih =>
    unfold abbrevLoop
    have h1 : "A " ∈ ["A "] := List.mem_singleton_self _
    have h2 : nextLetter "a" 1 = (' ', 1) := by decide
    have h3 : setSecond "A " ' ' = "A " := by decide
    rw [if_pos h1, h2]
    simp only
    rw [h3]
    exact ih

/-- C9 at its failing input: for the players `A` and `a`, distinct and non-empty,
the first gets `A `; the second starts from `A ` with its name exhausted, and the
loop of lines 324-326 sets the second letter to a space again and again: it leaves
for no amount of fuel, and no cross-table is produced. -/
theorem abbrevLoop_diverges :
    (clashingPlayers.map (fun pl => pl.name)).Nodup ∧
    (∀ pl ∈ clashingPlayers, pl.name ≠ "") ∧
    (ensureNames 1 [⟨"A", 0⟩] [] []).map Prod.snd = some ["A "] ∧
    firstAbbrev "a" = some ("A ", 1) ∧
    (∀ fuel, abbrevLoop fuel ["A "] "a" "A " 1 = none) ∧
    (∀ fuel pList, generateCrossTable fuel clashingPlayers pList = none) := by
  have hfA : firstAbbrev "A" = some ("A ", 1) := by decide
  have hfa : firstAbbrev "a" = some ("A ", 1) := by decide
  refine ⟨by decide, by decide, ?_, hfa, abbrevLoop_stuck, ?_⟩
  · simp only [ensureNames, hfA, abbrevLoop]
    simp
  · intro fuel pList
    have : ensureNames fuel clashingPlayers [] [] = none := by
      unfold clashingPlayers
      cases fuel with
      | zero => simp only [ensureNames, hfA, abbrevLoop]
      | succ f =>
        have hA : abbrevLoop (f + 1) [] "A" "A " 1 = some "A " := by
          simp [abbrevLoop]
        simp only [ensureNames, hfA, hA, hfa, List.nil_append, abbrevLoop_stuck]
    unfold generateCrossTable
    rw [this]

/-! ## The cross-table: a round robin of draws -/

theorem allDrawn_games (names : List String) (pList : QVariantList)
    (h : AllDrawn names pList) :
    ∀ g ∈ games pList, g.white ∈ names ∧ g.black ∈ names ∧ g.white ≠ g.black ∧
      g.result = "1/2-1/2" := by
  intro g hg
  unfold games at hg
  rw [List.mem_filterMap] at hg
  obtain ⟨v, hv, hgv⟩ := hg
  obtain ⟨g2, h2, h3⟩ := h v hv
  rw [hgv] at h2
  simp only [Option.some.injEq] at h2
  rw [h2]; exact h3

theorem sum_map_ite_eq (ns : List String) (hnd : ns.Nodup) (b : String) (hb : b ∈ ns) :
    (ns.map (fun q => if b = q then 1 else 0)).sum = 1 := by
  induction ns with
  | nil => exact absurd hb (List.not_mem_nil _)
  | cons a rest ih =>
    rw [List.nodup_cons] at hnd
    simp only [List.map_cons, List.sum_cons]
    by_cases hab : b = a
    · subst hab
      rw [if_pos rfl]
      have : (rest.map (fun q => if b = q then 1 else 0)).sum = 0 := by
        apply List.sum_eq_zero
        intro x hx
        rw [List.mem_map] at hx
        obtain ⟨q, hq, hqx⟩ := hx
        have : b ≠ q := fun e => hnd.1 (e ▸ hq)
        rw [if_neg this] at hqx
        exact hqx.symm
      rw [this]
    · rw [if_neg hab, zero_add]
      rcases List.mem_cons.mp hb with h | h
      · exact absurd h hab
      · exact ih hnd.2 h

theorem sum_playedBetween (ns : List String) (hnd : ns.Nodup) (p : String) (gs : List Game)
    (hg : ∀ g ∈ gs, g.white ∈ ns ∧ g.black ∈ ns ∧ g.white ≠ g.black ∧
      g.result = "1/2-1/2") :
    (ns.map (fun q => playedBetween p q gs)).sum
      = drawsWithWhite p gs + drawsWithBlack p gs := by
  induction gs with
  | nil =>
    simp only [playedBetween, drawsWithWhite, drawsWithBlack, List.countP_nil, add_zero]
    apply List.sum_eq_zero
    intro x hx
    rw [List.mem_map] at hx
    obtain ⟨q, _, hqx⟩ := hx
    exact hqx.symm
  | cons g rest ih =>
    have ih2 := ih (fun g hg2 => hg g (List.mem_cons_of_mem _ hg2))
    obtain ⟨hw, hb, hwb, hr⟩ := hg g (List.mem_cons_self _ _)
    have hstar : g.result ≠ "*" := by rw [hr]; decide
    have hsplit : ∀ q, playedBetween p q (g :: rest)
        = playedBetween p q rest + ((if g.white = p then (if g.black = q then 1 else 0) else 0)
          + (if g.black = p then (if g.white = q then 1 else 0) else 0)) := by
      intro q
      unfold playedBetween
      rw [List.countP_cons]
      congr 1
      simp only [decide_eq_true_eq]
      by_cases h1 : g.white = p
      · have h2 : ¬ g.black = p := fun e => hwb (h1.trans e.symm)
        by_cases h3 : g.black = q
        · rw [if_pos ⟨Or.inl ⟨h1, h3⟩, hstar⟩, if_pos h1, if_pos h3, if_neg h2]
        · rw [if_neg (fun h => h.1.elim (fun x => h3 x.2) (fun x => h2 x.1)), if_pos h1,
            if_neg h3, if_neg h2]
      · by_cases h2 : g.black = p
        · by_cases h3 : g.white = q
          · rw [if_pos ⟨Or.inr ⟨h2, h3⟩, hstar⟩, if_neg h1, if_pos h2, if_pos h3]
          · rw [if_neg (fun h => h.1.elim (fun x => h1 x.1) (fun x => h3 x.2)), if_neg h1,
              if_pos h2, if_neg h3]
        · rw [if_neg (fun h => h.1.elim (fun x => h1 x.1) (fun x => h2 x.1)), if_neg h1,
            if_neg h2]
    simp only [hsplit, List.sum_map_add, ih2]
    unfold drawsWithWhite drawsWithBlack
    simp only [List.countP_cons, decide_eq_true_eq, hr, and_true]
    have e1 : (ns.map (fun q => if g.white = p then (if g.black = q then 1 else 0) else 0)).sum
        = if g.white = p then 1 else 0 := by
      by_cases h1 : g.white = p
      · simp only [if_pos h1]; exact sum_map_ite_eq ns hnd g.black hb
      · simp only [if_neg h1]; simp
    have e2 : (ns.map (fun q => if g.black = p then (if g.white = q then 1 else 0) else 0)).sum
        = if g.black = p then 1 else 0 := by
      by_cases h1 : g.black = p
      · simp only [if_pos h1]; exact sum_map_ite_eq ns hnd g.white hw
      · simp only [if_neg h1]; simp
    rw [e1, e2]
    omega

theorem playedBetween_self (p : String) (gs : List Game)
    (hg : ∀ g ∈ gs, g.white ≠ g.black) : playedBetween p p gs = 0 := by
  unfold playedBetween
  rw [List.countP_eq_zero]
  intro g hgm
  simp only [decide_eq_true_eq]
  intro h
  rcases h.1 with h1 | h1
  · exact hg g hgm (h1.1.trans h1.2.symm)
  · exact hg g hgm (h1.2.trans h1.1.symm)

theorem sum_pairs (ns : List String) (hnd : ns.Nodup) (p : String) (hp : p ∈ ns)
    (f : String → Nat) (h0 : f p = 0) (h1 : ∀ q ∈ ns, p ≠ q → f q = 1) :
    (ns.map f).sum + 1 = ns.length := by
  induction ns with
  | nil => exact absurd hp (List.not_mem_nil _)
  | cons a rest ih =>
    rw [List.nodup_cons] at hnd
    simp only [List.map_cons, List.sum_cons, List.length_cons]
    by_cases hpa : p = a
    · subst hpa
      rw [h0, zero_add]
      have : (rest.map f).sum = rest.length := by
        have hall : ∀ q ∈ rest, f q = 1 := fun q hq =>
          h1 q (List.mem_cons_of_mem _ hq) (fun e => hnd.1 (e ▸ hq))
        clear ih h1 hp hnd
        induction rest with
        | nil => rfl
        | cons b r ih2 =>
          simp only [List.map_cons, List.sum_cons, List.length_cons]
          rw [hall b (List.mem_cons_self _ _),
            ih2 (fun q hq => hall q (List.mem_cons_of_mem _ hq))]
          omega
      omega
    · have hp2 : p ∈ rest := by
        rcases List.mem_cons.mp hp with h | h
        · exact absurd h hpa
        · exact h
      have := ih hnd.2 hp2 (fun q hq => h1 q (List.mem_cons_of_mem _ hq))
      rw [h1 a (List.mem_cons_self _ _) hpa]
      omega

theorem draws_count (ns : List String) (hnd : ns.Nodup) (pList : QVariantList)
    (hd : AllDrawn ns pList) (hpair : EachPairOnce ns pList) (p : String) (hp : p ∈ ns) :
    drawsWithWhite p (games pList) + drawsWithBlack p (games pList) + 1 = ns.length := by
  have hg := allDrawn_games ns pList hd
  rw [← sum_playedBetween ns hnd p (games pList) hg]
  exact sum_pairs ns hnd p hp _
    (playedBetween_self p _ (fun g hgm => (hg g hgm).2.2.1))
    (fun q hq hpq => hpair p hp q hq hpq)

theorem wins_zero_of_drawn (p : String) (gs : List Game)
    (hg : ∀ g ∈ gs, g.result = "1/2-1/2") :
    winsWithWhite p gs = 0 ∧ winsWithBlack p gs = 0 := by
  unfold winsWithWhite winsWithBlack
  rw [List.countP_eq_zero, List.countP_eq_zero]
  constructor
  · intro g hgm
    simp only [decide_eq_true_eq, hg g hgm]
    intro h
    exact absurd h.2 (by decide)
  · intro g hgm
    simp only [decide_eq_true_eq, hg g hgm]
    intro h
    exact absurd h.2 (by decide)

theorem score_allDrawn (ctMap : CrossTable) (hf : ∀ q, Fresh (QMap.value ctMap q {}))
    (ns : List String) (hnd : ns.Nodup) (pList : QVariantList)
    (hd : AllDrawn ns pList) (hpair : EachPairOnce ns pList) (p : String) (hp : p ∈ ns) :
    (QMap.value (scorePass ctMap pList) p {}).m_score = ((ns.length : ℚ) - 1) / 2 := by
  have hg := allDrawn_games ns pList hd
  obtain ⟨w1, w2⟩ := wins_zero_of_drawn p (games pList) (fun g hgm => (hg g hgm).2.2.2)
  have hc := draws_count ns hnd pList hd hpair p hp
  rw [scorePass_eq, score_foldl, (hf p).1, w1, w2]
  have : ((drawsWithWhite p (games pList) + drawsWithBlack p (games pList) : Nat) : ℚ)
      = (ns.length : ℚ) - 1 := by
    rw [← hc]; push_cast; ring
  rw [this]
  push_cast; ring

theorem mem_opponents (p o : String) (gs : List Game) :
    o ∈ opponents p gs ↔
      ∃ g ∈ gs, (g.white = p ∧ g.black = o) ∨ (g.black = p ∧ g.white = o) := by
  unfold opponents
  simp only [List.mem_toFinset, List.mem_append, List.mem_map, List.mem_filter,
    decide_eq_true_eq]
  constructor
  · rintro (⟨g, ⟨hg, h1⟩, h2⟩ | ⟨g, ⟨hg, h1⟩, h2⟩)
    · exact ⟨g, hg, Or.inl ⟨h1, h2⟩⟩
    · exact ⟨g, hg, Or.inr ⟨h1, h2⟩⟩
  · rintro ⟨g, hg, (⟨h1, h2⟩ | ⟨h1, h2⟩)⟩
    · exact Or.inl ⟨g, ⟨hg, h1⟩, h2⟩
    · exact Or.inr ⟨g, ⟨hg, h1⟩, h2⟩

theorem opponents_allDrawn (ns : List String) (pList : QVariantList)
    (hd : AllDrawn ns pList) (hpair : EachPairOnce ns pList) (p : String) (hp : p ∈ ns) :
    opponents p (games pList) = ns.toFinset.erase p := by
  have hg := allDrawn_games ns pList hd
  ext o
  rw [mem_opponents, Finset.mem_erase, List.mem_toFinset]
  constructor
  · rintro ⟨g, hgm, (⟨h1, h2⟩ | ⟨h1, h2⟩)⟩
    · obtain ⟨_, hb, hwb, _⟩ := hg g hgm
      exact ⟨fun e => hwb (h1.trans (e.symm.trans h2.symm)), h2 ▸ hb⟩
    · obtain ⟨hw, _, hwb, _⟩ := hg g hgm
      exact ⟨fun e => hwb (h2.trans (e.trans h1.symm)), h2 ▸ hw⟩
  · rintro ⟨hne, ho⟩
    have h1 := hpair p hp o ho (Ne.symm hne)
    have hpos : 0 < playedBetween p o (games pList) := by omega
    unfold playedBetween at hpos
    rw [List.countP_pos_iff] at hpos
    obtain ⟨g, hgm, hgp⟩ := hpos
    simp only [decide_eq_true_eq] at hgp
    exact ⟨g, hgm, hgp.1⟩

theorem drawsWith_allDrawn (p o : String) (hpo : p ≠ o) (gs : List Game)
    (hg : ∀ g ∈ gs, g.result = "1/2-1/2") :
    drawsWith p o gs = playedBetween p o gs ∧ winsOver p o gs = 0 := by
  induction gs with
  | nil => exact ⟨rfl, rfl⟩
  | cons g rest ih =>
    obtain ⟨i1, i2⟩ := ih (fun g hg2 => hg g (List.mem_cons_of_mem _ hg2))
    have hr := hg g (List.mem_cons_self _ _)
    have hstar : g.result ≠ "*" := by rw [hr]; decide
    have h10 : g.result ≠ "1-0" := by rw [hr]; decide
    have h01 : g.result ≠ "0-1" := by rw [hr]; decide
    unfold drawsWith playedBetween at i1
    unfold winsOver at i2
    unfold drawsWith playedBetween winsOver
    simp only [List.countP_cons, decide_eq_true_eq]
    constructor
    · rw [add_add_add_comm, i1]
      congr 1
      by_cases hA : g.white = p ∧ g.black = o
      · have hB : ¬ (g.black = p ∧ g.white = o) :=
          fun hB => hpo (hA.1.symm.trans hB.2)
        rw [if_pos ⟨hA.1, hA.2, hr⟩, if_neg (fun h => hB ⟨h.1, h.2.1⟩),
          if_pos ⟨Or.inl hA, hstar⟩]
      · by_cases hB : g.black = p ∧ g.white = o
        · rw [if_neg (fun h => hA ⟨h.1, h.2.1⟩), if_pos ⟨hB.1, hB.2, hr⟩,
            if_pos ⟨Or.inr hB, hstar⟩]
        · rw [if_neg (fun h => hA ⟨h.1, h.2.1⟩), if_neg (fun h => hB ⟨h.1, h.2.1⟩),
            if_neg (fun h => h.1.elim hA hB)]
    · rw [add_add_add_comm, i2, if_neg (fun h => h10 h.2.2), if_neg (fun h => h01 h.2.2)]; rfl



theorem neustadtl_allDrawn (ctMap : CrossTable) (hf : ∀ q, Fresh (QMap.value ctMap q {}))
    (ns : List String) (hnd : ns.Nodup) (pList : QVariantList)
    (hd : AllDrawn ns pList) (hpair : EachPairOnce ns pList) (p : String) (hp : p ∈ ns) :
    (QMap.value (sbPass (scorePass ctMap pList)) p {}).m_neustadtlScore
      = (((ns.length : ℚ) - 1) / 2) ^ 2 := by
  have hg := allDrawn_games ns pList hd
  obtain ⟨hsum, hscore⟩ := neustadtl_of_fresh ctMap pList hf p
  rw [hsum, opponents_allDrawn ns pList hd hpair p hp]
  have hterm : ∀ o ∈ ns.toFinset.erase p,
      (QMap.value (sbPass (scorePass ctMap pList)) o {}).m_score
        * ((winsOver p o (games pList) : ℚ) + 1 / 2 * (drawsWith p o (games pList) : ℚ))
      = ((ns.length : ℚ) - 1) / 4 := by
    intro o ho
    rw [Finset.mem_erase, List.mem_toFinset] at ho
    obtain ⟨d1, d2⟩ := drawsWith_allDrawn p o (Ne.symm ho.1) (games pList)
      (fun g hgm => (hg g hgm).2.2.2)
    rw [hscore, score_allDrawn ctMap hf ns hnd pList hd hpair o ho.2, d1, d2,
      hpair p hp o ho.2 (Ne.symm ho.1)]
    push_cast; ring
  rw [Finset.sum_congr rfl hterm, Finset.sum_const, Finset.card_erase_of_mem
    (List.mem_toFinset.mpr hp), List.toFinset_card_of_nodup hnd]
  have hpos : 1 ≤ ns.length := List.length_pos_of_mem hp
  rw [nsmul_eq_mul, Nat.cast_sub hpos]
  push_cast; ring

theorem keysWithin_update (ns : List String) (m : CrossTable) (k : String)
    (f : CrossTableData → CrossTableData) (hk : k ∈ ns) (hm : KeysWithin ns m) :
    KeysWithin ns (update m k f) := by
  refine ⟨sortedKeys_modify m k {} f hm.1, ?_⟩
  intro x hx
  rcases mem_keys_insert m k _ x hx with h | h
  · rw [h]; exact hk
  · exact hm.2 x h

theorem keysWithin_countResult (ns : List String) (m : CrossTable) (w b r : String)
    (hw : w ∈ ns) (hb : b ∈ ns) (hm : KeysWithin ns m) :
    KeysWithin ns (countResult m w b r) := by
  unfold countResult updateString
  simp only
  split_ifs
  all_goals
    repeat (first
      | exact hm
      | refine keysWithin_update ns _ _ _ hw ?_
      | refine keysWithin_update ns _ _ _ hb ?_)

theorem keysWithin_scorePass (ns : List String) (pList : QVariantList)
    (hd : AllDrawn ns pList) (m : CrossTable) (hm : KeysWithin ns m) :
    KeysWithin ns (scorePass m pList) := by
  rw [scorePass_eq]
  have hg := allDrawn_games ns pList hd
  generalize games pList = gs at hg
  induction gs generalizing m with
  | nil => exact hm
  | cons g rest ih =>
    simp only [List.foldl_cons]
    obtain ⟨hw, hb, _, _⟩ := hg g (List.mem_cons_self _ _)
    exact ih _ (keysWithin_countResult ns m _ _ _ hw hb hm)
      (fun g hg2 => hg g (List.mem_cons_of_mem _ hg2))

theorem keysWithin_sbPass (ns : List String) (m : CrossTable) (hm : KeysWithin ns m) :
    KeysWithin ns (sbPass m) := by
  unfold sbPass
  have hk : ∀ k ∈ QMap.keys m, k ∈ ns := hm.2
  generalize QMap.keys m = ks at hk
  induction ks generalizing m with
  | nil => exact hm
  | cons k rest ih =>
    simp only [List.foldl_cons]
    exact ih _ (keysWithin_update ns m k _ (hk k (List.mem_cons_self _ _)) hm)
      (fun x hx => hk x (List.mem_cons_of_mem _ hx))

theorem keysWithin_ensureNames (ns : List String) (fuel : Nat) (players : List PlayerData) :
    ∀ (ctMap : CrossTable) (abbrevList : List String) (out : CrossTable × List String),
      (∀ pl ∈ players, pl.name ∈ ns) → KeysWithin ns ctMap →
      ensureNames fuel players ctMap abbrevList = some out → KeysWithin ns out.1 := by
  induction players with
  | nil =>
    intro ctMap abbrevList out _ hm h
    simp only [ensureNames, Option.some.injEq] at h
    rw [← h]; exact hm
  | cons player rest ih =>
    intro ctMap abbrevList out hin hm h
    unfold ensureNames at h
    cases h1 : firstAbbrev player.name with
    | none => rw [h1] at h; exact Option.noConfusion h
    | some an =>
      obtain ⟨abbr, n⟩ := an
      rw [h1] at h
      simp only at h
      cases h2 : abbrevLoop fuel abbrevList player.name abbr n with
      | none => rw [h2] at h; exact Option.noConfusion h
      | some abbr2 =>
        rw [h2] at h
        simp only at h
        refine ih _ _ out (fun pl hpl => hin pl (List.mem_cons_of_mem _ hpl)) ?_ h
        refine ⟨sortedKeys_insert _ _ _ hm.1, ?_⟩
        intro x hx
        rcases mem_keys_insert _ _ _ x hx with hx | hx
        · rw [hx]; exact hin player (List.mem_cons_self _ _)
        · exact hm.2 x hx

theorem value_of_mem {α : Type} (m : QMap α) (hm : SortedKeys m) (k : String) (e d : α)
    (h : (k, e) ∈ m) : QMap.value m k d = e := by
  induction m with
  | nil => exact absurd h (List.not_mem_nil _)
  | cons kv rest ih =>
    obtain ⟨k0, v0⟩ := kv
    unfold SortedKeys QMap.keys at hm
    simp only [List.map_cons, List.sorted_cons] at hm
    rcases List.mem_cons.mp h with h | h
    · simp only [Prod.mk.injEq] at h
      simp [QMap.value, h.1, h.2]
    · have hk : k ∈ List.map Prod.fst rest := List.mem_map.mpr ⟨(k, e), h, rfl⟩
      have hne : k ≠ k0 := fun e2 => lt_irrefl k0 (e2 ▸ hm.1 k hk)
      simp only [QMap.value, if_neg hne]
      exact ih hm.2 h

theorem neustadtlScore_update (m : CrossTable) (k : String) (f : CrossTableData → CrossTableData)
    (hf : ∀ d, (f d).m_neustadtlScore = d.m_neustadtlScore) (p : String) :
    (QMap.value (update m k f) p {}).m_neustadtlScore
      = (QMap.value m p {}).m_neustadtlScore := by
  rw [value_update]
  split_ifs with h
  · rw [hf, h]
  · rfl

theorem twoPlayerSummary_spec (ns : List String) (m t : CrossTable) (pList : QVariantList)
    (hd : AllDrawn ns pList) (hm : KeysWithin ns m)
    (h : twoPlayerSummary m pList = some t) :
    KeysWithin ns t ∧
    ∀ q, (QMap.value t q {}).m_score = (QMap.value m q {}).m_score ∧
      (QMap.value t q {}).m_neustadtlScore = (QMap.value m q {}).m_neustadtlScore := by
  unfold twoPlayerSummary at h
  cases hfirst : QList.at pList 0 with
  | none => rw [hfirst] at h; exact Option.noConfusion h
  | some first =>
    rw [hfirst] at h
    simp only at h
    have hmem : first ∈ pList := by
      unfold QList.at at hfirst
      simp only [le_refl, if_true, Int.toNat_zero] at hfirst
      exact List.get?_mem hfirst
    obtain ⟨g, hg, hw, hb, _, _⟩ := hd first hmem
    unfold gameOf at hg
    split_ifs at hg with hc
    simp only [Option.some.injEq] at hg
    have hw2 : (QVariantMap.get first.toMap "white").toString ∈ ns := by rw [← hg] at hw; exact hw
    have hb2 : (QVariantMap.get first.toMap "black").toString ∈ ns := by rw [← hg] at hb; exact hb
    split_ifs at h with hc2
    · simp only [Option.some.injEq] at h
      rw [← h]
      unfold updateString
      refine ⟨?_, fun q => ⟨?_, ?_⟩⟩
      · repeat (first
          | exact hm
          | refine keysWithin_update ns _ _ _ hw2 ?_
          | refine keysWithin_update ns _ _ _ hb2 ?_)
      · simp (disch := intro _; rfl) only [score_update, value_update_id]
      · simp (disch := intro _; rfl) only [neustadtlScore_update]
        rw [neustadtlScore_update _ _ id (fun _ => rfl),
          neustadtlScore_update _ _ id (fun _ => rfl)]
    · simp only [Option.some.injEq] at h
      rw [← h]
      exact ⟨hm, fun q => ⟨rfl, rfl⟩⟩

theorem generateCrossTable_sixDraws :
    generateCrossTable 10 fourPlayers sixDraws = some sixDrawRows := by
  unfold generateCrossTable
  rw [ensureNames_fourPlayers]
  simp +decide [scorePass, sixDraws, gameRecord, countGame, countResult, QVariant.toMap,
    QMap.contains, QVariantMap.get, QMap.value, QVariant.toString, update, updateString,
    QMap.modify, QMap.insert, fourTable, String.lt_iff_toList_lt, sbPass, QMap.keys, neustadtl,
    sbOfString, fourPlayers, qSort, QMap.values, sortCrossTableDataByScore, sixDrawRows]
  norm_num [List.orderedInsert]

theorem allDrawn_sixDraws : AllDrawn (fourPlayers.map (fun pl => pl.name)) sixDraws := by
  intro v hv
  simp only [sixDraws, List.mem_cons, List.mem_singleton, List.not_mem_nil, or_false] at hv
  rcases hv with h | h | h | h | h | h <;> subst h <;>
    simp [gameOf, gameRecord, QVariant.toMap, QMap.contains, QVariantMap.get, QMap.value,
      QVariant.toString, fourPlayers]

theorem keysWithin_nil (ns : List String) : KeysWithin ns ([] : CrossTable) :=
  ⟨List.sorted_nil, fun _ hk => absurd hk (List.not_mem_nil _)⟩

theorem black_of_tie (a b : CrossTableData) (hs : a.m_score = b.m_score)
    (hsb : a.m_neustadtlScore = b.m_neustadtlScore)
    (h : sortCrossTableDataByScore b a = false) :
    a.m_gamesPlayedAsBlack ≥ b.m_gamesPlayedAsBlack := by
  unfold sortCrossTableDataByScore at h
  rw [if_pos hs.symm, if_pos hsb.symm] at h
  by_cases h3 : b.m_gamesPlayedAsBlack = a.m_gamesPlayedAsBlack
  · exact le_of_eq h3
  · rw [if_neg h3] at h
    simp only [gt_iff_lt, decide_eq_false_iff_not, not_lt] at h
    exact h

/-- C10: when every record of the ledger is a drawn game between two different
players of a roster of `N` pairwise distinct names, and each pair has exactly one
game, every player has raw score `(N - 1) / 2` and Sonneborn-Berger score
`((N - 1) / 2) ^ 2`, every body row carries these two values, and the rows are in
non-increasing order of games played as Black. -/
theorem allDrawn_crossTable (fuel : Nat) (players : List PlayerData) (pList : QVariantList)
    (ctMap : CrossTable) (abbrevList : List String) (rows : List CrossTableData)
    (hnd : (players.map (fun pl => pl.name)).Nodup)
    (hd : AllDrawn (players.map (fun pl => pl.name)) pList)
    (hpair : EachPairOnce (players.map (fun pl => pl.name)) pList)
    (hnames : ensureNames fuel players [] [] = some (ctMap, abbrevList))
    (h : generateCrossTable fuel players pList = some rows) :
    (∀ pl ∈ players,
      (QMap.value (sbPass (scorePass ctMap pList)) pl.name {}).m_score
        = ((players.length : ℚ) - 1) / 2 ∧
      (QMap.value (sbPass (scorePass ctMap pList)) pl.name {}).m_neustadtlScore
        = (((players.length : ℚ) - 1) / 2) ^ 2) ∧
    (∀ e ∈ rows, e.m_score = ((players.length : ℚ) - 1) / 2 ∧
      e.m_neustadtlScore = (((players.length : ℚ) - 1) / 2) ^ 2) ∧
    rows.Pairwise
      (fun earlier later => earlier.m_gamesPlayedAsBlack ≥ later.m_gamesPlayedAsBlack) := by
  have hf := ensureNames_fresh fuel players [] [] (ctMap, abbrevList) fresh_default hnames
  simp only at hf
  have hlen : (players.map (fun pl => pl.name)).length = players.length := List.length_map _ _
  have hval : ∀ k ∈ players.map (fun pl => pl.name),
      (QMap.value (sbPass (scorePass ctMap pList)) k {}).m_score
        = ((players.length : ℚ) - 1) / 2 ∧
      (QMap.value (sbPass (scorePass ctMap pList)) k {}).m_neustadtlScore
        = (((players.length : ℚ) - 1) / 2) ^ 2 := by
    intro k hk
    rw [(sbPass_value (scorePass ctMap pList) k).1,
      score_allDrawn ctMap hf _ hnd pList hd hpair k hk,
      neustadtl_allDrawn ctMap hf _ hnd pList hd hpair k hk, hlen]
    exact ⟨rfl, rfl⟩
  have hk0 : KeysWithin (players.map (fun pl => pl.name)) ctMap :=
    keysWithin_ensureNames _ fuel players [] [] (ctMap, abbrevList)
      (fun pl hpl => List.mem_map.mpr ⟨pl, hpl, rfl⟩) (keysWithin_nil _) hnames
  have hkT : KeysWithin (players.map (fun pl => pl.name)) (sbPass (scorePass ctMap pList)) :=
    keysWithin_sbPass _ _ (keysWithin_scorePass _ pList hd ctMap hk0)
  -- the table whose values are sorted
  have hfinal : ∃ t : CrossTable, rows = qSort sortCrossTableDataByScore (QMap.values t) ∧
      KeysWithin (players.map (fun pl => pl.name)) t ∧
      ∀ q, (QMap.value t q {}).m_score
          = (QMap.value (sbPass (scorePass ctMap pList)) q {}).m_score ∧
        (QMap.value t q {}).m_neustadtlScore
          = (QMap.value (sbPass (scorePass ctMap pList)) q {}).m_neustadtlScore := by
    unfold generateCrossTable at h
    rw [hnames] at h
    simp only at h
    split_ifs at h with h2
    · cases ht : twoPlayerSummary (sbPass (scorePass ctMap pList)) pList with
      | none => rw [ht] at h; exact Option.noConfusion h
      | some t =>
        rw [ht] at h
        simp only [Option.map_some', Option.some.injEq] at h
        obtain ⟨t1, t2⟩ := twoPlayerSummary_spec _ _ t pList hd hkT ht
        exact ⟨t, h.symm, t1, t2⟩
    · simp only [Option.map_some', Option.some.injEq] at h
      exact ⟨_, h.symm, hkT, fun q => ⟨rfl, rfl⟩⟩
  obtain ⟨t, hrows, hkt, hfields⟩ := hfinal
  have hrowvals : ∀ e ∈ rows, e.m_score = ((players.length : ℚ) - 1) / 2 ∧
      e.m_neustadtlScore = (((players.length : ℚ) - 1) / 2) ^ 2 := by
    intro e he
    rw [hrows] at he
    have he2 : e ∈ QMap.values t :=
      (List.perm_insertionSort _ _).mem_iff.mp he
    unfold QMap.values at he2
    rw [List.mem_map] at he2
    obtain ⟨⟨k, e2⟩, hmem, hke⟩ := he2
    simp only at hke
    subst hke
    have hkey : k ∈ QMap.keys t := List.mem_map.mpr ⟨(k, e2), hmem, rfl⟩
    have hv := value_of_mem t hkt.1 k e2 {} hmem
    obtain ⟨f1, f2⟩ := hfields k
    obtain ⟨v1, v2⟩ := hval k (hkt.2 k hkey)
    rw [hv] at f1 f2
    exact ⟨f1.trans v1, f2.trans v2⟩
  refine ⟨fun pl hpl => hval pl.name (List.mem_map.mpr ⟨pl, hpl, rfl⟩), hrowvals, ?_⟩
  have hsorted := sorted_qSort (QMap.values t)
  rw [← hrows] at hsorted
  refine List.Pairwise.imp_of_mem ?_ hsorted
  intro a b ha hb hab
  obtain ⟨a1, a2⟩ := hrowvals a ha
  obtain ⟨b1, b2⟩ := hrowvals b hb
  exact black_of_tie a b (a1.trans b1.symm) (a2.trans b2.symm) hab

/-- Witness of C10 for `N = 4`: six drawn games; every raw score is `3 / 2`, every
Sonneborn-Berger score `9 / 4`, and the rows with two games as Black come first. -/
theorem allDrawn_crossTable_witness :
    ((fourPlayers.map (fun pl => pl.name)).Nodup ∧
      AllDrawn (fourPlayers.map (fun pl => pl.name)) sixDraws ∧
      EachPairOnce (fourPlayers.map (fun pl => pl.name)) sixDraws ∧
      ensureNames 10 fourPlayers [] [] = some (fourTable, ["Al", "Be", "Ga", "De"]) ∧
      generateCrossTable 10 fourPlayers sixDraws = some sixDrawRows) ∧
    ((∀ pl ∈ fourPlayers,
      (QMap.value (sbPass (scorePass fourTable sixDraws)) pl.name {}).m_score
        = ((fourPlayers.length : ℚ) - 1) / 2 ∧
      (QMap.value (sbPass (scorePass fourTable sixDraws)) pl.name {}).m_neustadtlScore
        = (((fourPlayers.length : ℚ) - 1) / 2) ^ 2) ∧
    (∀ e ∈ sixDrawRows, e.m_score = ((fourPlayers.length : ℚ) - 1) / 2 ∧
      e.m_neustadtlScore = (((fourPlayers.length : ℚ) - 1) / 2) ^ 2) ∧
    sixDrawRows.Pairwise
      (fun earlier later => earlier.m_gamesPlayedAsBlack ≥ later.m_gamesPlayedAsBlack)) :=
  have h1 : (fourPlayers.map (fun pl => pl.name)).Nodup := by decide
  have h3 : EachPairOnce (fourPlayers.map (fun pl => pl.name)) sixDraws := by
    unfold EachPairOnce
    decide
  ⟨⟨h1, allDrawn_sixDraws, h3, ensureNames_fourPlayers, generateCrossTable_sixDraws⟩,
    allDrawn_crossTable 10 fourPlayers sixDraws fourTable _ sixDrawRows h1 allDrawn_sixDraws h3
      ensureNames_fourPlayers generateCrossTable_sixDraws⟩

/-- The numbers of the scenario of four players: `(4 - 1) / 2` is `1.5` and its
square `2.25`. -/
theorem fourPlayers_values :
    ((fourPlayers.length : ℚ) - 1) / 2 = 3 / 2 ∧
    (((fourPlayers.length : ℚ) - 1) / 2) ^ 2 = 9 / 4 ∧ sixDraws.length = 6 := by
  refine ⟨?_, ?_, rfl⟩ <;> norm_num [fourPlayers]

/-! ## The ledger: finishing a game that is not there -/

/-- C20: finishing game `number` on a document whose ledger holds fewer than `number`
records, or that has no `matchProgress` entry at all, returns without writing: the
document is not rewritten, so no record is added or changed, and neither report is
regenerated. -/
theorem onGameFinished_absent (tfMap : QVariantMap) (number : Int) (game : FinishedGame)
    (h : ((matchProgress tfMap).length : Int) < number ∨
      QMap.contains tfMap "matchProgress" = false) :
    onGameFinished tfMap number game = some Written.nothing := by
  have hl : finishLookup tfMap number = some ((matchProgress tfMap), []) ∨
      finishLookup tfMap number = some ([], []) := by
    unfold finishLookup
    by_cases hemp : QMap.isEmpty tfMap = true
    · right; simp [hemp]
    · simp only [hemp, Bool.not_false, Bool.not_eq_true] at *
      by_cases hc : QMap.contains tfMap "matchProgress" = true
      · rcases h with hlt | hnc
        · left
          simp only [hemp, Bool.not_false, if_true, hc]
          show (if ((matchProgress tfMap).length : Int) < number
            then some (matchProgress tfMap, [])
            else (QList.at (matchProgress tfMap) (number - 1)).map
              (fun v => (matchProgress tfMap, v.toMap))) = _
          rw [if_pos hlt]
        · rw [hnc] at hc; exact Bool.noConfusion hc
      · right; simp [hemp, hc]
  unfold onGameFinished
  rcases hl with e | e <;> rw [e] <;> rfl

/-- Witness of C20: game 7 finishes on the ledger of games 1 to 5. -/
theorem onGameFinished_absent_witness :
    (((matchProgress fiveGames).length : Int) < 7 ∨
      QMap.contains fiveGames "matchProgress" = false) ∧
    onGameFinished fiveGames 7 drawnGame = some Written.nothing :=
  ⟨Or.inl (by decide), onGameFinished_absent fiveGames 7 drawnGame (Or.inl (by decide))⟩

/-! ## Evaluation strings -/

theorem data_toString_nat (n : Nat) : (ToString.toString n : String).data = Nat.toDigits 10 n := rfl

theorem toDigitsCore_append (b : Nat) : ∀ (fuel n : Nat) (ds : List Char),
    Nat.toDigitsCore b fuel n ds = Nat.toDigitsCore b fuel n [] ++ ds := by
  intro fuel
  induction fuel with
  | zero => intro n ds; simp [Nat.toDigitsCore]
  | succ f ih =>
    intro n ds
    simp only [Nat.toDigitsCore]
    split_ifs with h
    · simp
    · rw [ih (n / b) (Nat.digitChar (n % b) :: ds), ih (n / b) [Nat.digitChar (n % b)]]
      simp

theorem toDigitsCore_ne_nil (b f n : Nat) : Nat.toDigitsCore b (f + 1) n [] ≠ [] := by
  simp only [Nat.toDigitsCore]
  split_ifs with h
  · simp
  · rw [toDigitsCore_append]; simp

theorem digitChar_isDigit (k : Nat) (hk : k < 10) : (Nat.digitChar k).isDigit = true := by
  interval_cases k <;> decide

theorem toDigitsCore_isDigit : ∀ (fuel n : Nat),
    ∀ c ∈ Nat.toDigitsCore 10 fuel n [], c.isDigit = true := by
  intro fuel
  induction fuel with
  | zero => intro n c hc; simp [Nat.toDigitsCore] at hc
  | succ f ih =>
    intro n c hc
    simp only [Nat.toDigitsCore] at hc
    split_ifs at hc with h
    · simp only [List.mem_singleton] at hc
      rw [hc]; exact digitChar_isDigit _ (Nat.mod_lt _ (by decide))
    · rw [toDigitsCore_append] at hc
      rcases List.mem_append.1 hc with h1 | h1
      · exact ih _ c h1
      · simp only [List.mem_singleton] at h1
        rw [h1]; exact digitChar_isDigit _ (Nat.mod_lt _ (by decide))

theorem toDigits_isDigit (n : Nat) : ∀ c ∈ Nat.toDigits 10 n, c.isDigit = true :=
  toDigitsCore_isDigit (n + 1) n

theorem toDigits_ne_nil (n : Nat) : Nat.toDigits 10 n ≠ [] :=
  toDigitsCore_ne_nil 10 n n

theorem toDigits_eq_zero (n : Nat) (h : Nat.toDigits 10 n = ['0']) : n = 0 := by
  unfold Nat.toDigits at h
  simp only [Nat.toDigitsCore] at h
  split_ifs at h with h0
  · have hn : n < 10 := by omega
    rw [Nat.mod_eq_of_lt hn] at h
    interval_cases n <;> first | rfl | (exact absurd h (by decide))
  · rw [toDigitsCore_append] at h
    have hn : 1 ≤ n := by
      rcases n with _ | m
      · simp at h0
      · omega
    obtain ⟨m, rfl⟩ : ∃ m, n = m + 1 := ⟨n - 1, by omega⟩
    have := toDigitsCore_ne_nil 10 m ((m + 1) / 10)
    have hlen := congrArg List.length h
    simp only [List.length_append, List.length_singleton] at hlen
    have : (Nat.toDigitsCore 10 (m + 1) ((m + 1) / 10) []).length ≠ 0 := by
      rwa [Ne, List.length_eq_zero]
    omega


theorem evalString_eq (s : Int) :
    evalString s = (if s < 0 then "-" else "") ++ evalMagnitude s.natAbs := by
  have habs : |s| = (s.natAbs : Int) := (Int.natCast_natAbs s).symm
  unfold evalString evalMagnitude fixed2
  simp only [habs]
  have hcond : ((s.natAbs : Int) > 9900 ∧ 1000 - (s.natAbs : Int) % 1000 < 100) ↔
      (s.natAbs > 9900 ∧ 1000 - s.natAbs % 1000 < 100) := by omega
  by_cases hc : s.natAbs > 9900 ∧ 1000 - s.natAbs % 1000 < 100
  · rw [if_pos (hcond.2 hc), if_pos hc]
    have hn : (1000 - (s.natAbs : Int) % 1000) = ((1000 - s.natAbs % 1000 : Nat) : Int) := by
      omega
    rw [hn]
    rfl
  · rw [if_neg (fun h => hc (hcond.1 h)), if_neg hc]
    simp only [String.append_assoc]

theorem data_pad (r : Nat) (hr : r < 100) :
    ((if r < 10 then "0" else "") ++ ToString.toString r : String).data
      = [Nat.digitChar (r / 10), Nat.digitChar (r % 10)] := by
  interval_cases r <;> decide

theorem data_evalMagnitude_decimal (a : Nat)
    (hc : ¬ (a > 9900 ∧ 1000 - a % 1000 < 100)) :
    (evalMagnitude a).data = Nat.toDigits 10 (a / 100)
      ++ ['.', Nat.digitChar (a % 100 / 10), Nat.digitChar (a % 100 % 10)] := by
  unfold evalMagnitude
  rw [if_neg hc, String.append_assoc, String.data_append, String.data_append,
    data_pad _ (Nat.mod_lt _ (by decide)), data_toString_nat, List.append_assoc]
  rfl

theorem data_evalMagnitude_mate (a : Nat)
    (hc : a > 9900 ∧ 1000 - a % 1000 < 100) :
    (evalMagnitude a).data = 'M' :: Nat.toDigits 10 (1000 - a % 1000) := by
  unfold evalMagnitude
  rw [if_pos hc, String.data_append, data_toString_nat]
  rfl

theorem isDigit_of_mem_magnitude (a : Nat) (c : Char) (hc : c ∈ (evalMagnitude a).data) :
    c = 'M' ∨ c = '.' ∨ c.isDigit = true := by
  by_cases h : a > 9900 ∧ 1000 - a % 1000 < 100
  · rw [data_evalMagnitude_mate a h] at hc
    rcases List.mem_cons.1 hc with e | m
    · exact Or.inl e
    · exact Or.inr (Or.inr (toDigits_isDigit _ c m))
  · rw [data_evalMagnitude_decimal a h] at hc
    rcases List.mem_append.1 hc with m | m
    · exact Or.inr (Or.inr (toDigits_isDigit _ c m))
    · simp only [List.mem_cons, List.mem_singleton, List.not_mem_nil, or_false] at m
      rcases m with e | e | e
      · exact Or.inr (Or.inl e)
      · exact Or.inr (Or.inr (e ▸ digitChar_isDigit _ (by omega)))
      · exact Or.inr (Or.inr (e ▸ digitChar_isDigit _ (by omega)))

theorem head_evalMagnitude (a : Nat) :
    ∃ c rest, (evalMagnitude a).data = c :: rest ∧ c ≠ '-' := by
  have hne : (evalMagnitude a).data ≠ [] := by
    by_cases h : a > 9900 ∧ 1000 - a % 1000 < 100
    · rw [data_evalMagnitude_mate a h]; simp
    · rw [data_evalMagnitude_decimal a h]; simp
  obtain ⟨c, rest, e⟩ := List.exists_cons_of_ne_nil hne
  refine ⟨c, rest, e, ?_⟩
  have hm : c ∈ (evalMagnitude a).data := by rw [e]; exact List.mem_cons_self _ _
  rcases isDigit_of_mem_magnitude a c hm with h | h | h
  · rw [h]; decide
  · rw [h]; decide
  · intro e2; rw [e2] at h; exact absurd h (by decide)

theorem evalMagnitude_ne_zero (a : Nat) (ha : a ≠ 0) : evalMagnitude a ≠ "0.00" := by
  intro e
  have ed := congrArg String.data e
  by_cases h : a > 9900 ∧ 1000 - a % 1000 < 100
  · rw [data_evalMagnitude_mate a h] at ed
    have := (List.cons.inj ed).1
    exact absurd this (by decide)
  · rw [data_evalMagnitude_decimal a h] at ed
    have hd : ∀ c ∈ Nat.toDigits 10 (a / 100), c ≠ '.' := by
      intro c hc e2
      have := toDigits_isDigit _ c hc
      rw [e2] at this; exact absurd this (by decide)
    have hsplit : Nat.toDigits 10 (a / 100) = ['0'] ∧
        Nat.digitChar (a % 100 / 10) = '0' ∧ Nat.digitChar (a % 100 % 10) = '0' := by
      generalize Nat.toDigits 10 (a / 100) = ds at ed hd
      have e0 : ("0.00" : String).data = ['0', '.', '0', '0'] := rfl
      rw [e0] at ed
      match ds, ed, hd with
      | [], ed, _ =>
        simp only [List.nil_append, List.cons.injEq] at ed
        exact absurd ed.1 (by decide)
      | [c], ed, _ =>
        simp only [List.singleton_append, List.cons.injEq, and_true] at ed
        exact ⟨by rw [ed.1], ed.2.2.1, ed.2.2.2⟩
      | c :: d :: rest, ed, hd =>
        simp only [List.cons_append, List.cons.injEq] at ed
        exact absurd ed.2.1 (hd d (by simp))
    have h1 : a / 100 = 0 := toDigits_eq_zero _ hsplit.1
    have hlt : a % 100 / 10 < 10 := by omega
    have hlt2 : a % 100 % 10 < 10 := by omega
    have h2 : a % 100 / 10 = 0 := by
      have := hsplit.2.1
      revert this
      generalize a % 100 / 10 = k at hlt
      interval_cases k <;> decide
    have h3 : a % 100 % 10 = 0 := by
      have := hsplit.2.2
      revert this
      generalize a % 100 % 10 = k at hlt2
      interval_cases k <;> decide
    omega

/-- C12: the evaluation string of a score `s` in centipawns.  When `|s| > 9900` and
`n = 1000 - |s| mod 1000` is below 100 it is `M<n>` for `s > 0` and `-M<n>` for
`s < 0`, with `1 ≤ n ≤ 99`; otherwise it is the sign, the decimal digits of
`|s| / 100`, a point and the two digits of `|s| mod 100`.  The letter `M` occurs
in the string exactly in the first case. -/
theorem evalString_forms (s : Int) :
    (9900 < |s| ∧ 1000 - |s| % 1000 < 100 →
      1 ≤ 1000 - |s| % 1000 ∧ 1000 - |s| % 1000 ≤ 99 ∧ s ≠ 0 ∧
      evalString s = (if s < 0 then "-M" else "M")
        ++ ToString.toString (1000 - |s| % 1000).toNat) ∧
    (¬ (9900 < |s| ∧ 1000 - |s| % 1000 < 100) →
      (evalString s).data = (if s < 0 then ['-'] else [])
        ++ Nat.toDigits 10 (s.natAbs / 100)
        ++ ['.', Nat.digitChar (s.natAbs % 100 / 10), Nat.digitChar (s.natAbs % 100 % 10)]) ∧
    ('M' ∈ (evalString s).data ↔ 9900 < |s| ∧ 1000 - |s| % 1000 < 100) := by
  have habs : |s| = (s.natAbs : Int) := (Int.natCast_natAbs s).symm
  have hcond : (9900 < |s| ∧ 1000 - |s| % 1000 < 100) ↔
      (s.natAbs > 9900 ∧ 1000 - s.natAbs % 1000 < 100) := by
    rw [habs]; omega
  have hsign : ((if s < 0 then "-" else "" : String)).data = if s < 0 then ['-'] else [] := by
    split_ifs <;> rfl
  refine ⟨fun hc => ⟨by omega, by omega, ?_, ?_⟩, fun hc => ?_, ?_⟩
  · rintro rfl; simp at hc
  · rw [evalString_eq]
    have hn : (1000 - |s| % 1000).toNat = 1000 - s.natAbs % 1000 := by rw [habs]; omega
    rw [hn]
    unfold evalMagnitude
    rw [if_pos (hcond.1 hc)]
    split_ifs <;> rfl
  · rw [evalString_eq, String.data_append, hsign,
      data_evalMagnitude_decimal _ (fun h => hc (hcond.2 h)), List.append_assoc]
  · rw [evalString_eq, String.data_append, hsign]
    constructor
    · intro hm
      by_contra hc
      rw [data_evalMagnitude_decimal _ (fun h => hc (hcond.2 h))] at hm
      rcases List.mem_append.1 hm with m | m
      · split_ifs at m
        · simp only [List.mem_singleton] at m; exact absurd m (by decide)
        · simp at m
      · rcases List.mem_append.1 m with m | m
        · have := toDigits_isDigit _ _ m
          exact absurd this (by decide)
        · simp only [List.mem_cons, List.mem_singleton, List.not_mem_nil, or_false] at m
          rcases m with e | e | e
          · exact absurd e (by decide)
          · have := digitChar_isDigit (s.natAbs % 100 / 10) (by omega)
            rw [← e] at this; exact absurd this (by decide)
          · have := digitChar_isDigit (s.natAbs % 100 % 10) (by omega)
            rw [← e] at this; exact absurd this (by decide)
    · intro hc
      rw [data_evalMagnitude_mate _ (hcond.1 hc)]
      exact List.mem_append_right _ (List.mem_cons_self _ _)

/-- C13: the schedule shows the stored evaluation of Black with the sign flipped: for
every score `s` the display transformation of `generateSchedule` turns the string
stored for `s` into the string stored for `-s`.  At `s = 0` both are `0.00`, which
is shown as it is, without a sign. -/
theorem scheduleBlackEval_flips (s : Int) :
    scheduleBlackEval (evalString s) = some (evalString (-s)) ∧
    evalString 0 = "0.00" ∧ scheduleBlackEval "0.00" = some "0.00" := by
  refine ⟨?_, by decide, by decide⟩
  rw [evalString_eq s, evalString_eq (-s), Int.natAbs_neg]
  obtain ⟨c, rest, hd, hc⟩ := head_evalMagnitude s.natAbs
  rcases lt_trichotomy s 0 with hs | hs | hs
  · rw [if_pos hs, if_neg (by omega)]
    unfold scheduleBlackEval
    have e : ("-" ++ evalMagnitude s.natAbs).data = '-' :: (evalMagnitude s.natAbs).data := by
      rw [String.data_append]; rfl
    rw [e]
    simp only [if_true]
    rfl
  · subst hs; decide
  · rw [if_neg (by omega), if_pos (by omega)]
    have e0 : ("" : String) ++ evalMagnitude s.natAbs = evalMagnitude s.natAbs := by
      simp
    rw [e0]
    unfold scheduleBlackEval
    rw [hd]
    simp only [if_neg hc]
    rw [if_pos (evalMagnitude_ne_zero _ (by omega))]

/-! ## The cross-table: a match of two players -/

theorem countResults_foldl (l : List Char) (acc : Nat × Nat × Nat) :
    l.foldl
      (fun (acc : Nat × Nat × Nat) c =>
        if c = '1' then (acc.1 + 1, acc.2.1, acc.2.2)
        else if c = '0' then (acc.1, acc.2.1 + 1, acc.2.2)
        else (acc.1, acc.2.1, acc.2.2 + 1)) acc
      = (acc.1 + l.count '1', acc.2.1 + l.count '0',
          acc.2.2 + l.countP (fun c => decide (c ≠ '1' ∧ c ≠ '0'))) := by
  induction l generalizing acc with
  | nil => simp
  | cons c rest ih =>
    rw [List.foldl_cons, ih]
    by_cases h1 : c = '1'
    · subst h1
      simp +decide [List.count_cons, List.countP_cons]
      omega
    · by_cases h0 : c = '0'
      · subst h0
        simp +decide [List.count_cons, List.countP_cons]
        omega
      · have e1 : ('1' == c) = false := by
          rw [beq_eq_false_iff_ne]; exact fun e => h1 e.symm
        have e0 : ('0' == c) = false := by
          rw [beq_eq_false_iff_ne]; exact fun e => h0 e.symm
        simp [h1, h0, List.count_cons, List.countP_cons]
        omega

theorem countResults_eq (s : String) :
    countResults s = (s.data.count '1', s.data.count '0',
      s.data.countP (fun c => decide (c ≠ '1' ∧ c ≠ '0'))) := by
  unfold countResults
  rw [countResults_foldl]
  simp

theorem mem_resultChars (p o : String) (gs : List Game) :
    ∀ c ∈ resultChars p o gs, c = '1' ∨ c = '0' ∨ c = '=' := by
  intro c hc
  unfold resultChars at hc
  rw [List.mem_flatMap] at hc
  obtain ⟨g, _, hm⟩ := hc
  have hw : ∀ r, ∀ c ∈ whiteChar r, c = '1' ∨ c = '0' ∨ c = '=' := by
    intro r c hc
    unfold whiteChar at hc
    split_ifs at hc <;> simp at hc <;> simp [hc]
  have hb : ∀ r, ∀ c ∈ blackChar r, c = '1' ∨ c = '0' ∨ c = '=' := by
    intro r c hc
    unfold blackChar at hc
    split_ifs at hc <;> simp at hc <;> simp [hc]
  rcases List.mem_append.1 hm with m | m
  · split_ifs at m
    · exact hw _ c m
    · simp at m
  · split_ifs at m
    · exact hb _ c m
    · simp at m

theorem countP_other (l : List Char) (h : ∀ c ∈ l, c = '1' ∨ c = '0' ∨ c = '=') :
    l.countP (fun c => decide (c ≠ '1' ∧ c ≠ '0')) = l.count '=' := by
  unfold List.count
  apply List.countP_congr
  intro c hc
  rcases h c hc with e | e | e <;> subst e <;> decide

theorem count_zero_chars (r : String) :
    (whiteChar r).count '0' = (if r = "0-1" then 1 else 0) ∧
    (blackChar r).count '0' = (if r = "1-0" then 1 else 0) := by
  unfold whiteChar blackChar
  by_cases h1 : r = "1-0"
  · subst h1; decide
  · by_cases h2 : r = "0-1"
    · subst h2; decide
    · by_cases h3 : r = "1/2-1/2"
      · subst h3; decide
      · simp [h1, h2, h3]

theorem count_zero_resultChars (p o : String) (gs : List Game) :
    (resultChars p o gs).count '0' = winsOver o p gs := by
  induction gs with
  | nil => rfl
  | cons g rest ih =>
    obtain ⟨c1, c2⟩ := count_zero_chars g.result
    unfold resultChars winsOver at ih
    unfold resultChars winsOver
    simp only [List.flatMap_cons, List.count_append, List.countP_cons, ih,
      decide_eq_true_eq]
    simp only [apply_ite (List.count '0'), c1, c2, List.count_nil]
    split_ifs <;> first | omega | (exfalso; tauto)

/-- In a match of `p` and `o` alone, the wins of `p` over `o` are all wins of `p`. -/
theorem winsOver_of_match (p o : String) (hpo : p ≠ o) (gs : List Game)
    (hg : ∀ g ∈ gs, (g.white = p ∧ g.black = o) ∨ (g.white = o ∧ g.black = p)) :
    winsOver p o gs = winsWithWhite p gs + winsWithBlack p gs ∧
    winsOver o p gs = winsWithWhite o gs + winsWithBlack o gs ∧
    drawsWith p o gs = drawsWithWhite p gs + drawsWithBlack p gs := by
  unfold winsOver drawsWith winsWithWhite winsWithBlack drawsWithWhite drawsWithBlack
  have hc : ∀ (P Q : Game → Prop) [DecidablePred P] [DecidablePred Q],
      (∀ g ∈ gs, P g ↔ Q g) →
      gs.countP (fun g => decide (P g)) = gs.countP (fun g => decide (Q g)) := by
    intro P Q _ _ h
    apply List.countP_congr
    intro g hgm
    simp only [decide_eq_true_eq]
    exact h g hgm
  refine ⟨?_, ?_, ?_⟩
  · congr 1
    · exact hc _ _ (fun g hgm => by rcases hg g hgm with h | h <;> constructor <;> intro x <;> simp_all)
    · exact hc _ _ (fun g hgm => by rcases hg g hgm with h | h <;> constructor <;> intro x <;> simp_all)
  · congr 1
    · exact hc _ _ (fun g hgm => by rcases hg g hgm with h | h <;> constructor <;> intro x <;> simp_all)
    · exact hc _ _ (fun g hgm => by rcases hg g hgm with h | h <;> constructor <;> intro x <;> simp_all)
  · congr 1
    · exact hc _ _ (fun g hgm => by rcases hg g hgm with h | h <;> constructor <;> intro x <;> simp_all)
    · exact hc _ _ (fun g hgm => by rcases hg g hgm with h | h <;> constructor <;> intro x <;> simp_all)

theorem finished_of_match (p o : String) (hpo : p ≠ o) (gs : List Game)
    (hg : ∀ g ∈ gs, (g.white = p ∧ g.black = o) ∨ (g.white = o ∧ g.black = p))
    (hres : ∀ g ∈ gs, g.result = "*" ∨ g.result = "1-0" ∨ g.result = "0-1"
      ∨ g.result = "1/2-1/2") :
    (winsWithWhite p gs + winsWithBlack p gs) + (drawsWithWhite p gs + drawsWithBlack p gs)
      + (winsWithWhite o gs + winsWithBlack o gs) = finishedGames gs := by
  induction gs with
  | nil => rfl
  | cons g rest ih =>
    have ih2 := ih (fun g hgm => hg g (List.mem_cons_of_mem _ hgm))
      (fun g hgm => hres g (List.mem_cons_of_mem _ hgm))
    have hg0 := hg g (List.mem_cons_self _ _)
    have hr0 := hres g (List.mem_cons_self _ _)
    unfold winsWithWhite winsWithBlack drawsWithWhite drawsWithBlack finishedGames at ih2 ⊢
    simp only [List.countP_cons, decide_eq_true_eq]
    simp only [ne_eq] at ih2 ⊢
    have hop : o ≠ p := fun e => hpo e.symm
    have d1 : ("1-0" : String) ≠ "*" := by decide
    have d2 : ("0-1" : String) ≠ "*" := by decide
    have d3 : ("1/2-1/2" : String) ≠ "*" := by decide
    have d4 : ("1-0" : String) ≠ "0-1" := by decide
    have d5 : ("1-0" : String) ≠ "1/2-1/2" := by decide
    have d6 : ("0-1" : String) ≠ "1/2-1/2" := by decide
    rcases hg0 with ⟨hw, hb⟩ | ⟨hw, hb⟩ <;> rcases hr0 with hr | hr | hr | hr <;>
      simp only [hw, hb, hr, hpo, hop, d1, d2, d3, d4, d5, d6, d1.symm, d2.symm, d3.symm,
        d4.symm, d5.symm, d6.symm, and_true, and_false, true_and, false_and, if_true,
        if_false, not_true_eq_false, not_false_eq_true] <;> omega

/-- C11: with exactly two competitors and a ledger whose first record names White `w`
and Black `b`, every game of the ledger being one of the two against the other, the
cross-table is built from a table whose cell of `w` against `b` is the text
`+ W = D - L`, a blank after each sign and the numbers in decimal, and whose cell of
`b` against `w` is the text `+ L = D - W`.  Here `W`, `D` and `L` are the numbers of
games of the ledger that `w` won, drew and lost, and `W + D + L` is the number of
finished games. -/
theorem twoPlayer_cells (fuel : Nat) (players : List PlayerData) (first : QVariant)
    (rest : QVariantList) (ctMap : CrossTable) (abbrevList : List String) (w b : String)
    (hlen : players.length = 2)
    (hnames : ensureNames fuel players [] [] = some (ctMap, abbrevList))
    (hcw : QMap.contains first.toMap "white" = true)
    (hcb : QMap.contains first.toMap "black" = true)
    (hw : (QVariantMap.get first.toMap "white").toString = w)
    (hb : (QVariantMap.get first.toMap "black").toString = b)
    (hwb : w ≠ b)
    (hgames : ∀ g ∈ games (first :: rest),
      (g.white = w ∧ g.black = b) ∨ (g.white = b ∧ g.black = w))
    (hres : ∀ g ∈ games (first :: rest), g.result = "*" ∨ g.result = "1-0"
      ∨ g.result = "0-1" ∨ g.result = "1/2-1/2") :
    ∃ t : CrossTable,
      twoPlayerSummary (sbPass (scorePass ctMap (first :: rest))) (first :: rest) = some t ∧
      generateCrossTable fuel players (first :: rest)
        = some (qSort sortCrossTableDataByScore (QMap.values t)) ∧
      cell t w b = "+ "
        ++ ToString.toString
          (winsWithWhite w (games (first :: rest)) + winsWithBlack w (games (first :: rest)))
        ++ " = "
        ++ ToString.toString
          (drawsWithWhite w (games (first :: rest)) + drawsWithBlack w (games (first :: rest)))
        ++ " - "
        ++ ToString.toString
          (winsWithWhite b (games (first :: rest)) + winsWithBlack b (games (first :: rest))) ∧
      cell t b w = "+ "
        ++ ToString.toString
          (winsWithWhite b (games (first :: rest)) + winsWithBlack b (games (first :: rest)))
        ++ " = "
        ++ ToString.toString
          (drawsWithWhite w (games (first :: rest)) + drawsWithBlack w (games (first :: rest)))
        ++ " - "
        ++ ToString.toString
          (winsWithWhite w (games (first :: rest)) + winsWithBlack w (games (first :: rest))) ∧
      (winsWithWhite w (games (first :: rest)) + winsWithBlack w (games (first :: rest)))
        + (drawsWithWhite w (games (first :: rest)) + drawsWithBlack w (games (first :: rest)))
        + (winsWithWhite b (games (first :: rest)) + winsWithBlack b (games (first :: rest)))
        = finishedGames (games (first :: rest)) := by
  have hf := ensureNames_fresh fuel players [] [] (ctMap, abbrevList) fresh_default hnames
  simp only at hf
  obtain ⟨o1, o2, o3⟩ := winsOver_of_match w b hwb _ hgames
  -- the cell the summary is counted from
  have hcell : (cell (updateString (updateString (update (update
        (sbPass (scorePass ctMap (first :: rest))) w id) b id) w b id) b w id) w b).data
      = resultChars w b (games (first :: rest)) := by
    rw [cell_touch, cell_touch, cell_update_id, cell_update_id,
      ← cell_scorePass ctMap (first :: rest) hf w b]
    unfold cell
    rw [(sbPass_value _ w).2.1]
  have hcount : countResults (cell (updateString (updateString (update (update
        (sbPass (scorePass ctMap (first :: rest))) w id) b id) w b id) b w id) w b)
      = (winsWithWhite w (games (first :: rest)) + winsWithBlack w (games (first :: rest)),
         winsWithWhite b (games (first :: rest)) + winsWithBlack b (games (first :: rest)),
         drawsWithWhite w (games (first :: rest)) + drawsWithBlack w (games (first :: rest))) := by
    rw [countResults_eq, hcell, countP_other _ (mem_resultChars w b _),
      (count_resultChars w b _).1, (count_resultChars w b _).2, count_zero_resultChars,
      o1, o2, o3]
  have hsum : twoPlayerSummary (sbPass (scorePass ctMap (first :: rest))) (first :: rest)
      = some (updateString (updateString (updateString (updateString (update (update
          (sbPass (scorePass ctMap (first :: rest))) w id) b id) w b id) b w id) w b
          (fun _ => summary
            (winsWithWhite w (games (first :: rest)) + winsWithBlack w (games (first :: rest)))
            (drawsWithWhite w (games (first :: rest)) + drawsWithBlack w (games (first :: rest)))
            (winsWithWhite b (games (first :: rest)) + winsWithBlack b (games (first :: rest)))))
          b w
          (fun _ => summary
            (winsWithWhite b (games (first :: rest)) + winsWithBlack b (games (first :: rest)))
            (drawsWithWhite w (games (first :: rest)) + drawsWithBlack w (games (first :: rest)))
            (winsWithWhite w (games (first :: rest)) + winsWithBlack w (games (first :: rest))))) := by
    unfold twoPlayerSummary
    have hat : QList.at (first :: rest) 0 = some first := rfl
    rw [hat]
    simp only [hcw, hcb, Bool.and_self, if_true, hw, hb]
    have hc2 := hcount
    unfold cell at hc2
    rw [hc2]
  refine ⟨_, hsum, ?_, ?_, ?_, finished_of_match w b hwb _ hgames hres⟩
  · unfold generateCrossTable
    rw [hnames]
    simp only [hlen, if_true, hsum, Option.map_some']
  · rw [cell_updateString, if_neg (fun h => hwb h.1), cell_updateString, if_pos ⟨rfl, rfl⟩]
    rfl
  · rw [cell_updateString, if_pos ⟨rfl, rfl⟩]
    rfl

theorem ensureNames_twoPlayers :
    ensureNames 10 twoPlayers [] [] = some (twoTable, ["Al", "Be"]) := by
  simp +decide [ensureNames, twoPlayers, firstAbbrev, nextLetter, abbrevLoop, QMap.insert,
    twoTable, String.lt_iff_toList_lt]

/-- Witness of C11: Alpha and Beta play four games; Alpha wins games 1 and 3, game 2
is drawn and game 4 is in progress.  The cell of Alpha reads `+ 2 = 1 - 0`, the cell of
Beta `+ 0 = 1 - 2`, and three games are finished. -/
theorem twoPlayer_cells_witness :
    (twoPlayers.length = 2 ∧
      ensureNames 10 twoPlayers [] [] = some (twoTable, ["Al", "Be"]) ∧
      ("Alpha" : String) ≠ "Beta") ∧
    ∃ t : CrossTable,
      twoPlayerSummary (sbPass (scorePass twoTable
        (gameRecord 1 "Alpha" "Beta" "1-0" :: matchRest)))
        (gameRecord 1 "Alpha" "Beta" "1-0" :: matchRest) = some t ∧
      generateCrossTable 10 twoPlayers (gameRecord 1 "Alpha" "Beta" "1-0" :: matchRest)
        = some (qSort sortCrossTableDataByScore (QMap.values t)) ∧
      cell t "Alpha" "Beta" = "+ 2 = 1 - 0" ∧
      cell t "Beta" "Alpha" = "+ 0 = 1 - 2" ∧
      finishedGames (games (gameRecord 1 "Alpha" "Beta" "1-0" :: matchRest)) = 3 :=
  ⟨⟨rfl, ensureNames_twoPlayers, by decide⟩,
    match twoPlayer_cells 10 twoPlayers (gameRecord 1 "Alpha" "Beta" "1-0") matchRest twoTable
      ["Al", "Be"] "Alpha" "Beta" rfl ensureNames_twoPlayers (by decide) (by decide)
      (by decide) (by decide) (by decide)
      (by simp [games, matchRest, gameOf, gameRecord, QVariant.toMap, QMap.contains,
        QVariantMap.get, QMap.value, QVariant.toString])
      (by simp [games, matchRest, gameOf, gameRecord, QVariant.toMap, QMap.contains,
        QVariantMap.get, QMap.value, QVariant.toString]) with
    | ⟨t, h1, h2, h3, h4, h5⟩ =>
      ⟨t, h1, h2, h3.trans (by decide), h4.trans (by decide), h5.symm.trans (by decide)⟩⟩

/-! ## The names of the report files -/

theorem removeLoop_skip (str : List Char) (l rest : List Char) :
    removeLoop str l.length (l ++ rest) = removeLoop str 0 rest := by
  induction l with
  | nil => rfl
  | cons c cs ih =>
    cases rest with
    | nil => simpa [removeLoop] using ih
    | cons r rs => simpa [removeLoop] using ih

theorem removeLoop_suffix (str : List Char) (hne : str ≠ []) (q : List Char)
    (h : ∀ i, i < q.length → str.isPrefixOf ((q ++ str).drop i) = false) :
    removeLoop str 0 (q ++ str) = q := by
  induction q with
  | nil =>
    obtain ⟨c, cs, rfl⟩ := List.exists_cons_of_ne_nil hne
    have hp : (c :: cs).isPrefixOf (c :: cs) = true := by
      rw [List.isPrefixOf_iff_prefix]
    have := removeLoop_skip (c :: cs) cs []
    simp only [List.append_nil] at this
    simp only [List.nil_append, removeLoop, hp, if_true, List.length_cons,
      Nat.add_sub_cancel, this]
  | cons c cs ih =>
    have h0 := h 0 (by simp)
    simp only [List.drop_zero, List.cons_append] at h0
    have hrest : ∀ i, i < cs.length → str.isPrefixOf ((cs ++ str).drop i) = false := by
      intro i hi
      have := h (i + 1) (by simp; omega)
      simpa using this
    show removeLoop str 0 (c :: (cs ++ str)) = c :: cs
    rw [removeLoop, h0, if_neg Bool.false_ne_true, ih hrest]

/-- When `.json` occurs in the path only as its suffix, both report names are the
path without the suffix followed by `_schedule.txt` and `_crosstable.txt`. -/
theorem reportFiles_of_suffix (q : String)
    (h : ∀ i, i < q.length → (".json" : String).data.isPrefixOf
      ((q.data ++ (".json" : String).data).drop i) = false) :
    scheduleFile (q ++ ".json") = q ++ "_schedule.txt" ∧
    crossTableFile (q ++ ".json") = q ++ "_crosstable.txt" := by
  have hr : QString.remove (q ++ ".json") ".json" = q := by
    unfold QString.remove
    rw [if_neg (by decide), String.data_append,
      removeLoop_suffix _ (by decide) q.data h]
  unfold scheduleFile crossTableFile
  rw [hr]
  exact ⟨rfl, rfl⟩

/-- The reports of `matches/season1.json`. -/
theorem reportFiles_sample :
    scheduleFile "matches/season1.json" = "matches/season1_schedule.txt" ∧
    crossTableFile "matches/season1.json" = "matches/season1_crosstable.txt" := by
  decide

/-- C14, diverging input: for the document `archive.json.d/season1.json` the reports
are named `archive.d/season1_schedule.txt` and `archive.d/season1_crosstable.txt`:
the `.json` inside the directory name is removed as well, so the reports leave the
directory of the document. -/
theorem reportFiles_interior_json :
    scheduleFile ("archive.json.d/season1" ++ ".json") = "archive.d/season1_schedule.txt" ∧
    crossTableFile ("archive.json.d/season1" ++ ".json") = "archive.d/season1_crosstable.txt" ∧
    scheduleFile ("archive.json.d/season1" ++ ".json")
      ≠ "archive.json.d/season1" ++ "_schedule.txt" ∧
    crossTableFile ("archive.json.d/season1" ++ ".json")
      ≠ "archive.json.d/season1" ++ "_crosstable.txt" := by
  decide

/-! ## The ranking -/

theorem rankingLoop_two {κ : Type} [LinearOrder κ] (elo : ℚ → κ)
    (players : List PlayerScore) (ranking : List (κᵒᵈ × RankingData)) :
    rankingLoop elo 2 players ranking
      = (match (rankedPlayers players).head? with
          | none => []
          | some player => [RankingLine.eloDifference (elo (ratio player))], ranking) := by
  induction players with
  | nil => rfl
  | cons player rest ih =>
    unfold rankingLoop rankedPlayers
    by_cases ht : (player.wins + player.losses + player.draws) * 2 ≤ 0
    · have hp : ¬ 0 < player.wins + player.losses + player.draws := by omega
      simp only [ht, if_true, ih, rankedPlayers, List.filter_cons, hp, decide_False,
        Bool.false_eq_true, if_false]
    · have hp : 0 < player.wins + player.losses + player.draws := by omega
      simp only [ht, if_false, if_true, List.filter_cons, hp, decide_True, List.head?_cons]

/-- C15: with exactly two competitors `printRanking` prints no header and no row: it
prints nothing when neither competitor has a finished game, and otherwise the one
line `ELO difference` of the first competitor who has one. -/
theorem printRanking_two {κ : Type} [LinearOrder κ] (elo : ℚ → κ)
    (players : List PlayerScore) (h : players.length = 2) :
    ((∀ player ∈ players, player.wins + player.losses + player.draws ≤ 0) →
      printRanking elo players = []) ∧
    ((∃ player ∈ players, 0 < player.wins + player.losses + player.draws) →
      ∃ player ∈ players, 0 < player.wins + player.losses + player.draws ∧
        printRanking elo players = [RankingLine.eloDifference (elo (ratio player))]) ∧
    RankingLine.header ∉ printRanking elo players ∧
    (∀ rank name eloDiff games score draws,
      RankingLine.row rank name eloDiff games score draws ∉ printRanking elo players) ∧
    (printRanking elo players).length ≤ 1 := by
  have hp : printRanking elo players
      = match (rankedPlayers players).head? with
        | none => []
        | some player => [RankingLine.eloDifference (elo (ratio player))] := by
    unfold printRanking
    rw [h, rankingLoop_two]
    cases (rankedPlayers players).head? <;> rfl
  refine ⟨fun hall => ?_, fun hex => ?_, ?_, ?_, ?_⟩
  · have : rankedPlayers players = [] := by
      unfold rankedPlayers
      rw [List.filter_eq_nil_iff]
      intro player hm
      have := hall player hm
      simp only [decide_eq_true_eq]; omega
    rw [hp, this]; rfl
  · cases hh : (rankedPlayers players).head? with
    | none =>
      exfalso
      obtain ⟨player, hm, hpos⟩ := hex
      have hnil : rankedPlayers players = [] := List.head?_eq_none_iff.mp hh
      have : player ∈ rankedPlayers players := by
        unfold rankedPlayers
        exact List.mem_filter.mpr ⟨hm, by simpa using hpos⟩
      rw [hnil] at this; simp at this
    | some player =>
      have hm : player ∈ rankedPlayers players := List.mem_of_mem_head? hh
      unfold rankedPlayers at hm
      obtain ⟨h1, h2⟩ := List.mem_filter.mp hm
      refine ⟨player, h1, by simpa using h2, ?_⟩
      rw [hp, hh]
  · rw [hp]; cases (rankedPlayers players).head? <;> simp
  · intro rank name eloDiff games score draws
    rw [hp]; cases (rankedPlayers players).head? <;> simp
  · rw [hp]; cases (rankedPlayers players).head? <;> simp

/-- Witness of C15: a match in which only the second player has finished games. -/
theorem printRanking_two_witness :
    scoredPair.length = 2 ∧
    ((∃ player ∈ scoredPair, 0 < player.wins + player.losses + player.draws) →
      ∃ player ∈ scoredPair, 0 < player.wins + player.losses + player.draws ∧
        printRanking (fun r : ℚ => r) scoredPair
          = [RankingLine.eloDifference (ratio player)]) ∧
    (printRanking (fun r : ℚ => r) scoredPair).length ≤ 1 :=
  ⟨rfl, (printRanking_two (fun r : ℚ => r) scoredPair rfl).2.1,
    (printRanking_two (fun r : ℚ => r) scoredPair rfl).2.2.2.2⟩

theorem perm_multiInsert {κ α : Type} [LinearOrder κ] (m : List (κ × α)) (key : κ)
    (value : α) : (QMultiMap.insert m key value).Perm ((key, value) :: m) := by
  induction m with
  | nil => exact List.Perm.refl _
  | cons e rest ih =>
    obtain ⟨k, v⟩ := e
    unfold QMultiMap.insert
    split_ifs with hlt
    · exact (List.Perm.cons _ ih).trans (List.Perm.swap _ _ _)
    · exact List.Perm.refl _

theorem sorted_multiInsert {κ α : Type} [LinearOrder κ] (m : List (κ × α)) (key : κ)
    (value : α) (hs : m.Pairwise (fun a b => a.1 ≤ b.1)) :
    (QMultiMap.insert m key value).Pairwise (fun a b => a.1 ≤ b.1) := by
  induction m with
  | nil => exact List.pairwise_singleton _ _
  | cons e rest ih =>
    obtain ⟨k, v⟩ := e
    obtain ⟨h1, h2⟩ := List.pairwise_cons.mp hs
    unfold QMultiMap.insert
    split_ifs with hlt
    · refine List.pairwise_cons.mpr ⟨fun b hb => ?_, ih h2⟩
      rcases (List.mem_cons.mp ((perm_multiInsert rest key value).mem_iff.mp hb)) with e | m
      · rw [e]; exact le_of_lt hlt
      · exact h1 b m
    · have hle : key ≤ k := not_lt.mp hlt
      refine List.pairwise_cons.mpr ⟨fun b hb => ?_, hs⟩
      rcases List.mem_cons.mp hb with e | m
      · rw [e]; exact hle
      · exact le_trans hle (h1 b m)

theorem rankingLoop_table {κ : Type} [LinearOrder κ] (elo : ℚ → κ) (playerCount : Nat)
    (hc : playerCount ≠ 2) (players : List PlayerScore)
    (ranking : List (κᵒᵈ × RankingData)) :
    rankingLoop elo playerCount players ranking
      = ([], (rankedPlayers players).foldl (fun m player =>
          QMultiMap.insert m (OrderDual.toDual (elo (ratio player))) (rankingData player))
          ranking) := by
  induction players generalizing ranking with
  | nil => rfl
  | cons player rest ih =>
    unfold rankingLoop rankedPlayers
    by_cases ht : (player.wins + player.losses + player.draws) * 2 ≤ 0
    · have hp : ¬ 0 < player.wins + player.losses + player.draws := by omega
      simp only [ht, if_true, ih, rankedPlayers, List.filter_cons, hp, decide_False,
        Bool.false_eq_true, if_false]
    · have hp : 0 < player.wins + player.losses + player.draws := by omega
      simp only [ht, if_false, hc, ih, rankedPlayers, List.filter_cons, hp, decide_True,
        if_true, List.foldl_cons]

theorem ranking_foldl {κ : Type} [LinearOrder κ] (elo : ℚ → κ) (ps : List PlayerScore)
    (ranking : List (κᵒᵈ × RankingData))
    (hs : ranking.Pairwise (fun a b => a.1 ≤ b.1))
    (hk : ∀ e ∈ ranking, e.1 = OrderDual.toDual (elo e.2.score)) :
    (ps.foldl (fun m player =>
        QMultiMap.insert m (OrderDual.toDual (elo (ratio player))) (rankingData player))
        ranking).Perm (ps.reverse.map
          (fun player => (OrderDual.toDual (elo (ratio player)), rankingData player))
          ++ ranking) ∧
    (ps.foldl (fun m player =>
        QMultiMap.insert m (OrderDual.toDual (elo (ratio player))) (rankingData player))
        ranking).Pairwise (fun a b => a.1 ≤ b.1) ∧
    ∀ e ∈ ps.foldl (fun m player =>
        QMultiMap.insert m (OrderDual.toDual (elo (ratio player))) (rankingData player))
        ranking, e.1 = OrderDual.toDual (elo e.2.score) := by
  induction ps generalizing ranking with
  | nil => exact ⟨by simp, hs, hk⟩
  | cons player rest ih =>
    have hperm := perm_multiInsert ranking (OrderDual.toDual (elo (ratio player)))
      (rankingData player)
    have hk2 : ∀ e ∈ QMultiMap.insert ranking (OrderDual.toDual (elo (ratio player)))
        (rankingData player), e.1 = OrderDual.toDual (elo e.2.score) := by
      intro e he
      rcases List.mem_cons.mp (hperm.mem_iff.mp he) with e1 | m1
      · rw [e1]; rfl
      · exact hk e m1
    obtain ⟨i1, i2, i3⟩ := ih _ (sorted_multiInsert ranking _ _ hs) hk2
    refine ⟨?_, i2, i3⟩
    rw [List.foldl_cons]
    refine i1.trans ?_
    rw [List.reverse_cons, List.map_append, List.append_assoc]
    exact List.Perm.append_left _ hperm

/-- The rating estimate as a function of the score ratio is strictly increasing on
the open unit interval. -/
theorem eloDiff_strictMono (r s : ℝ) (hr : 0 < r) (hrs : r < s) (hs : s < 1) :
    -400 * Real.log (1 / r - 1) / Real.log 10 < -400 * Real.log (1 / s - 1) / Real.log 10 := by
  have hs0 : 0 < s := lt_trans hr hrs
  have h10 : 0 < Real.log 10 := Real.log_pos (by norm_num)
  have hpos : 0 < 1 / s - 1 := by
    rw [sub_pos, lt_div_iff₀ hs0]; linarith
  have hlt : 1 / s - 1 < 1 / r - 1 := by
    have : 1 / s < 1 / r := one_div_lt_one_div_of_lt hr hrs
    linarith
  have hlog := Real.log_lt_log hpos hlt
  apply div_lt_div_of_pos_right _ h10
  linarith

theorem rankingRows_keys {κ : Type} (elo : ℚ → κ) (ranking : List (κᵒᵈ × RankingData))
    (hk : ∀ e ∈ ranking, e.1 = OrderDual.toDual (elo e.2.score)) (rank : Nat) :
    rankingRows rank ranking
      = ((ranking.map Prod.snd).enumFrom rank).map (fun ir =>
          RankingLine.row (ir.1 + 1) ir.2.name (elo ir.2.score) ir.2.games ir.2.score
            ir.2.draws) := by
  induction ranking generalizing rank with
  | nil => rfl
  | cons e rest ih =>
    obtain ⟨key, data⟩ := e
    have hkey : key = OrderDual.toDual (elo data.score) := hk (key, data) (List.mem_cons_self _ _)
    unfold rankingRows
    rw [ih (fun x hx => hk x (List.mem_cons_of_mem _ hx)), hkey]
    rfl

theorem rankingData_eq (player : PlayerScore) :
    rankingData player
      = { name := player.name,
          games := player.wins + player.losses + player.draws,
          score := ((2 * player.wins + player.draws : Int) : ℚ)
            / ((2 * (player.wins + player.losses + player.draws) : Int) : ℚ),
          draws := ((2 * player.draws : Int) : ℚ)
            / ((2 * (player.wins + player.losses + player.draws) : Int) : ℚ) } := by
  unfold rankingData ratio
  have h1 : (player.wins + player.losses + player.draws) * 2 / 2
      = player.wins + player.losses + player.draws :=
    Int.mul_ediv_cancel _ (by decide)
  rw [h1]
  simp only [mul_comm]

/-- The ratio of a player with a finished game and counters that are not negative
is not negative. -/
theorem ratio_nonneg (player : PlayerScore) (hw : 0 ≤ player.wins) (hl : 0 ≤ player.losses)
    (hd : 0 ≤ player.draws) : 0 ≤ ratio player := by
  unfold ratio
  apply div_nonneg
  · exact_mod_cast (by omega : 0 ≤ player.wins * 2 + player.draws)
  · exact_mod_cast (by omega : 0 ≤ (player.wins + player.losses + player.draws) * 2)

/-- Among ratios that are not negative the estimates compare as the ratios do. -/
theorem eloDiff_le_iff (r s : ℚ) (hr : 0 ≤ r) (hs : 0 ≤ s) :
    eloDiff r ≤ eloDiff s ↔ r ≤ s := by
  unfold eloDiff
  rw [OrderDual.toDual_le_toDual]
  unfold logArgument
  by_cases hr0 : r = 0
  · subst hr0
    simp only [if_true, le_top, true_iff]
    exact hs
  · by_cases hs0 : s = 0
    · subst hs0
      rw [if_pos rfl, if_neg hr0]
      constructor
      · intro h
        exact absurd (top_le_iff.mp h) (WithTop.coe_ne_top)
      · intro h
        exact absurd (le_antisymm h hr) hr0
    · rw [if_neg hr0, if_neg hs0, WithTop.coe_le_coe]
      have hrp : 0 < r := lt_of_le_of_ne hr (Ne.symm hr0)
      have hsp : 0 < s := lt_of_le_of_ne hs (Ne.symm hs0)
      constructor
      · intro h
        have : 1 / s ≤ 1 / r := by linarith
        exact (one_div_le_one_div hsp hrp).mp this
      · intro h
        have : 1 / s ≤ 1 / r := (one_div_le_one_div hsp hrp).mpr h
        linarith

/-- Between zero and one the embedded estimates compare as the real numbers
`-400 * log (1 / ratio - 1) / log 10` do. -/
theorem eloDiff_lt_iff (r s : ℚ) (hr : 0 < r) (hr1 : r < 1) (hs : 0 < s) (hs1 : s < 1) :
    eloDiff r < eloDiff s ↔
      -400 * Real.log (1 / (r : ℝ) - 1) / Real.log 10
        < -400 * Real.log (1 / (s : ℝ) - 1) / Real.log 10 := by
  have hiff : eloDiff r < eloDiff s ↔ r < s := by
    rw [lt_iff_not_le, lt_iff_not_le, eloDiff_le_iff s r hs.le hr.le]
  rw [hiff]
  have hrR : (0 : ℝ) < r := by exact_mod_cast hr
  have hsR : (0 : ℝ) < s := by exact_mod_cast hs
  have hr1R : (r : ℝ) < 1 := by exact_mod_cast hr1
  have hs1R : (s : ℝ) < 1 := by exact_mod_cast hs1
  constructor
  · intro h
    exact eloDiff_strictMono r s hrR (by exact_mod_cast h) hs1R
  · intro h
    by_contra hn
    have hle : s ≤ r := not_lt.mp hn
    rcases eq_or_lt_of_le hle with e | l
    · rw [e] at h
      exact lt_irrefl _ h
    · have := eloDiff_strictMono s r hsR (by exact_mod_cast l) hr1R
      exact lt_asymm h this

/-- C16: with three or more competitors `printRanking` prints nothing when no player
has a finished game, and otherwise the header and then one row for each player with
`wins + losses + draws > 0` and for no other player, the rows numbered from 1.  The
row of a player holds the name, the rating estimate of the score ratio, the number
`wins + losses + draws` of games, the score ratio
`(2 wins + draws) / (2 (wins + losses + draws))` and the draw ratio.  The rows are in
descending order of the rating estimate, and with counters that are not negative in
descending order of the score ratio: no row stands below a row of a lower ratio.
Between zero and one the estimates of the embedding compare as the real numbers
`-400 log (1 / ratio - 1) / log 10` do. -/
theorem printRanking_table (players : List PlayerScore) (h : 3 ≤ players.length) :
    ∃ rows : List RankingData,
      printRanking eloDiff players
        = (if rows.isEmpty then [] else [RankingLine.header])
          ++ rows.enum.map (fun ir =>
            RankingLine.row (ir.1 + 1) ir.2.name (eloDiff ir.2.score) ir.2.games ir.2.score
              ir.2.draws) ∧
      rows.Perm
        ((players.filter
            (fun player => decide (0 < player.wins + player.losses + player.draws))).map
          (fun player =>
            ({ name := player.name,
               games := player.wins + player.losses + player.draws,
               score := ((2 * player.wins + player.draws : Int) : ℚ)
                 / ((2 * (player.wins + player.losses + player.draws) : Int) : ℚ),
               draws := ((2 * player.draws : Int) : ℚ)
                 / ((2 * (player.wins + player.losses + player.draws) : Int) : ℚ) }
              : RankingData))) ∧
      rows.Pairwise (fun earlier later => eloDiff later.score ≤ eloDiff earlier.score) ∧
      ((∀ player ∈ players, 0 ≤ player.wins ∧ 0 ≤ player.losses ∧ 0 ≤ player.draws) →
        rows.Pairwise (fun earlier later => later.score ≤ earlier.score)) ∧
      (∀ r s : ℚ, 0 < r → r < 1 → 0 < s → s < 1 →
        (eloDiff r < eloDiff s ↔
          -400 * Real.log (1 / (r : ℝ) - 1) / Real.log 10
            < -400 * Real.log (1 / (s : ℝ) - 1) / Real.log 10)) := by
  obtain ⟨i1, i2, i3⟩ := ranking_foldl eloDiff (rankedPlayers players) []
    List.Pairwise.nil (fun e he => absurd he (List.not_mem_nil e))
  have hperm : (((rankedPlayers players).foldl (fun m player =>
      QMultiMap.insert m (OrderDual.toDual (eloDiff (ratio player))) (rankingData player))
      []).map Prod.snd).Perm ((rankedPlayers players).map rankingData) := by
    have := (i1.map Prod.snd)
    rw [List.append_nil, List.map_map] at this
    refine this.trans ?_
    have e : (Prod.snd ∘ fun player : PlayerScore =>
        ((OrderDual.toDual (eloDiff (ratio player)) : (WithTop ℚ)ᵒᵈᵒᵈ), rankingData player))
        = rankingData := rfl
    rw [e]
    exact (List.reverse_perm _).map _
  have hord : (((rankedPlayers players).foldl (fun m player =>
      QMultiMap.insert m (OrderDual.toDual (eloDiff (ratio player))) (rankingData player))
      []).map Prod.snd).Pairwise
        (fun earlier later => eloDiff later.score ≤ eloDiff earlier.score) := by
    rw [List.pairwise_map]
    refine List.Pairwise.imp_of_mem ?_ i2
    intro a b ha hb hab
    rw [i3 a ha, i3 b hb] at hab
    exact OrderDual.toDual_le_toDual.mp hab
  refine ⟨_, ?_, ?_, hord, fun hpos => ?_, eloDiff_lt_iff⟩
  · unfold printRanking
    rw [rankingLoop_table eloDiff players.length (by omega)]
    simp only [List.nil_append]
    rw [rankingRows_keys eloDiff _ i3 0]
    congr 1
    cases (rankedPlayers players).foldl (fun m player =>
      QMultiMap.insert m (OrderDual.toDual (eloDiff (ratio player))) (rankingData player)) [] <;>
      rfl
  · refine hperm.trans ?_
    rw [(funext rankingData_eq : rankingData = _)]
    exact List.Perm.refl _
  · refine List.Pairwise.imp_of_mem ?_ hord
    intro a b ha hb hab
    have hnn : ∀ x ∈ ((rankedPlayers players).foldl (fun m player =>
        QMultiMap.insert m (OrderDual.toDual (eloDiff (ratio player))) (rankingData player))
        []).map Prod.snd, 0 ≤ x.score := by
      intro x hx
      obtain ⟨player, hp, hxe⟩ := List.mem_map.mp (hperm.mem_iff.mp hx)
      have hm : player ∈ players := (List.mem_filter.mp hp).1
      obtain ⟨hw, hl, hd⟩ := hpos player hm
      rw [← hxe]
      exact ratio_nonneg player hw hl hd
    exact (eloDiff_le_iff _ _ (hnn b hb) (hnn a ha)).mp hab

/-- Gamma with the ratio 7/8 stands first, Alpha with 3/8 second and Delta with 1/4
third; Beta, without a finished game, has no row. -/
theorem printRanking_sample :
    printRanking eloDiff scoredPlayers
      = [RankingLine.header,
          RankingLine.row 1 "Gamma" (eloDiff (7 / 8)) 4 (7 / 8) (1 / 4),
          RankingLine.row 2 "Alpha" (eloDiff (3 / 8)) 4 (3 / 8) (1 / 4),
          RankingLine.row 3 "Delta" (eloDiff (1 / 4)) 4 (1 / 4) 0] := by
  have e1 : ratio ⟨"Alpha", 1, 2, 1⟩ = 3 / 8 := by unfold ratio; norm_num
  have e2 : ratio ⟨"Gamma", 3, 0, 1⟩ = 7 / 8 := by unfold ratio; norm_num
  have e3 : ratio ⟨"Delta", 1, 3, 0⟩ = 1 / 4 := by unfold ratio; norm_num
  have c1 : ¬ (OrderDual.toDual (eloDiff (3 / 8)) < OrderDual.toDual (eloDiff (7 / 8))) := by
    rw [OrderDual.toDual_lt_toDual, lt_iff_not_le, not_not,
      eloDiff_le_iff _ _ (by norm_num) (by norm_num)]
    norm_num
  have c2 : OrderDual.toDual (eloDiff (7 / 8)) < OrderDual.toDual (eloDiff (1 / 4)) := by
    rw [OrderDual.toDual_lt_toDual, lt_iff_not_le,
      eloDiff_le_iff _ _ (by norm_num) (by norm_num)]
    norm_num
  have c3 : OrderDual.toDual (eloDiff (3 / 8)) < OrderDual.toDual (eloDiff (1 / 4)) := by
    rw [OrderDual.toDual_lt_toDual, lt_iff_not_le,
      eloDiff_le_iff _ _ (by norm_num) (by norm_num)]
    norm_num
  have d1 : rankingData ⟨"Alpha", 1, 2, 1⟩ = ⟨"Alpha", 4, 3 / 8, 1 / 4⟩ := by
    rw [rankingData_eq]; norm_num
  have d2 : rankingData ⟨"Gamma", 3, 0, 1⟩ = ⟨"Gamma", 4, 7 / 8, 1 / 4⟩ := by
    rw [rankingData_eq]; norm_num
  have d3 : rankingData ⟨"Delta", 1, 3, 0⟩ = ⟨"Delta", 4, 1 / 4, 0⟩ := by
    rw [rankingData_eq]; norm_num
  unfold printRanking scoredPlayers
  simp only [rankingLoop, List.length_cons, List.length_nil, e1, e2, e3, d1, d2, d3,
    QMultiMap.insert, c1, c2, c3, if_true, if_false]
  norm_num [rankingRows]

/-- Witness of C16: four players, one of them without a finished game; the table has
the header and the rows of Gamma, Alpha and Delta, in this order. -/
theorem printRanking_table_witness :
    (3 ≤ scoredPlayers.length ∧
      ∀ player ∈ scoredPlayers, 0 ≤ player.wins ∧ 0 ≤ player.losses ∧ 0 ≤ player.draws) ∧
    ∃ rows : List RankingData,
      printRanking eloDiff scoredPlayers
        = (if rows.isEmpty then [] else [RankingLine.header])
          ++ rows.enum.map (fun ir =>
            RankingLine.row (ir.1 + 1) ir.2.name (eloDiff ir.2.score) ir.2.games ir.2.score
              ir.2.draws) ∧
      rows.Perm
        [⟨"Alpha", 4, 3 / 8, 1 / 4⟩, ⟨"Gamma", 4, 7 / 8, 1 / 4⟩, ⟨"Delta", 4, 1 / 4, 0⟩] ∧
      rows.Pairwise (fun earlier later => later.score ≤ earlier.score) ∧
      printRanking eloDiff scoredPlayers
        = [RankingLine.header,
            RankingLine.row 1 "Gamma" (eloDiff (7 / 8)) 4 (7 / 8) (1 / 4),
            RankingLine.row 2 "Alpha" (eloDiff (3 / 8)) 4 (3 / 8) (1 / 4),
            RankingLine.row 3 "Delta" (eloDiff (1 / 4)) 4 (1 / 4) 0] :=
  have hnn : ∀ player ∈ scoredPlayers,
      0 ≤ player.wins ∧ 0 ≤ player.losses ∧ 0 ≤ player.draws := by
    unfold scoredPlayers
    decide
  ⟨⟨by decide, hnn⟩,
    match printRanking_table scoredPlayers (by decide) with
    | ⟨rows, h1, h2, _, h4, _⟩ =>
      ⟨rows, h1, h2.trans (by
        unfold scoredPlayers
        norm_num [List.filter]), h4 hnn, printRanking_sample⟩⟩

/-! ## The round-robin schedule -/

theorem seatPlayer_lt (count turns seat : Nat) (hc : 2 ≤ count) :
    seatPlayer count turns seat < count := by
  unfold seatPlayer
  split_ifs
  · omega
  · have := Nat.mod_lt (seat - 1 + turns) (show 0 < count - 1 by omega)
    omega

theorem seatPlayer_inj (count turns s1 s2 : Nat) (h1 : s1 < count) (h2 : s2 < count)
    (h : seatPlayer count turns s1 = seatPlayer count turns s2) : s1 = s2 := by
  unfold seatPlayer at h
  split_ifs at h with e1 e2 e2
  · omega
  · omega
  · omega
  · have hm : (s1 - 1 + turns) % (count - 1) = (s2 - 1 + turns) % (count - 1) := by omega
    have hm2 : s1 - 1 ≡ s2 - 1 [MOD (count - 1)] := Nat.ModEq.add_right_cancel' turns hm
    have := Nat.ModEq.eq_of_lt_of_lt hm2 (by omega) (by omega)
    omega

theorem roundMark_comm (x y : Nat) : roundMark x y = roundMark y x := by
  unfold roundMark
  split_ifs <;> omega

theorem roundMark_seats (count turns seat : Nat) (hc : 2 ≤ count) (hs : seat < count / 2) :
    roundMark (seatPlayer count turns seat) (seatPlayer count turns (count - 1 - seat))
      ≡ 2 * turns + 2 * (count - 1) - 2 [MOD (count - 1)] := by
  have hpos : 0 < count - 1 := by omega
  unfold roundMark seatPlayer
  by_cases h0 : seat = 0
  · subst h0
    have hne : count - 1 - 0 ≠ 0 := by omega
    simp only [if_true, if_neg hne]
    have e : 1 + (count - 1 - 0 - 1 + turns) % (count - 1) - 1
        = (count - 1 - 0 - 1 + turns) % (count - 1) := by omega
    rw [e]
    have h1 : (count - 1 - 0 - 1 + turns) % (count - 1) ≡ count - 1 - 0 - 1 + turns
        [MOD (count - 1)] := Nat.mod_modEq _ _
    have h2 := Nat.ModEq.mul_left 2 h1
    have e2 : 2 * (count - 1 - 0 - 1 + turns) = 2 * turns + 2 * (count - 1) - 2 := by omega
    rw [e2] at h2
    exact h2
  · have hne : count - 1 - seat ≠ 0 := by omega
    have hn1 : 1 + (seat - 1 + turns) % (count - 1) ≠ 0 := by omega
    have hn2 : 1 + (count - 1 - seat - 1 + turns) % (count - 1) ≠ 0 := by omega
    simp only [if_neg h0, if_neg hne, if_neg hn1, if_neg hn2]
    have e : 1 + (seat - 1 + turns) % (count - 1) - 1
          + (1 + (count - 1 - seat - 1 + turns) % (count - 1) - 1)
        = (seat - 1 + turns) % (count - 1) + (count - 1 - seat - 1 + turns) % (count - 1) := by
      omega
    rw [e]
    have h1 : (seat - 1 + turns) % (count - 1) ≡ seat - 1 + turns [MOD (count - 1)] :=
      Nat.mod_modEq _ _
    have h2 : (count - 1 - seat - 1 + turns) % (count - 1) ≡ count - 1 - seat - 1 + turns
        [MOD (count - 1)] := Nat.mod_modEq _ _
    have h3 := Nat.ModEq.add h1 h2
    have h4 : (seat - 1 + turns) + (count - 1 - seat - 1 + turns) + (count - 1)
        = 2 * turns + 2 * (count - 1) - 2 := by omega
    rw [← h4]
    refine h3.trans ?_
    have : (seat - 1 + turns) + (count - 1 - seat - 1 + turns) + 0
        ≡ (seat - 1 + turns) + (count - 1 - seat - 1 + turns) + (count - 1)
        [MOD (count - 1)] :=
      Nat.ModEq.add_left _ (by
        show 0 % (count - 1) = (count - 1) % (count - 1)
        rw [Nat.mod_self, Nat.zero_mod])
    simpa using this

theorem turns_unique (count t1 t2 : Nat) (hc : 2 ≤ count) (he : count % 2 = 0)
    (h1 : t1 < count - 1) (h2 : t2 < count - 1)
    (h : 2 * t1 + 2 * (count - 1) - 2 ≡ 2 * t2 + 2 * (count - 1) - 2 [MOD (count - 1)]) :
    t1 = t2 := by
  have e1 : 2 * t1 + 2 * (count - 1) - 2 = 2 * t1 + (2 * (count - 1) - 2) := by omega
  have e2 : 2 * t2 + 2 * (count - 1) - 2 = 2 * t2 + (2 * (count - 1) - 2) := by omega
  rw [e1, e2] at h
  have h3 : 2 * t1 ≡ 2 * t2 [MOD (count - 1)] := Nat.ModEq.add_right_cancel' _ h
  have hco : Nat.gcd (count - 1) 2 = 1 := by
    have hodd : (count - 1) % 2 = 1 := by omega
    rw [Nat.gcd_comm, Nat.gcd_rec]
    simp [hodd]
  have h4 : t1 ≡ t2 [MOD (count - 1)] := Nat.ModEq.cancel_left_of_coprime hco h3
  exact Nat.ModEq.eq_of_lt_of_lt h4 h1 h2

theorem countP_flatMap_sum {α β : Type} (P : β → Bool) (f : α → List β) (l : List α) :
    (l.flatMap f).countP P = (l.map (fun a => (f a).countP P)).sum := by
  induction l with
  | nil => rfl
  | cons a rest ih => simp [List.flatMap_cons, List.countP_append, ih]

theorem pairs_roundFixtures (count cycle round : Nat) :
    (roundFixtures count cycle round).map (fun f => Sym2.mk (f.white, f.black))
      = (List.range (count / 2)).map (fun seat =>
          Sym2.mk (seatPlayer count (round - 1) seat,
            seatPlayer count (round - 1) (count - 1 - seat))) := by
  unfold roundFixtures
  rw [List.map_map]
  apply List.map_congr_left
  intro seat _
  simp only [Function.comp]
  split_ifs <;> first | rfl | exact Sym2.eq_swap

theorem mem_roundFixtures (count cycle round : Nat) (hc : 2 ≤ count) (f : Fixture)
    (hf : f ∈ roundFixtures count cycle round) :
    f.white < count ∧ f.black < count ∧ f.white ≠ f.black := by
  unfold roundFixtures at hf
  rw [List.mem_map] at hf
  obtain ⟨seat, hs, e⟩ := hf
  rw [List.mem_range] at hs
  have hne : seatPlayer count (round - 1) seat
      ≠ seatPlayer count (round - 1) (count - 1 - seat) := by
    intro h
    have := seatPlayer_inj count (round - 1) seat (count - 1 - seat) (by omega) (by omega) h
    omega
  have h1 := seatPlayer_lt count (round - 1) seat hc
  have h2 := seatPlayer_lt count (round - 1) (count - 1 - seat) hc
  simp only at e
  split_ifs at e <;> rw [← e] <;>
    first | exact ⟨h1, h2, hne⟩ | exact ⟨h2, h1, hne.symm⟩

theorem mem_cycleFixtures (count cycle : Nat) (hc : 2 ≤ count) (f : Fixture)
    (hf : f ∈ cycleFixtures count cycle) :
    f.white < count ∧ f.black < count ∧ f.white ≠ f.black := by
  unfold cycleFixtures at hf
  rw [List.mem_flatMap] at hf
  obtain ⟨r, _, hr⟩ := hf
  exact mem_roundFixtures count cycle (r + 1) hc f hr

theorem length_cycleFixtures (count cycle : Nat) :
    (cycleFixtures count cycle).length = (count - 1) * (count / 2) := by
  unfold cycleFixtures
  rw [List.length_flatMap]
  have : (List.length ∘ fun r => roundFixtures count cycle (r + 1)) = fun _ => count / 2 := by
    funext r
    simp only [Function.comp]
    unfold roundFixtures
    rw [List.length_map, List.length_range]
  rw [this]
  simp

theorem nodup_pairs (count cycle : Nat) (hc : 2 ≤ count) (he : count % 2 = 0) :
    ((cycleFixtures count cycle).map (fun f => Sym2.mk (f.white, f.black))).Nodup := by
  unfold cycleFixtures
  rw [List.map_flatMap]
  simp only [pairs_roundFixtures, Nat.add_sub_cancel]
  rw [List.nodup_flatMap]
  constructor
  · intro r _
    refine List.Nodup.map_on ?_ (List.nodup_range _)
    intro i hi j hj hij
    rw [List.mem_range] at hi hj
    rw [Sym2.eq_iff] at hij
    rcases hij with ⟨h1, _⟩ | ⟨h1, _⟩
    · exact seatPlayer_inj count r i j (by omega) (by omega) h1
    · have := seatPlayer_inj count r i (count - 1 - j) (by omega) (by omega) h1
      omega
  · refine List.Pairwise.imp_of_mem ?_ (List.nodup_range (count - 1))
    intro r1 r2 hr1 hr2 hne
    rw [List.mem_range] at hr1 hr2
    intro z hz1 hz2
    rw [List.mem_map] at hz1 hz2
    obtain ⟨i, hi, e1⟩ := hz1
    obtain ⟨j, hj, e2⟩ := hz2
    rw [List.mem_range] at hi hj
    have hm1 := roundMark_seats count r1 i hc hi
    have hm2 := roundMark_seats count r2 j hc hj
    have heq : roundMark (seatPlayer count r1 i) (seatPlayer count r1 (count - 1 - i))
        = roundMark (seatPlayer count r2 j) (seatPlayer count r2 (count - 1 - j)) := by
      have e := e1.trans e2.symm
      rw [Sym2.eq_iff] at e
      rcases e with ⟨a, b⟩ | ⟨a, b⟩
      · rw [a, b]
      · rw [a, b, roundMark_comm]
    rw [heq] at hm1
    exact hne (turns_unique count r1 r2 hc he hr1 hr2 (hm1.symm.trans hm2))

theorem meetings_eq_count (p q : Nat) (l : List Fixture) :
    meetings p q l = (l.map (fun f => Sym2.mk (f.white, f.black))).count (Sym2.mk (p, q)) := by
  unfold meetings List.count
  rw [List.countP_map]
  apply List.countP_congr
  intro f _
  simp only [Function.comp, decide_eq_true_eq, beq_iff_eq]
  rw [Sym2.eq_iff]

theorem meetings_cycle (count cycle p q : Nat) (hc : 2 ≤ count) (he : count % 2 = 0)
    (hp : p < count) (hq : q < count) (hpq : p ≠ q) :
    meetings p q (cycleFixtures count cycle) = 1 := by
  rw [meetings_eq_count]
  apply List.count_eq_one_of_mem (nodup_pairs count cycle hc he)
  have hsub : ((cycleFixtures count cycle).map (fun f => Sym2.mk (f.white, f.black))).toFinset
      ⊆ (Finset.range count).offDiag.image Sym2.mk := by
    intro z hz
    rw [List.mem_toFinset, List.mem_map] at hz
    obtain ⟨f, hf, e⟩ := hz
    obtain ⟨h1, h2, h3⟩ := mem_cycleFixtures count cycle hc f hf
    rw [Finset.mem_image]
    refine ⟨(f.white, f.black), ?_, e⟩
    rw [Finset.mem_offDiag]
    exact ⟨Finset.mem_range.mpr h1, Finset.mem_range.mpr h2, h3⟩
  have hcard : ((Finset.range count).offDiag.image Sym2.mk).card
      ≤ ((cycleFixtures count cycle).map
          (fun f => Sym2.mk (f.white, f.black))).toFinset.card := by
    rw [Sym2.card_image_offDiag, List.toFinset_card_of_nodup (nodup_pairs count cycle hc he),
      List.length_map, length_cycleFixtures, Finset.card_range, Nat.choose_two_right]
    obtain ⟨k, rfl⟩ : ∃ k, count = 2 * k := ⟨count / 2, by omega⟩
    rw [Nat.mul_div_cancel_left _ (by decide : 0 < 2), Nat.mul_assoc,
      Nat.mul_div_cancel_left _ (by decide : 0 < 2), Nat.mul_comm]
  have heq := Finset.eq_of_subset_of_card_le hsub hcard
  have hmem : Sym2.mk (p, q) ∈ (Finset.range count).offDiag.image Sym2.mk := by
    rw [Finset.mem_image]
    exact ⟨(p, q), Finset.mem_offDiag.mpr
      ⟨Finset.mem_range.mpr hp, Finset.mem_range.mpr hq, hpq⟩, rfl⟩
  rw [← heq, List.mem_toFinset] at hmem
  exact hmem

theorem gamesAs_add (p q : Nat) (hpq : p ≠ q) (l : List Fixture) :
    gamesAs p q l + gamesAs q p l = meetings p q l := by
  induction l with
  | nil => rfl
  | cons f rest ih =>
    unfold gamesAs meetings at ih ⊢
    simp only [List.countP_cons, decide_eq_true_eq]
    split_ifs <;> omega

theorem roundFixtures_succ (count cycle round : Nat) :
    roundFixtures count (cycle + 1) round
      = (roundFixtures count cycle round).map
          (fun f => ⟨f.black, f.white, f.round, f.cycle + 1⟩) := by
  unfold roundFixtures
  rw [List.map_map]
  apply List.map_congr_left
  intro seat _
  simp only [Function.comp]
  have h2 : round % 2 = 0 ∨ round % 2 = 1 := by omega
  have h3 : cycle % 2 = 0 ∨ cycle % 2 = 1 := by omega
  rcases h3 with c0 | c1
  · have c2 : (cycle + 1) % 2 ≠ 0 := by omega
    rcases h2 with r0 | r1
    · have r2 : round % 2 ≠ 1 := by omega
      simp [c0, c2, r0]
    · have r2 : round % 2 ≠ 0 := by omega
      simp [c0, c2, r1]
  · have c2 : (cycle + 1) % 2 = 0 := by omega
    have c3 : cycle % 2 ≠ 0 := by omega
    rcases h2 with r0 | r1
    · have r2 : round % 2 ≠ 1 := by omega
      simp [c2, c3, r0]
    · have r2 : round % 2 ≠ 0 := by omega
      simp [c2, c3, r1]

theorem gamesAs_cycle_succ (count cycle p q : Nat) :
    gamesAs p q (cycleFixtures count (cycle + 1)) = gamesAs q p (cycleFixtures count cycle) := by
  unfold gamesAs cycleFixtures
  rw [countP_flatMap_sum, countP_flatMap_sum]
  congr 1
  apply List.map_congr_left
  intro r _
  rw [roundFixtures_succ, List.countP_map]
  apply List.countP_congr
  intro f _
  simp only [Function.comp, decide_eq_true_eq]
  tauto

theorem schedule_even (players cycles : Nat) (hc : 2 ≤ players) (he : players % 2 = 0) :
    schedule players cycles
      = (List.range cycles).flatMap (fun c => cycleFixtures players (c + 1)) := by
  unfold schedule
  rw [if_neg (by omega)]
  simp only [he, Nat.add_zero]
  unfold cycleFixtures
  congr 1
  funext c
  congr 1
  funext r
  rw [List.filter_eq_self]
  intro f hf
  have := mem_roundFixtures players (c + 1) (r + 1) hc f hf
  simp only [decide_eq_true_eq]
  exact ⟨this.1, this.2.1⟩

theorem gamesAs_schedule (players p q : Nat) (hc : 2 ≤ players) (he : players % 2 = 0)
    (hp : p < players) (hq : q < players) (hpq : p ≠ q) (cycles : Nat) :
    gamesAs p q (schedule players cycles) + gamesAs q p (schedule players cycles) = cycles ∧
    (cycles % 2 = 0 →
      gamesAs p q (schedule players cycles) = gamesAs q p (schedule players cycles)) ∧
    (cycles % 2 = 1 →
      gamesAs p q (schedule players cycles) + gamesAs q p (cycleFixtures players 1)
        = gamesAs q p (schedule players cycles) + gamesAs p q (cycleFixtures players 1)) := by
  have hpar : ∀ c, (c % 2 = 0 →
        gamesAs p q (cycleFixtures players (c + 1)) = gamesAs p q (cycleFixtures players 1) ∧
        gamesAs q p (cycleFixtures players (c + 1)) = gamesAs q p (cycleFixtures players 1)) ∧
      (c % 2 = 1 →
        gamesAs p q (cycleFixtures players (c + 1)) = gamesAs q p (cycleFixtures players 1) ∧
        gamesAs q p (cycleFixtures players (c + 1)) = gamesAs p q (cycleFixtures players 1)) := by
    intro c
    induction c with
    | zero => exact ⟨fun _ => ⟨rfl, rfl⟩, fun h => by omega⟩
    | succ c ih =>
      rw [gamesAs_cycle_succ players (c + 1) p q, gamesAs_cycle_succ players (c + 1) q p]
      constructor
      · intro h
        have := ih.2 (by omega)
        exact ⟨this.2, this.1⟩
      · intro h
        have := ih.1 (by omega)
        exact ⟨this.2, this.1⟩
  have hone : gamesAs p q (cycleFixtures players 1) + gamesAs q p (cycleFixtures players 1) = 1 := by
    rw [gamesAs_add p q hpq, meetings_cycle players 1 p q hc he hp hq hpq]
  have hstep : ∀ n, gamesAs p q (schedule players (n + 1))
        = gamesAs p q (schedule players n) + gamesAs p q (cycleFixtures players (n + 1)) ∧
      gamesAs q p (schedule players (n + 1))
        = gamesAs q p (schedule players n) + gamesAs q p (cycleFixtures players (n + 1)) := by
    intro n
    rw [schedule_even players (n + 1) hc he, schedule_even players n hc he]
    unfold gamesAs
    rw [List.range_succ, List.flatMap_append]
    simp only [List.countP_append, List.flatMap_cons, List.flatMap_nil, List.append_nil]
    exact ⟨trivial, trivial⟩
  induction cycles with
  | zero =>
    rw [schedule_even players 0 hc he]
    exact ⟨rfl, fun _ => rfl, fun h => by omega⟩
  | succ n ih =>
    obtain ⟨s1, s2⟩ := hstep n
    obtain ⟨i1, i2, i3⟩ := ih
    rw [s1, s2]
    have hn : n % 2 = 0 ∨ n % 2 = 1 := by omega
    rcases hn with n0 | n1
    · obtain ⟨a, b⟩ := (hpar n).1 n0
      have := i2 n0
      refine ⟨by omega, fun h => by omega, fun _ => by omega⟩
    · obtain ⟨a, b⟩ := (hpar n).2 n1
      have := i3 n1
      refine ⟨by omega, fun _ => by omega, fun h => by omega⟩

/-- C17: the round-robin schedule of an even number `players ≥ 2` of competitors over
`cycles` cycles has `cycles * players * (players - 1) / 2` fixtures, all of them
between two different competitors; every two competitors meet exactly `cycles`
times, and the games of one of them with White and of the other with White differ
by at most one. -/
theorem schedule_roundRobin (players cycles : Nat) (hplayers : 2 ≤ players)
    (heven : players % 2 = 0) :
    (schedule players cycles).length = cycles * players * (players - 1) / 2 ∧
    (∀ f ∈ schedule players cycles,
      f.white < players ∧ f.black < players ∧ f.white ≠ f.black) ∧
    ∀ p q, p < players → q < players → p ≠ q →
      meetings p q (schedule players cycles) = cycles ∧
      gamesAs p q (schedule players cycles) + gamesAs q p (schedule players cycles)
        = cycles ∧
      gamesAs p q (schedule players cycles) ≤ gamesAs q p (schedule players cycles) + 1 ∧
      gamesAs q p (schedule players cycles) ≤ gamesAs p q (schedule players cycles) + 1 := by
  refine ⟨?_, ?_, ?_⟩
  · rw [schedule_even players cycles hplayers heven, List.length_flatMap]
    have : (List.length ∘ fun c => cycleFixtures players (c + 1))
        = fun _ => (players - 1) * (players / 2) := by
      funext c
      simp only [Function.comp]
      rw [length_cycleFixtures]
    rw [this]
    simp only [List.map_const', List.length_range, List.sum_replicate, smul_eq_mul]
    obtain ⟨k, rfl⟩ : ∃ k, players = 2 * k := ⟨players / 2, by omega⟩
    rw [Nat.mul_div_cancel_left _ (by decide : 0 < 2)]
    have e : cycles * (2 * k) * (2 * k - 1) = 2 * (cycles * ((2 * k - 1) * k)) := by
      rw [Nat.mul_assoc, Nat.mul_assoc, Nat.mul_left_comm cycles 2, Nat.mul_comm k (2 * k - 1)]
    rw [e, Nat.mul_div_cancel_left _ (by decide : 0 < 2)]
  · intro f hf
    rw [schedule_even players cycles hplayers heven, List.mem_flatMap] at hf
    obtain ⟨c, _, hc⟩ := hf
    exact mem_cycleFixtures players (c + 1) hplayers f hc
  · intro p q hp hq hpq
    obtain ⟨h1, h2, h3⟩ := gamesAs_schedule players p q hplayers heven hp hq hpq cycles
    have hone : gamesAs p q (cycleFixtures players 1) + gamesAs q p (cycleFixtures players 1)
        = 1 := by
      rw [gamesAs_add p q hpq, meetings_cycle players 1 p q hplayers heven hp hq hpq]
    have hc : cycles % 2 = 0 ∨ cycles % 2 = 1 := by omega
    refine ⟨by rw [← gamesAs_add p q hpq]; exact h1, h1, ?_, ?_⟩
    · rcases hc with c0 | c1
      · have := h2 c0; omega
      · have := h3 c1; omega
    · rcases hc with c0 | c1
      · have := h2 c0; omega
      · have := h3 c1; omega

/-- Witness of C17: four players, three cycles; players 1 and 2. -/
theorem schedule_roundRobin_witness :
    ((2 : Nat) ≤ 4 ∧ 4 % 2 = 0) ∧
    (schedule 4 3).length = 3 * 4 * (4 - 1) / 2 ∧
    meetings 1 2 (schedule 4 3) = 3 ∧
    gamesAs 1 2 (schedule 4 3) ≤ gamesAs 2 1 (schedule 4 3) + 1 ∧
    gamesAs 2 1 (schedule 4 3) ≤ gamesAs 1 2 (schedule 4 3) + 1 :=
  ⟨by decide, (schedule_roundRobin 4 3 (by decide) (by decide)).1,
    ((schedule_roundRobin 4 3 (by decide) (by decide)).2.2 1 2 (by decide) (by decide)
      (by decide)).1,
    ((schedule_roundRobin 4 3 (by decide) (by decide)).2.2 1 2 (by decide) (by decide)
      (by decide)).2.2⟩

theorem schedule_four :
    (schedule 4 1).map (fun f => (f.white, f.black))
      = [(0, 3), (1, 2), (1, 0), (3, 2), (0, 2), (3, 1)] := by
  decide

/-! ## The adjudicator: the draw rule -/

theorem le_takeWhile_length {α : Type} (q : α → Bool) (l : List α) (k : Nat) :
    k ≤ (l.takeWhile q).length ↔ k ≤ l.length ∧ ∀ x ∈ l.take k, q x = true := by
  induction l generalizing k with
  | nil => simp
  | cons a rest ih =>
    cases k with
    | zero => simp
    | succ k =>
      by_cases ha : q a = true
      · simp only [List.takeWhile_cons, ha, if_true, List.length_cons, Nat.add_le_add_iff_right,
          ih, List.take_succ_cons, List.mem_cons, forall_eq_or_imp, true_and]
      · simp only [List.takeWhile_cons, ha, Bool.false_eq_true, if_false, List.length_nil,
          Nat.le_zero_eq, Nat.add_one_ne_zero, false_iff, List.take_succ_cons, List.mem_cons,
          forall_eq_or_imp, false_and, and_false, not_false_eq_true]

/-- The number of items at the end of a list that satisfy `q` is at least `k` exactly
when the last `k` items all satisfy `q`. -/
theorem lastAll_iff {α : Type} (q : α → Bool) (k : Nat) (l : List α) :
    LastAll q k l ↔ k ≤ (l.reverse.takeWhile q).length := by
  unfold LastAll
  rw [le_takeWhile_length, List.length_reverse]

theorem trailing_append {α : Type} (q : α → Bool) (l : List α) (x : α) :
    ((l ++ [x]).reverse.takeWhile q).length
      = if q x = true then (l.reverse.takeWhile q).length + 1 else 0 := by
  rw [List.reverse_append, List.reverse_singleton, List.singleton_append, List.takeWhile_cons]
  split_ifs <;> simp

theorem addEval_decided (a : GameAdjudicator) (r : ChessResult) (h : a.m_result = some r)
    (board : Board) (score : Int) (resetDraw : Bool) :
    a.addEval board score resetDraw = a := by
  unfold GameAdjudicator.addEval
  rw [h]
  rfl

theorem addAll_decided (samples : List Sample) (a : GameAdjudicator) (r : ChessResult)
    (h : a.m_result = some r) : a.addAll samples = a := by
  induction samples with
  | nil => rfl
  | cons s rest ih =>
    unfold GameAdjudicator.addAll at ih ⊢
    rw [List.foldl_cons, addEval_decided a r h]
    exact ih

theorem addAll_append (a : GameAdjudicator) (xs ys : List Sample) :
    a.addAll (xs ++ ys) = (a.addAll xs).addAll ys := by
  unfold GameAdjudicator.addAll
  rw [List.foldl_append]

theorem addAll_cons (a : GameAdjudicator) (s : Sample) (rest : List Sample) :
    a.addAll (s :: rest) = (a.addEval s.board s.score s.resetDraw).addAll rest := rfl

theorem opposite_ne (side : Side) : side.opposite ≠ side := by
  cases side <;> decide

theorem opposite_opposite (side : Side) : side.opposite.opposite = side := by
  cases side <;> rfl

theorem eq_or_eq_opposite (side other : Side) : other = side ∨ other = side.opposite := by
  cases side <;> cases other <;> simp [Side.opposite]

theorem samplesOf_append (side : Side) (xs : List Sample) (s : Sample) :
    samplesOf side (xs ++ [s])
      = if s.side = side then samplesOf side xs ++ [s] else samplesOf side xs := by
  unfold samplesOf
  rw [List.filter_append]
  by_cases h : s.side = side
  · simp [h]
  · simp [h]

/-- After an evaluation of 4 by Black at move 39, which does not count, White and
Black report in turn from move 40 on, all evaluations within 10 of zero. -/
theorem draw_rule_sample :
    ((GameAdjudicator.new.setDrawThreshold 40 10 10).addAll
      (quietSample 39 Side.black 4 :: inTurn Side.white
        [(40, 3), (40, -2), (41, 0), (41, 1), (42, -5), (42, 5), (43, 0), (43, 2),
          (44, -1)])).result = none ∧
    ((GameAdjudicator.new.setDrawThreshold 40 10 10).addAll
      (quietSample 39 Side.black 4 :: inTurn Side.white
        [(40, 3), (40, -2), (41, 0), (41, 1), (42, -5), (42, 5), (43, 0), (43, 2),
          (44, -1), (44, 0)])).result = some ChessResult.draw ∧
    ((GameAdjudicator.new.setDrawThreshold 40 1 10).addAll
      [quietSample 41 Side.black 900, quietSample 42 Side.white 0]).result = none ∧
    ((GameAdjudicator.new.setDrawThreshold 40 10 10).addAll
      (List.replicate 10 (quietSample 41 Side.white 3))).result = none := by
  decide

theorem addEval_resignOnly (mc : Nat) (sc : Int) (hmc : 0 < mc) (a : GameAdjudicator)
    (hcfg : ResignOnly mc sc a) (hres : a.m_result = none) (s : Sample) :
    ResignOnly mc sc (a.addEval s.board s.score s.resetDraw) ∧
    (a.addEval s.board s.score s.resetDraw).m_resignLoserScoreCount s.side
      = (if isLosing sc s = true then a.m_resignLoserScoreCount s.side + 1 else 0) ∧
    (a.addEval s.board s.score s.resetDraw).m_resignWinnerScoreCount s.side
      = (if isWinning sc s = true then a.m_resignWinnerScoreCount s.side + 1 else 0) ∧
    (a.addEval s.board s.score s.resetDraw).m_resignLoserScoreCount s.side.opposite
      = a.m_resignLoserScoreCount s.side.opposite ∧
    (a.addEval s.board s.score s.resetDraw).m_resignWinnerScoreCount s.side.opposite
      = a.m_resignWinnerScoreCount s.side.opposite ∧
    (a.addEval s.board s.score s.resetDraw).m_result
      = (if mc ≤ (if isLosing sc s = true then a.m_resignLoserScoreCount s.side + 1 else 0)
            ∧ mc ≤ a.m_resignWinnerScoreCount s.side.opposite
          then some (ChessResult.win s.side.opposite)
          else if mc ≤ a.m_resignLoserScoreCount s.side.opposite
            ∧ mc ≤ (if isWinning sc s = true then a.m_resignWinnerScoreCount s.side + 1 else 0)
          then some (ChessResult.win s.side) else none) := by
  obtain ⟨h1, h2, h3, h4⟩ := hcfg
  have hne := opposite_ne s.board.sideToMove.opposite
  unfold GameAdjudicator.addEval ResignOnly isLosing isWinning Sample.side
  simp only [hres, Option.isSome_none, Bool.false_eq_true, if_false, h4, false_and, h1, h2, h3,
    hmc, if_true, lt_self_iff_false, decide_eq_true_eq, Function.update_noteq hne,
    Function.update_same]
  split_ifs <;> simp_all [Function.update_same, Function.update_noteq]

theorem addAll_none_prefix (a : GameAdjudicator) (ys zs : List Sample)
    (hres : (a.addAll (ys ++ zs)).m_result = none) : (a.addAll ys).m_result = none := by
  rw [addAll_append] at hres
  cases h : (a.addAll ys).m_result with
  | none => rfl
  | some r =>
    rw [addAll_decided zs _ r h, h] at hres
    exact Option.noConfusion hres

theorem addAll_resignOnly (mc : Nat) (sc : Int) (hmc : 0 < mc) (xs : List Sample)
    (hres : ((GameAdjudicator.new.setResignThreshold mc sc).addAll xs).m_result = none) :
    ResignOnly mc sc ((GameAdjudicator.new.setResignThreshold mc sc).addAll xs) ∧
    ∀ side : Side,
      ((GameAdjudicator.new.setResignThreshold mc sc).addAll xs).m_resignLoserScoreCount side
        = ((samplesOf side xs).reverse.takeWhile (isLosing sc)).length ∧
      ((GameAdjudicator.new.setResignThreshold mc sc).addAll xs).m_resignWinnerScoreCount side
        = ((samplesOf side xs).reverse.takeWhile (isWinning sc)).length := by
  induction xs using List.reverseRecOn with
  | nil => exact ⟨⟨rfl, rfl, rfl, rfl⟩, fun _ => ⟨rfl, rfl⟩⟩
  | append_singleton ys s ih =>
    have hys := addAll_none_prefix _ ys [s] hres
    rw [addAll_append] at hres ⊢
    obtain ⟨hcfg, hcount⟩ := ih hys
    have hstep : (((GameAdjudicator.new.setResignThreshold mc sc).addAll ys).addAll [s])
        = ((GameAdjudicator.new.setResignThreshold mc sc).addAll ys).addEval
            s.board s.score s.resetDraw := rfl
    rw [hstep]
    obtain ⟨c1, c2, c3, c4, c5, _⟩ := addEval_resignOnly mc sc hmc _ hcfg hys s
    refine ⟨c1, fun side => ?_⟩
    rw [samplesOf_append]
    by_cases hs : s.side = side
    · rw [if_pos hs, trailing_append, trailing_append, ← hs, c2, c3, (hcount s.side).1,
        (hcount s.side).2]
      exact ⟨rfl, rfl⟩
    · have hopp : side = s.side.opposite := by
        revert hs
        cases side <;> cases s.side <;> simp [Side.opposite]
      rw [if_neg hs, hopp, c4, c5]
      exact hcount _

/-- The verdict of the resign rule at one more sample, for either player. -/
theorem resign_step (mc : Nat) (sc : Int) (hmc : 0 < mc) (hsc : 0 < sc) (xs : List Sample)
    (s : Sample)
    (hres : ((GameAdjudicator.new.setResignThreshold mc sc).addAll xs).m_result = none)
    (u : Side) :
    ((GameAdjudicator.new.setResignThreshold mc sc).addAll (xs ++ [s])).m_result
        = some (ChessResult.win u.opposite) ↔
      LastAll (isLosing sc) mc (samplesOf u (xs ++ [s])) ∧
        LastAll (isWinning sc) mc (samplesOf u.opposite (xs ++ [s])) := by
  obtain ⟨hcfg, hcount⟩ := addAll_resignOnly mc sc hmc xs hres
  obtain ⟨_, _, _, _, _, c6⟩ := addEval_resignOnly mc sc hmc _ hcfg hres s
  have hstep : (GameAdjudicator.new.setResignThreshold mc sc).addAll (xs ++ [s])
      = ((GameAdjudicator.new.setResignThreshold mc sc).addAll xs).addEval
          s.board s.score s.resetDraw := by
    rw [addAll_append]
    rfl
  rw [hstep, c6, lastAll_iff, lastAll_iff, samplesOf_append, samplesOf_append,
    (hcount s.side).1, (hcount s.side).2, (hcount s.side.opposite).1,
    (hcount s.side.opposite).2]
  have hne := opposite_ne s.side
  rcases eq_or_eq_opposite s.side u with hu | hu
  · subst hu
    rw [if_pos rfl, if_neg hne.symm, trailing_append]
    by_cases h1 : mc ≤ (if isLosing sc s = true
        then ((samplesOf s.side xs).reverse.takeWhile (isLosing sc)).length + 1 else 0)
          ∧ mc ≤ ((samplesOf s.side.opposite xs).reverse.takeWhile (isWinning sc)).length
    · rw [if_pos h1]
      exact ⟨fun _ => h1, fun _ => rfl⟩
    · rw [if_neg h1]
      constructor
      · intro h
        exfalso
        by_cases h2 : mc ≤ ((samplesOf s.side.opposite xs).reverse.takeWhile (isLosing sc)).length
            ∧ mc ≤ (if isWinning sc s = true
              then ((samplesOf s.side xs).reverse.takeWhile (isWinning sc)).length + 1 else 0)
        · rw [if_pos h2] at h
          exact hne (ChessResult.win.inj (Option.some.inj h)).symm
        · rw [if_neg h2] at h
          exact Option.noConfusion h
      · intro h
        exact absurd h h1
  · subst hu
    rw [opposite_opposite, if_neg hne.symm, if_pos rfl, trailing_append]
    by_cases h2 : mc ≤ ((samplesOf s.side.opposite xs).reverse.takeWhile (isLosing sc)).length
        ∧ mc ≤ (if isWinning sc s = true
          then ((samplesOf s.side xs).reverse.takeWhile (isWinning sc)).length + 1 else 0)
    · have h1 : ¬ (mc ≤ (if isLosing sc s = true
          then ((samplesOf s.side xs).reverse.takeWhile (isLosing sc)).length + 1 else 0)
            ∧ mc ≤ ((samplesOf s.side.opposite xs).reverse.takeWhile (isWinning sc)).length) := by
        rintro ⟨h1, _⟩
        obtain ⟨_, h2⟩ := h2
        by_cases hw : isWinning sc s = true
        · by_cases hl : isLosing sc s = true
          · unfold isWinning at hw
            unfold isLosing at hl
            simp only [decide_eq_true_eq] at hw hl
            omega
          · rw [if_neg hl] at h1
            omega
        · rw [if_neg hw] at h2
          omega
      rw [if_neg h1, if_pos h2]
      exact ⟨fun _ => h2, fun _ => rfl⟩
    · rw [if_neg h2]
      constructor
      · intro h
        exfalso
        by_cases h1 : mc ≤ (if isLosing sc s = true
            then ((samplesOf s.side xs).reverse.takeWhile (isLosing sc)).length + 1 else 0)
              ∧ mc ≤ ((samplesOf s.side.opposite xs).reverse.takeWhile (isWinning sc)).length
        · rw [if_pos h1] at h
          exact hne (ChessResult.win.inj (Option.some.inj h))
        · rw [if_neg h1] at h
          exact Option.noConfusion h
      · intro h
        exact absurd h h2

theorem samplesOf_cons (side : Side) (s : Sample) (rest : List Sample) :
    samplesOf side (s :: rest)
      = if s.side = side then s :: samplesOf side rest else samplesOf side rest := by
  unfold samplesOf
  by_cases h : s.side = side
  · simp [h]
  · simp [h]

/-- A stream in which the player `loser` reports only losing evaluations and the
opponent only winning ones, in any order: the loser counter of `loser` and the winner
counter of the opponent count the samples of each, there is no verdict while one of
them is below the move count, and the opponent wins as soon as both have reached
it. -/
theorem oneSided_stream (mc : Nat) (sc : Int) (hmc : 0 < mc) (hsc : 0 < sc) (loser : Side) :
    ∀ (xs : List Sample) (a : GameAdjudicator), ResignOnly mc sc a → a.m_result = none →
      a.m_resignWinnerScoreCount loser = 0 → OneSided sc loser xs →
      ((a.m_resignLoserScoreCount loser + (samplesOf loser xs).length < mc ∨
          a.m_resignWinnerScoreCount loser.opposite
            + (samplesOf loser.opposite xs).length < mc) →
        ResignOnly mc sc (a.addAll xs) ∧ (a.addAll xs).m_result = none ∧
        (a.addAll xs).m_resignWinnerScoreCount loser = 0 ∧
        (a.addAll xs).m_resignLoserScoreCount loser
          = a.m_resignLoserScoreCount loser + (samplesOf loser xs).length ∧
        (a.addAll xs).m_resignWinnerScoreCount loser.opposite
          = a.m_resignWinnerScoreCount loser.opposite
            + (samplesOf loser.opposite xs).length) ∧
      ((a.m_resignLoserScoreCount loser < mc ∨
          a.m_resignWinnerScoreCount loser.opposite < mc) →
        mc ≤ a.m_resignLoserScoreCount loser + (samplesOf loser xs).length →
        mc ≤ a.m_resignWinnerScoreCount loser.opposite
          + (samplesOf loser.opposite xs).length →
        (a.addAll xs).m_result = some (ChessResult.win loser.opposite)) := by
  intro xs
  induction xs with
  | nil =>
    intro a hcfg hres hw _
    refine ⟨fun _ => ⟨hcfg, hres, hw, rfl, rfl⟩, fun h h1 h2 => ?_⟩
    simp only [samplesOf, List.filter_nil, List.length_nil, Nat.add_zero] at h1 h2
    omega
  | cons s rest ih =>
    intro a hcfg hres hw hone
    have hs := hone s (List.mem_cons_self _ _)
    have hrest : OneSided sc loser rest := fun x hx => hone x (List.mem_cons_of_mem _ hx)
    obtain ⟨c1, c2, c3, c4, c5, c6⟩ := addEval_resignOnly mc sc hmc a hcfg hres s
    have hne := opposite_ne loser
    rw [addAll_cons, samplesOf_cons, samplesOf_cons]
    rcases eq_or_eq_opposite loser s.side with hside | hside
    · have hl : isLosing sc s = true := by
        unfold isLosing
        exact decide_eq_true (hs.1 hside)
      have hnw : ¬ isWinning sc s = true := by
        unfold isWinning
        have := hs.1 hside
        simp only [decide_eq_true_eq]
        omega
      rw [hside] at c2 c3 c4 c5 c6
      rw [if_pos hl] at c2 c6
      rw [if_neg hnw] at c3 c6
      rw [if_pos hside, if_neg (hside ▸ hne.symm), List.length_cons]
      have hsecond : ¬ (mc ≤ a.m_resignLoserScoreCount loser.opposite ∧ mc ≤ 0) := by omega
      rw [if_neg hsecond] at c6
      by_cases hv : mc ≤ a.m_resignLoserScoreCount loser + 1
          ∧ mc ≤ a.m_resignWinnerScoreCount loser.opposite
      · rw [if_pos hv] at c6
        have hdec := addAll_decided rest _ _ c6
        refine ⟨fun h => ?_, fun _ _ _ => by rw [hdec]; exact c6⟩
        omega
      · rw [if_neg hv] at c6
        obtain ⟨i1, i2⟩ := ih _ c1 c6 c3 hrest
        rw [c2, c5] at i1 i2
        constructor
        · intro h
          obtain ⟨j1, j2, j3, j4, j5⟩ := i1 (by omega)
          exact ⟨j1, j2, j3, by rw [j4]; omega, j5⟩
        · intro _ h1 h2
          exact i2 (by omega) (by omega) h2
    · have hw2 : isWinning sc s = true := by
        unfold isWinning
        exact decide_eq_true (hs.2 hside)
      have hnl : ¬ isLosing sc s = true := by
        unfold isLosing
        have := hs.2 hside
        simp only [decide_eq_true_eq]
        omega
      rw [hside, opposite_opposite] at c4 c5 c6
      rw [hside] at c2 c3
      rw [if_pos hw2] at c3 c6
      rw [if_neg hnl] at c2 c6
      rw [if_neg (hside ▸ hne), if_pos hside, List.length_cons]
      have hfirst : ¬ (mc ≤ 0 ∧ mc ≤ a.m_resignWinnerScoreCount loser) := by omega
      rw [if_neg hfirst] at c6
      by_cases hv : mc ≤ a.m_resignLoserScoreCount loser
          ∧ mc ≤ a.m_resignWinnerScoreCount loser.opposite + 1
      · rw [if_pos hv] at c6
        have hdec := addAll_decided rest _ _ c6
        refine ⟨fun h => ?_, fun _ _ _ => by rw [hdec]; exact c6⟩
        omega
      · rw [if_neg hv] at c6
        obtain ⟨i1, i2⟩ := ih _ c1 c6 (c5.trans hw) hrest
        rw [c3, c4] at i1 i2
        constructor
        · intro h
          obtain ⟨j1, j2, j3, j4, j5⟩ := i1 (by omega)
          exact ⟨j1, j2, j3, j4, by rw [j5]; omega⟩
        · intro _ h1 h2
          exact i2 (by omega) h1 (by omega)

/-- The resign rule alone never gives a draw. -/
theorem resign_not_draw (mc : Nat) (sc : Int) (hmc : 0 < mc) (xs : List Sample) :
    ((GameAdjudicator.new.setResignThreshold mc sc).addAll xs).m_result
      ≠ some ChessResult.draw := by
  induction xs using List.reverseRecOn with
  | nil =>
    intro h
    exact Option.noConfusion h
  | append_singleton ys s ih =>
    rw [addAll_append]
    cases h : ((GameAdjudicator.new.setResignThreshold mc sc).addAll ys).m_result with
    | some r =>
      rw [addAll_decided [s] _ r h, h]
      rw [h] at ih
      exact ih
    | none =>
      obtain ⟨hcfg, _⟩ := addAll_resignOnly mc sc hmc ys h
      obtain ⟨_, _, _, _, _, c6⟩ := addEval_resignOnly mc sc hmc _ hcfg h s
      have hstep : (((GameAdjudicator.new.setResignThreshold mc sc).addAll ys).addAll [s])
          = ((GameAdjudicator.new.setResignThreshold mc sc).addAll ys).addEval
              s.board s.score s.resetDraw := rfl
      rw [hstep, c6]
      intro hd
      split_ifs at hd <;> cases hd

/-- A sample of the opponent below the winning score, after a one-sided stream without
verdict: no verdict, and the winner counter of the opponent is back at zero. -/
theorem addEval_uncorroborated (mc : Nat) (sc : Int) (hmc : 0 < mc) (loser : Side)
    (a : GameAdjudicator) (hcfg : ResignOnly mc sc a) (hres : a.m_result = none)
    (hw : a.m_resignWinnerScoreCount loser = 0) (bad : Sample)
    (hside : bad.side = loser.opposite) (hbad : bad.score < sc) :
    ResignOnly mc sc (a.addEval bad.board bad.score bad.resetDraw) ∧
    (a.addEval bad.board bad.score bad.resetDraw).m_result = none ∧
    (a.addEval bad.board bad.score bad.resetDraw).m_resignWinnerScoreCount loser = 0 ∧
    (a.addEval bad.board bad.score bad.resetDraw).m_resignWinnerScoreCount loser.opposite
      = 0 := by
  obtain ⟨c1, _, c3, _, c5, c6⟩ := addEval_resignOnly mc sc hmc a hcfg hres bad
  have hnw : ¬ isWinning sc bad = true := by
    unfold isWinning
    simp only [decide_eq_true_eq]
    omega
  rw [hside, opposite_opposite] at c5 c6
  rw [hside] at c3
  rw [if_neg hnw] at c3 c6
  have h1 : ¬ ((mc ≤ if isLosing sc bad = true
      then a.m_resignLoserScoreCount loser.opposite + 1 else 0)
        ∧ mc ≤ a.m_resignWinnerScoreCount loser) := by
    rw [hw]
    omega
  have h2 : ¬ (mc ≤ a.m_resignLoserScoreCount loser ∧ mc ≤ 0) := by omega
  rw [if_neg h1, if_neg h2] at c6
  exact ⟨c1, c6, c5.trans hw, c3⟩

/-- C19: the resign rule.  An adjudicator with the resign threshold `(moveCount,
score)` alone, both positive, never returns a draw, and while it is undecided the next
sample makes a player the loser exactly when the last `moveCount` evaluations of that
player are all at or below `-score` and the last `moveCount` evaluations of the
opponent are all at or above `score`, whichever of the two reported the sample.  With
the threshold `(5, 500)` and a stream, in any order of the players, in which one
player reports only evaluations at or below `-500` and the opponent only evaluations
at or above `500`: the result is null while either has reported fewer than five, and
the opponent wins once both have reported five.  When the opponent reports an
evaluation below `500` before its fifth sample, its run starts again: the result
stays null until five more evaluations of the opponent have followed. -/
theorem resign_rule :
    (∀ (moveCount : Nat) (score : Int) (xs : List Sample), 0 < moveCount →
      ((GameAdjudicator.new.setResignThreshold moveCount score).addAll xs).result
        ≠ some ChessResult.draw) ∧
    (∀ (moveCount : Nat) (score : Int) (xs : List Sample) (s : Sample) (side : Side),
      0 < moveCount → 0 < score →
      ((GameAdjudicator.new.setResignThreshold moveCount score).addAll xs).result = none →
      (((GameAdjudicator.new.setResignThreshold moveCount score).addAll (xs ++ [s])).result
          = some (ChessResult.win side.opposite) ↔
        LastAll (isLosing score) moveCount (samplesOf side (xs ++ [s])) ∧
          LastAll (isWinning score) moveCount (samplesOf side.opposite (xs ++ [s])))) ∧
    (∀ (loser : Side) (xs : List Sample), OneSided 500 loser xs →
      ((samplesOf loser xs).length < 5 ∨ (samplesOf loser.opposite xs).length < 5 →
        ((GameAdjudicator.new.setResignThreshold 5 500).addAll xs).result = none) ∧
      (5 ≤ (samplesOf loser xs).length → 5 ≤ (samplesOf loser.opposite xs).length →
        ((GameAdjudicator.new.setResignThreshold 5 500).addAll xs).result
          = some (ChessResult.win loser.opposite))) ∧
    (∀ (loser : Side) (xs later : List Sample) (bad : Sample),
      OneSided 500 loser xs → (samplesOf loser.opposite xs).length < 5 →
      bad.side = loser.opposite → bad.score < 500 →
      OneSided 500 loser later → (samplesOf loser.opposite later).length < 5 →
      ((GameAdjudicator.new.setResignThreshold 5 500).addAll (xs ++ bad :: later)).result
        = none) := by
  refine ⟨?_, ?_, ?_, ?_⟩
  · intro mc sc xs hmc
    exact resign_not_draw mc sc hmc xs
  · intro mc sc xs s side hmc hsc hres
    exact resign_step mc sc hmc hsc xs s hres side
  · intro loser xs hone
    obtain ⟨h1, h2⟩ := oneSided_stream 5 500 (by decide) (by decide) loser xs
      (GameAdjudicator.new.setResignThreshold 5 500) ⟨rfl, rfl, rfl, rfl⟩ rfl rfl hone
    unfold GameAdjudicator.result
    constructor
    · intro h
      refine (h1 ?_).2.1
      show (0 : Nat) + (samplesOf loser xs).length < 5
        ∨ (0 : Nat) + (samplesOf loser.opposite xs).length < 5
      omega
    · intro ha hb
      refine h2 (Or.inl (show (0 : Nat) < 5 by decide)) ?_ ?_
      · show 5 ≤ (0 : Nat) + (samplesOf loser xs).length
        omega
      · show 5 ≤ (0 : Nat) + (samplesOf loser.opposite xs).length
        omega
  · intro loser xs later bad hone hfew hside hbad hlater hfew2
    obtain ⟨h1, _⟩ := oneSided_stream 5 500 (by decide) (by decide) loser xs
      (GameAdjudicator.new.setResignThreshold 5 500) ⟨rfl, rfl, rfl, rfl⟩ rfl rfl hone
    have hx : (0 : Nat) + (samplesOf loser xs).length < 5
        ∨ (0 : Nat) + (samplesOf loser.opposite xs).length < 5 := by omega
    obtain ⟨j1, j2, j3, _, _⟩ := h1 hx
    obtain ⟨k1, k2, k3, k4⟩ := addEval_uncorroborated 5 500 (by decide) loser _ j1 j2 j3 bad
      hside hbad
    obtain ⟨l1, _⟩ := oneSided_stream 5 500 (by decide) (by decide) loser later _ k1 k2 k3
      hlater
    unfold GameAdjudicator.result
    rw [addAll_append, addAll_cons]
    refine (l1 (Or.inr ?_)).2.1
    rw [k4]
    omega

/-- The loser, Black, reports first in every pair: five evaluations of each side give
the win to White, four do not; an evaluation of 300 by White at the fourth pair leaves
the result null after five pairs. -/
theorem resign_rule_sample :
    ((GameAdjudicator.new.setResignThreshold 5 500).addAll
      (inTurn Side.black [(30, -520), (31, 510), (31, -530), (32, 540), (32, -600),
        (33, 610), (33, -650), (34, 640), (34, -700), (35, 720)])).result
      = some (ChessResult.win Side.white) ∧
    ((GameAdjudicator.new.setResignThreshold 5 500).addAll
      (inTurn Side.black [(30, -520), (31, 510), (31, -530), (32, 540), (32, -600),
        (33, 610), (33, -650), (34, 640), (34, -700)])).result = none ∧
    ((GameAdjudicator.new.setResignThreshold 5 500).addAll
      (inTurn Side.white [(31, 510), (31, -530), (32, 540), (32, -600),
        (33, 610), (33, -650), (34, 640), (34, -700), (35, 720), (35, -710)])).result
      = some (ChessResult.win Side.white) ∧
    ((GameAdjudicator.new.setResignThreshold 5 500).addAll
      (inTurn Side.black [(30, -520), (31, 510), (31, -530), (32, 540), (32, -600),
        (33, 610), (33, -650), (34, 300), (34, -700), (35, 720)])).result = none := by
  decide

/-- Witness of C19: Black reports first and loses; five evaluations of each side, at or
below -500 by Black and at or above 500 by White. -/
theorem resign_rule_witness :
    OneSided 500 Side.black
      (inTurn Side.black [(30, -520), (31, 510), (31, -530), (32, 540), (32, -600),
        (33, 610), (33, -650), (34, 640), (34, -700), (35, 720)]) ∧
    ((GameAdjudicator.new.setResignThreshold 5 500).addAll
      (inTurn Side.black [(30, -520), (31, 510), (31, -530), (32, 540), (32, -600),
        (33, 610), (33, -650), (34, 640), (34, -700), (35, 720)])).result
      = some (ChessResult.win Side.white) :=
  have h : OneSided 500 Side.black
      (inTurn Side.black [(30, -520), (31, 510), (31, -530), (32, 540), (32, -600),
        (33, 610), (33, -650), (34, 640), (34, -700), (35, 720)]) := by
    unfold OneSided
    decide
  ⟨h, (resign_rule.2.2.1 Side.black _ h).2 (by decide) (by decide)⟩

/-! ## The ledger: the rest of the document -/

theorem onGameFinished_eq (tfMap : QVariantMap) (number : Int) (game : FinishedGame)
    (old : QVariantMap) (hn : 1 ≤ number)
    (hrec : (matchProgress tfMap)[(number - 1).toNat]? = some (QVariant.map old))
    (hne : old ≠ []) :
    onGameFinished tfMap number game
      = some (Written.document
          (QMap.insert tfMap "matchProgress" (QVariant.list
            (QList.replace (matchProgress tfMap) (number - 1)
              (QVariant.map (finishRecord old game)))))
          (QList.replace (matchProgress tfMap) (number - 1)
            (QVariant.map (finishRecord old game)))) := by
  have hemp : QMap.isEmpty old = false := by
    cases old with
    | nil => exact absurd rfl hne
    | cons p rest => rfl
  simp only [onGameFinished, finishLookup_eq tfMap number _ hn hrec, Option.map_some',
    QVariant.toMap, hemp, Bool.not_false, if_true]

/-- C21: the document that `onGameStarted` or `onGameFinished` writes differs from the
document read in the entry `matchProgress` only: every other key is present in the
one exactly when it is in the other, with the same value.  Starting a game
`number ≥ 1` always writes a document. -/
theorem document_frame (tfMap : QVariantMap) (number : Int)
    (white black startTime : String) (game : FinishedGame) :
    (∀ doc, onGameStarted tfMap number white black startTime = some doc →
      ∀ k, k ≠ "matchProgress" →
        QVariantMap.get doc k = QVariantMap.get tfMap k ∧
        QMap.contains doc k = QMap.contains tfMap k) ∧
    (1 ≤ number → ∃ doc, onGameStarted tfMap number white black startTime = some doc) ∧
    (∀ doc pList, onGameFinished tfMap number game = some (Written.document doc pList) →
      ∀ k, k ≠ "matchProgress" →
        QVariantMap.get doc k = QVariantMap.get tfMap k ∧
        QMap.contains doc k = QMap.contains tfMap k) := by
  have hframe : ∀ (v : QVariant) (k : String), k ≠ "matchProgress" →
      QVariantMap.get (QMap.insert tfMap "matchProgress" v) k = QVariantMap.get tfMap k ∧
      QMap.contains (QMap.insert tfMap "matchProgress" v) k = QMap.contains tfMap k := by
    intro v k hk
    rw [get_insert, if_neg hk, QMap.contains_insert]
    simp [hk]
  refine ⟨?_, ?_, ?_⟩
  · intro doc h k hk
    unfold onGameStarted at h
    cases hs : startedProgress tfMap number white black startTime with
    | none => rw [hs] at h; exact Option.noConfusion h
    | some pList =>
      rw [hs] at h
      simp only [Option.map_some', Option.some.injEq] at h
      rw [← h]
      exact hframe _ k hk
  · intro hn
    unfold onGameStarted
    rw [startedProgress_eq tfMap number white black startTime hn]
    exact ⟨_, rfl⟩
  · intro doc pList h k hk
    unfold onGameFinished at h
    cases hl : finishLookup tfMap number with
    | none => rw [hl] at h; exact Option.noConfusion h
    | some lp =>
      obtain ⟨l, pMap⟩ := lp
      rw [hl] at h
      simp only [Option.map_some', Option.some.injEq] at h
      by_cases hemp : QMap.isEmpty pMap = true
      · simp [hemp] at h
      · simp only [hemp, Bool.not_eq_true, Bool.not_false] at h
        simp only [if_true] at h
        injection h with hd _
        rw [← hd]
        exact hframe _ k hk

/-- Witness of C21: game 2 starts again, and game 1 finishes, on a document that holds
the settings of the tournament. -/
theorem document_frame_witness :
    (∃ doc, onGameStarted settingsDoc 2 "Beta" "Alpha" "12:00:00 on 2017.01.01" = some doc ∧
      QVariantMap.get doc "tournamentSettings"
        = QVariantMap.get settingsDoc "tournamentSettings" ∧
      QMap.contains doc "tournamentSettings" = true) ∧
    (∃ doc pList, onGameFinished settingsDoc 1 drawnGame = some (Written.document doc pList) ∧
      QVariantMap.get doc "tournamentSettings"
        = QVariantMap.get settingsDoc "tournamentSettings") := by
  have h := document_frame settingsDoc 2 "Beta" "Alpha" "12:00:00 on 2017.01.01" drawnGame
  have h1 := document_frame settingsDoc 1 "Beta" "Alpha" "12:00:00 on 2017.01.01" drawnGame
  obtain ⟨doc, hd⟩ := h.2.1 (by decide)
  have hfin : ∃ doc pList,
      onGameFinished settingsDoc 1 drawnGame = some (Written.document doc pList) :=
    ⟨_, _, onGameFinished_eq settingsDoc 1 drawnGame
      (startRecord 1 "Alpha" "Beta" "10:00:00 on 2017.01.01") (by decide) rfl
      (QMap.insert_ne_nil _ _ _)⟩
  obtain ⟨doc2, pList, hd2⟩ := hfin
  exact ⟨⟨doc, hd, (h.1 doc hd _ (by decide)).1,
      ((h.1 doc hd _ (by decide)).2).trans (by decide)⟩,
    ⟨doc2, pList, hd2, (h1.2.2 doc2 pList hd2 _ (by decide)).1⟩⟩

/-! ## The cross-table: the comparison is a strict weak ordering -/

/-- C22: the comparison `sortCrossTableDataByScore` is a strict weak ordering: no entry
ranks above itself, ranking above is transitive, and "neither ranks above the
other" is transitive and holds exactly when the two entries agree on raw score,
tie-break score, games as Black, total wins and wins as Black. -/
theorem sort_strictWeak :
    (∀ a, sortCrossTableDataByScore a a = false) ∧
    (∀ a b c, sortCrossTableDataByScore a b = true → sortCrossTableDataByScore b c = true →
      sortCrossTableDataByScore a c = true) ∧
    (∀ a b c,
      (sortCrossTableDataByScore a b = false ∧ sortCrossTableDataByScore b a = false) →
      (sortCrossTableDataByScore b c = false ∧ sortCrossTableDataByScore c b = false) →
      (sortCrossTableDataByScore a c = false ∧ sortCrossTableDataByScore c a = false)) ∧
    (∀ a b,
      (sortCrossTableDataByScore a b = false ∧ sortCrossTableDataByScore b a = false) ↔
        (a.m_score = b.m_score ∧ a.m_neustadtlScore = b.m_neustadtlScore ∧
          a.m_gamesPlayedAsBlack = b.m_gamesPlayedAsBlack ∧
          a.m_winsAsWhite + a.m_winsAsBlack = b.m_winsAsWhite + b.m_winsAsBlack ∧
          a.m_winsAsBlack = b.m_winsAsBlack)) := by
  refine ⟨fun a => ?_, fun a b c hab hbc => ?_, fun a b c hab hbc => ?_, fun a b => ?_⟩
  · rw [sort_false_iff]
  · rw [sort_iff_rankKey] at hab hbc ⊢
    exact lt_trans hbc hab
  · simp only [sort_false_iff] at hab hbc ⊢
    exact ⟨le_trans hab.1 hbc.1, le_trans hbc.2 hab.2⟩
  · rw [sort_false_iff, sort_false_iff, ← le_antisymm_iff, rankKey_eq_iff]

/-! ## The cross-table: mirrored result strings -/

theorem mirror_chars (r : String) :
    (whiteChar r).map mirror = blackChar r ∧ (blackChar r).map mirror = whiteChar r := by
  unfold whiteChar blackChar
  split_ifs <;> exact ⟨rfl, rfl⟩

theorem resultChars_mirror (p o : String) (hpo : p ≠ o) (gs : List Game) :
    resultChars o p gs = (resultChars p o gs).map mirror := by
  induction gs with
  | nil => rfl
  | cons g rest ih =>
    unfold resultChars at ih ⊢
    simp only [List.flatMap_cons, List.map_append, ih]
    congr 1
    obtain ⟨m1, m2⟩ := mirror_chars g.result
    by_cases hA : g.white = p ∧ g.black = o
    · have hB : ¬ (g.black = p ∧ g.white = o) := fun hB => hpo (hB.1.symm.trans hA.2)
      have hA2 : g.black = o ∧ g.white = p := ⟨hA.2, hA.1⟩
      have hB2 : ¬ (g.white = o ∧ g.black = p) := fun h => hB ⟨h.2, h.1⟩
      rw [if_pos hA, if_neg hB, if_neg hB2, if_pos hA2]
      simp [m1]
    · by_cases hB : g.black = p ∧ g.white = o
      · have hB2 : g.white = o ∧ g.black = p := ⟨hB.2, hB.1⟩
        have hA2 : ¬ (g.black = o ∧ g.white = p) := fun h => hA ⟨h.2, h.1⟩
        rw [if_neg hA, if_pos hB, if_pos hB2, if_neg hA2]
        simp [m2]
      · have hB2 : ¬ (g.white = o ∧ g.black = p) := fun h => hB ⟨h.2, h.1⟩
        have hA2 : ¬ (g.black = o ∧ g.white = p) := fun h => hA ⟨h.2, h.1⟩
        rw [if_neg hA, if_neg hB, if_neg hB2, if_neg hA2]
        rfl

theorem mirror_iff (c : Char) :
    (mirror c = '0' ↔ c = '1') ∧ (mirror c = '1' ↔ c = '0') ∧ (mirror c = '=' ↔ c = '=') := by
  unfold mirror
  by_cases h1 : c = '1'
  · subst h1; decide
  · by_cases h0 : c = '0'
    · subst h0; decide
    · simp [h1, h0]

/-- C23: with three or more players the cross-table is built from a table in which,
for any two different players `p` and `o`, the result string of `o` against `p` is
the result string of `p` against `o` with every character mirrored: the two have
the same length, and at each position the one holds `1` exactly when the other
holds `0`, and `=` exactly when the other holds `=`. -/
theorem cells_mirrored (fuel : Nat) (players : List PlayerData) (pList : QVariantList)
    (ctMap : CrossTable) (abbrevList : List String) (p o : String)
    (hlen : 3 ≤ players.length)
    (hnames : ensureNames fuel players [] [] = some (ctMap, abbrevList))
    (hpo : p ≠ o) :
    generateCrossTable fuel players pList
      = some (qSort sortCrossTableDataByScore
          (QMap.values (sbPass (scorePass ctMap pList)))) ∧
    (cell (sbPass (scorePass ctMap pList)) o p).data
      = (cell (sbPass (scorePass ctMap pList)) p o).data.map mirror ∧
    (cell (sbPass (scorePass ctMap pList)) o p).length
      = (cell (sbPass (scorePass ctMap pList)) p o).length ∧
    ∀ i : Nat,
      ((cell (sbPass (scorePass ctMap pList)) p o).data[i]? = some '1' ↔
        (cell (sbPass (scorePass ctMap pList)) o p).data[i]? = some '0') ∧
      ((cell (sbPass (scorePass ctMap pList)) p o).data[i]? = some '0' ↔
        (cell (sbPass (scorePass ctMap pList)) o p).data[i]? = some '1') ∧
      ((cell (sbPass (scorePass ctMap pList)) p o).data[i]? = some '=' ↔
        (cell (sbPass (scorePass ctMap pList)) o p).data[i]? = some '=') := by
  have hf := ensureNames_fresh fuel players [] [] (ctMap, abbrevList) fresh_default hnames
  simp only at hf
  have hcell : ∀ a b, (cell (sbPass (scorePass ctMap pList)) a b).data
      = resultChars a b (games pList) := by
    intro a b
    rw [← cell_scorePass ctMap pList hf a b]
    unfold cell
    rw [(sbPass_value _ a).2.1]
  have hm : (cell (sbPass (scorePass ctMap pList)) o p).data
      = (cell (sbPass (scorePass ctMap pList)) p o).data.map mirror := by
    rw [hcell, hcell, resultChars_mirror p o hpo]
  refine ⟨?_, hm, ?_, ?_⟩
  · unfold generateCrossTable
    rw [hnames]
    simp only [if_neg (show ¬ players.length = 2 by omega), Option.map_some']
  · show (cell (sbPass (scorePass ctMap pList)) o p).data.length
      = (cell (sbPass (scorePass ctMap pList)) p o).data.length
    rw [hm, List.length_map]
  · intro i
    rw [hm, List.getElem?_map]
    cases (cell (sbPass (scorePass ctMap pList)) p o).data[i]? with
    | none => simp
    | some c =>
      obtain ⟨m0, m1, m2⟩ := mirror_iff c
      simp only [Option.map_some', Option.some.injEq]
      exact ⟨m0.symm, m1.symm, m2.symm⟩

/-- Witness of C23: Alpha and Gamma on the mixed ledger of the four players. -/
theorem cells_mirrored_witness :
    (3 ≤ fourPlayers.length ∧
      ensureNames 10 fourPlayers [] [] = some (fourTable, ["Al", "Be", "Ga", "De"]) ∧
      ("Alpha" : String) ≠ "Gamma") ∧
    (cell (sbPass (scorePass fourTable mixedLedger)) "Gamma" "Alpha").data
      = (cell (sbPass (scorePass fourTable mixedLedger)) "Alpha" "Gamma").data.map mirror ∧
    (cell (sbPass (scorePass fourTable mixedLedger)) "Gamma" "Alpha").length
      = (cell (sbPass (scorePass fourTable mixedLedger)) "Alpha" "Gamma").length :=
  ⟨⟨by decide, ensureNames_fourPlayers, by decide⟩,
    (cells_mirrored 10 fourPlayers mixedLedger fourTable _ "Alpha" "Gamma" (by decide)
      ensureNames_fourPlayers (by decide)).2.1,
    (cells_mirrored 10 fourPlayers mixedLedger fourTable _ "Alpha" "Gamma" (by decide)
      ensureNames_fourPlayers (by decide)).2.2.1⟩

/-! ## The ledger: the move count -/

theorem qRoundHalf_eq (m : Nat) :
    qRoundHalf m = ⌈(m : ℚ) / 2⌉ ∧ qRoundHalf m = ⌊(m : ℚ) / 2 + 1 / 2⌋ ∧
    qRoundHalf m = qRound ((m : ℚ) / 2) := by
  have hfloor : qRoundHalf m = ⌊(m : ℚ) / 2 + 1 / 2⌋ := by
    unfold qRoundHalf
    symm
    rw [Int.floor_eq_iff]
    rcases Nat.even_or_odd' m with ⟨k, hk | hk⟩
    · have e : (2 * k + 1) / 2 = k := by omega
      rw [hk, e]
      push_cast
      constructor <;> linarith
    · have e : (2 * k + 1 + 1) / 2 = k + 1 := by omega
      rw [hk, e]
      push_cast
      constructor <;> linarith
  have hceil : qRoundHalf m = ⌈(m : ℚ) / 2⌉ := by
    unfold qRoundHalf
    symm
    rw [Int.ceil_eq_iff]
    rcases Nat.even_or_odd' m with ⟨k, hk | hk⟩
    · have e : (2 * k + 1) / 2 = k := by omega
      rw [hk, e]
      push_cast
      constructor <;> linarith
    · have e : (2 * k + 1 + 1) / 2 = k + 1 := by omega
      rw [hk, e]
      push_cast
      constructor <;> linarith
  refine ⟨hceil, hfloor, ?_⟩
  have h0 : (0 : ℚ) ≤ (m : ℚ) / 2 := by positivity
  have h1 : (0 : ℚ) ≤ (m : ℚ) / 2 + 1 / 2 := by positivity
  unfold qRound truncate
  rw [if_pos h0, if_pos h1]
  exact hfloor

/-- C24: when a game of `m` half-moves finishes, its score sheet being there, the value
stored under `plyCount` in the record of the game is `qRound(m / 2.)`, which is
`m / 2` rounded up to the next integer, halves going up: the number of full moves,
not of plies. -/
theorem plyCount_fullMoves (tfMap : QVariantMap) (number : Int) (game : FinishedGame)
    (old : QVariantMap) (eco : EcoInfo) (hn : 1 ≤ number)
    (hrec : (matchProgress tfMap)[(number - 1).toNat]? = some (QVariant.map old))
    (hne : old ≠ []) (heco : game.eco = some eco) :
    ∃ doc pList new, onGameFinished tfMap number game = some (Written.document doc pList) ∧
      pList[(number - 1).toNat]? = some (QVariant.map new) ∧
      QVariantMap.get new "plyCount" = QVariant.int ⌈(game.moves : ℚ) / 2⌉ ∧
      ⌈(game.moves : ℚ) / 2⌉ = qRound ((game.moves : ℚ) / 2) ∧
      ⌈(game.moves : ℚ) / 2⌉ = ⌊(game.moves : ℚ) / 2 + 1 / 2⌋ := by
  obtain ⟨q1, q2, q3⟩ := qRoundHalf_eq game.moves
  have hlt : (number - 1).toNat < (matchProgress tfMap).length := by
    by_contra hge
    rw [List.getElem?_eq_none (by omega)] at hrec
    exact Option.noConfusion hrec
  refine ⟨_, _, finishRecord old game, onGameFinished_eq tfMap number game old hn hrec hne,
    ?_, ?_, q1.symm.trans q3, q1.symm.trans q2⟩
  · simp only [QList.replace]
    rw [List.getElem?_set_self hlt]
  · rw [← q1]
    simp [finishRecord, heco, get_insert]

/-- Witness of C24: game 3 of the ledger of games 1 to 5 finishes after 81
half-moves. -/
theorem plyCount_fullMoves_witness :
    ((1 : Int) ≤ 3 ∧
      (matchProgress fiveGames)[((3 : Int) - 1).toNat]?
        = some (QVariant.map (startRecord 3 "Alpha" "Gamma" "11:00:00 on 2017.01.01")) ∧
      drawnGame.eco = some ⟨"C42", "Petrov", ""⟩) ∧
    ∃ doc pList new, onGameFinished fiveGames 3 drawnGame = some (Written.document doc pList) ∧
      pList[((3 : Int) - 1).toNat]? = some (QVariant.map new) ∧
      QVariantMap.get new "plyCount" = QVariant.int ⌈(drawnGame.moves : ℚ) / 2⌉ ∧
      ⌈(drawnGame.moves : ℚ) / 2⌉ = qRound ((drawnGame.moves : ℚ) / 2) ∧
      ⌈(drawnGame.moves : ℚ) / 2⌉ = ⌊(drawnGame.moves : ℚ) / 2 + 1 / 2⌋ :=
  have hrec : (matchProgress fiveGames)[((3 : Int) - 1).toNat]?
      = some (QVariant.map (startRecord 3 "Alpha" "Gamma" "11:00:00 on 2017.01.01")) := by
    simp [fiveGames, matchProgress_insert]
  ⟨⟨by decide, hrec, rfl⟩,
    plyCount_fullMoves fiveGames 3 drawnGame _ ⟨"C42", "Petrov", ""⟩ (by decide) hrec
      (QMap.insert_ne_nil _ _ _) rfl⟩

/-- The move counts of games of 0, 1 and 81 half-moves. -/
theorem plyCount_samples :
    qRoundHalf 0 = 0 ∧ qRoundHalf 1 = 1 ∧ qRoundHalf 81 = 41 ∧
    ⌈((81 : Nat) : ℚ) / 2⌉ = 41 ∧ ⌈((0 : Nat) : ℚ) / 2⌉ = 0 ∧ ⌈((1 : Nat) : ℚ) / 2⌉ = 1 := by
  refine ⟨rfl, rfl, rfl, ?_, ?_, ?_⟩
  · rw [← (qRoundHalf_eq 81).1]; rfl
  · rw [← (qRoundHalf_eq 0).1]; rfl
  · rw [← (qRoundHalf_eq 1).1]; rfl

end EngineMatch
